import Mathlib

/-!
Verification development for the scrap-hypatia simulation core.

The definitions below are shallow embeddings of the Python sources:

* `src/sim/experiment_isl_tasking.py` — `TokenProvider` (issue / validate /
  receipt) and `run_mode` (ground-gated and ISL-flood dispatch loops);
* `src/sim/hypatia_stub.py` — `HypatiaStub._process_queue` (store-and-forward
  delivery queue with ttl / reachability / outage / congestion semantics);
* `src/sim/hypatia_real.py` — `HypatiaScheduleSim` (schedule-driven topology);
* `src/sim/experiment_hypatia.py` — `run_trial` (job accounting, deadline and
  TTFS metrics) together with `scrap_hypatia/adapter.py` (`HypatiaTransport`).

Machine integers are modelled as `Nat`/`Int` (the Python sources only use
arbitrary-precision ints), geometric coordinates as `ℚ` (the sources use
floats only for positions and distances, compared with `<=`), byte strings as
`List Char`/`List Nat`, and the run-owned `random.Random` generator as an
explicit stream of rational draws in `[0,1)` consumed one value per call.
External library primitives (SHA-256, the JSON codec's float handling, trig
functions for node positions) are not part of the repository; they enter the
model as explicit parameters or modelled functions, each marked in its doc
comment.
-/

namespace ScrapHypatia

/-! ### Byte-level JSON token model

`TokenProvider.issue` builds a payload dict, serialises it with
`json.dumps(payload, sort_keys=True)` (default separators `", "` and `": "`),
signs the bytes, inserts the signature under key `"sig"` and serialises again.
`TokenProvider.validate` decodes the bytes with `json.loads`, pops `"sig"`,
re-serialises canonically and recomputes the keyed hash.  The JSON values
appearing in tokens are numbers, strings, and flat arrays of numbers or
strings; the model below covers exactly that fragment (with integer-valued
numbers: float formatting is an external library concern, out of the
repository's scope).  JSON objects are modelled as association lists in
textual order; `json.loads` keeps the last binding of a duplicated key, which
`dedupLast` reproduces. -/

inductive JAtom where
  | num (n : Int)
  | str (s : String)
deriving DecidableEq, Repr

inductive JVal where
  | num (n : Int)
  | str (s : String)
  | arr (xs : List JAtom)
deriving DecidableEq, Repr

abbrev TokObj := List (String × JVal)

/-- Characters accepted as insignificant whitespace by the JSON decoder
(`json.loads` skips space, tab, newline and carriage return between
tokens). -/
def isJsonWs (c : Char) : Bool :=
  c = ' ' || c = Char.ofNat 9 || c = Char.ofNat 10 || c = Char.ofNat 13

/-- String literal encoder: the payload strings produced by the simulator
(keys, service names, hex digests) contain no quotes, backslashes or control
characters, so `json.dumps` emits them verbatim between quotes. -/
def encStr (s : String) : List Char :=
  '"' :: s.data ++ ['"']

/-- Integer literal encoder, matching Python's `repr` for `int`. -/
def encInt (n : Int) : List Char :=
  (toString n).data

def encAtom : JAtom → List Char
  | .num n => encInt n
  | .str s => encStr s

/-- Comma separator used by `json.dumps` with default separators: `", "`. -/
def commaSep : List Char := [',', ' ']

def encAtomList : List JAtom → List Char
  | [] => []
  | [a] => encAtom a
  | a :: rest => encAtom a ++ commaSep ++ encAtomList rest

def encVal : JVal → List Char
  | .num n => encInt n
  | .str s => encStr s
  | .arr xs => '[' :: encAtomList xs ++ [']']

def encMember (kv : String × JVal) : List Char :=
  encStr kv.1 ++ [':', ' '] ++ encVal kv.2

def encMemberList : List (String × JVal) → List Char
  | [] => []
  | [kv] => encMember kv
  | kv :: rest => encMember kv ++ commaSep ++ encMemberList rest

/-- Code-point lexicographic order on strings (how Python compares the keys
for `sort_keys=True`), stated over the character lists so that it evaluates
by kernel reduction. -/
def charListLe : List Char → List Char → Bool
  | [], _ => true
  | _ :: _, [] => false
  | a :: as, b :: bs =>
    if a.toNat < b.toNat then true
    else if b.toNat < a.toNat then false
    else charListLe as bs

def strLe (a b : String) : Bool := charListLe a.data b.data

/-- Insertion sort of object members by key, modelling `sort_keys=True`
(Python sorts keys as strings; dict keys are unique so stability is moot). -/
def insertSorted (kv : String × JVal) : List (String × JVal) → List (String × JVal)
  | [] => [kv]
  | kv' :: rest =>
    if strLe kv.1 kv'.1 then kv :: kv' :: rest else kv' :: insertSorted kv rest

def sortByKey : List (String × JVal) → List (String × JVal)
  | [] => []
  | kv :: rest => insertSorted kv (sortByKey rest)

/-- Canonical object encoder: `json.dumps(obj, sort_keys=True)`. -/
def encObj (obj : TokObj) : List Char :=
  '{' :: encMemberList (sortByKey obj) ++ ['}']

/-! #### The decoder

A recursive-descent parser for the JSON fragment above, modelling
`json.loads` on token bytes: insignificant whitespace is allowed around
structural tokens, strings are plain (no escapes), numbers are optionally
signed integers.  Inputs outside this fragment fail to parse, which
`validate` maps to `decode_failed`. -/

def skipWs : List Char → List Char
  | c :: rest => if isJsonWs c then skipWs rest else c :: rest
  | [] => []

def isDigitCh (c : Char) : Bool := '0' ≤ c && c ≤ '9'

def takeDigits : List Char → (List Char × List Char)
  | c :: rest =>
    if isDigitCh c then
      let (ds, rem) := takeDigits rest
      (c :: ds, rem)
    else ([], c :: rest)
  | [] => ([], [])

def digitsToNat (ds : List Char) : Nat :=
  ds.foldl (fun acc c => acc * 10 + (c.toNat - '0'.toNat)) 0

def parseIntLit : List Char → Option (Int × List Char)
  | '-' :: rest =>
    match takeDigits rest with
    | ([], _) => none
    | (ds, rem) => some (-(digitsToNat ds : Int), rem)
  | cs =>
    match takeDigits cs with
    | ([], _) => none
    | (ds, rem) => some ((digitsToNat ds : Int), rem)

/-- Characters allowed inside a plain (escape-free) string literal: anything
except a quote or a backslash. -/
def isPlainStrChar (c : Char) : Bool :=
  c ≠ '"' && c ≠ '\\'

def takeStrChars : List Char → Option (List Char × List Char)
  | '"' :: rest => some ([], rest)
  | c :: rest =>
    if isPlainStrChar c then
      match takeStrChars rest with
      | some (cs, rem) => some (c :: cs, rem)
      | none => none
    else none
  | [] => none

def parseStrLit : List Char → Option (String × List Char)
  | '"' :: rest =>
    match takeStrChars rest with
    | some (cs, rem) => some (⟨cs⟩, rem)
    | none => none
  | _ => none

def parseAtom (cs : List Char) : Option (JAtom × List Char) :=
  match parseStrLit cs with
  | some (s, rem) => some (.str s, rem)
  | none =>
    match parseIntLit cs with
    | some (n, rem) => some (.num n, rem)
    | none => none

def parseAtomTail (fuel : Nat) (cs : List Char) :
    Option (List JAtom × List Char) :=
  match fuel with
  | 0 => none
  | fuel + 1 =>
    match skipWs cs with
    | ']' :: rem => some ([], rem)
    | ',' :: rest =>
      match parseAtom (skipWs rest) with
      | some (a, rem) =>
        match parseAtomTail fuel rem with
        | some (as, rem') => some (a :: as, rem')
        | none => none
      | none => none
    | _ => none

def parseArr (fuel : Nat) (cs : List Char) : Option (List JAtom × List Char) :=
  match skipWs cs with
  | ']' :: rem => some ([], rem)
  | cs' =>
    match parseAtom cs' with
    | some (a, rem) =>
      match parseAtomTail fuel rem with
      | some (as, rem') => some (a :: as, rem')
      | none => none
    | none => none

def parseVal (fuel : Nat) (cs : List Char) : Option (JVal × List Char) :=
  match cs with
  | '[' :: rest =>
    match parseArr fuel rest with
    | some (xs, rem) => some (.arr xs, rem)
    | none => none
  | _ =>
    match parseStrLit cs with
    | some (s, rem) => some (.str s, rem)
    | none =>
      match parseIntLit cs with
      | some (n, rem) => some (.num n, rem)
      | none => none

def parseMember (fuel : Nat) (cs : List Char) :
    Option ((String × JVal) × List Char) :=
  match parseStrLit (skipWs cs) with
  | some (k, rem) =>
    match skipWs rem with
    | ':' :: rest =>
      match parseVal fuel (skipWs rest) with
      | some (v, rem') => some ((k, v), rem')
      | none => none
    | _ => none
  | none => none

def parseMemberTail (fuel : Nat) (cs : List Char) :
    Option (TokObj × List Char) :=
  match fuel with
  | 0 => none
  | fuel + 1 =>
    match skipWs cs with
    | '}' :: rem => some ([], rem)
    | ',' :: rest =>
      match parseMember fuel rest with
      | some (kv, rem) =>
        match parseMemberTail fuel rem with
        | some (kvs, rem') => some (kv :: kvs, rem')
        | none => none
      | none => none
    | _ => none

def parseObjBody (fuel : Nat) (cs : List Char) : Option (TokObj × List Char) :=
  match skipWs cs with
  | '}' :: rem => some ([], rem)
  | cs' =>
    match parseMember fuel cs' with
    | some (kv, rem) =>
      match parseMemberTail fuel rem with
      | some (kvs, rem') => some (kv :: kvs, rem')
      | none => none
    | none => none

/-- Drop all but the last binding of each key, reproducing how `json.loads`
builds a dict from repeated keys. -/
def dedupLast (obj : TokObj) : TokObj :=
  match obj with
  | [] => []
  | (k, v) :: rest =>
    if (rest.map Prod.fst).contains k then dedupLast rest
    else (k, v) :: dedupLast rest

/-- Top-level decode of token bytes: a single JSON object with nothing but
whitespace around it. -/
def parseTok (cs : List Char) : Option TokObj :=
  match skipWs cs with
  | '{' :: rest =>
    match parseObjBody (cs.length) rest with
    | some (kvs, rem) =>
      match skipWs rem with
      | [] => some (dedupLast kvs)
      | _ => none
    | none => none
  | _ => none

/-! ### TokenProvider -/

/-- A task, mirroring the frozen dataclass `Task` in
`experiment_isl_tasking.py`.  Coordinates are modelled as rationals (the
source uses floats only to compare a Euclidean distance with a radius). -/
structure Task where
  task_id : Nat
  created_step : Nat
  deadline_step : Nat
  target : ℚ × ℚ
  service : String := "imaging"
deriving DecidableEq, Repr

/-- The token provider's fixed data: the shared secret and the keyed digest.
SHA-256 is an external primitive (the spec's non-goals exclude cryptographic
strength); it is modelled as an explicit parameter `hashS` mapping the bytes
`secret ++ raw` to the hex-digest string that `issue` embeds under `"sig"`. -/
structure TP where
  secret : List Char
  hashS : List Char → String

/-- Model of `TokenProvider.issue` at the byte level: serialise the payload
object canonically, sign it, add `"sig"` and serialise again.  The payload
object (already without `"sig"`) is passed explicitly; `payloadObjOf` below
builds the one `issue` constructs from a task. -/
def issueObj (tp : TP) (payload : TokObj) : List Char :=
  let raw := encObj payload
  let sig := tp.hashS (tp.secret ++ raw)
  encObj (payload ++ [("sig", .str sig)])

/-- The payload dict built by `TokenProvider.issue` for a task whose target
coordinates and radius are integer-valued (the byte-level model renders JSON
numbers as integers; float formatting is external). -/
def payloadObjOf (taskId validFrom validTo maxHops radius tx ty : Int)
    (service : String) : TokObj :=
  [("task_id", .num taskId),
   ("valid_from", .num validFrom),
   ("valid_to", .num validTo),
   ("max_hops", .num maxHops),
   ("radius", .num radius),
   ("target", .arr [.num tx, .num ty]),
   ("allowed_services", .arr [.str service])]

/-- Substring test, modelling Python's `in` on strings (used when a crafted
token's `allowed_services` decodes to a string rather than a list). -/
def strContains (hay needle : List Char) : Bool :=
  match hay with
  | [] => needle = []
  | _ :: rest => needle.isPrefixOf hay || strContains rest needle

/-- Validation result: `some (accepted, reason)` mirrors the source's return
value; `none` models an uncaught Python exception (`KeyError`/`TypeError`)
raised on a decoded object outside the token schema — only the decode step is
guarded by `try` in the source. -/
abbrev VResult := Option (Bool × String)

/-- Membership check `task.service not in payload.get("allowed_services", [])`:
a decoded list is searched by equality, a decoded string by substring (Python
`in`), a missing key defaults to the empty list, and any other decoded value
raises `TypeError`. -/
def serviceAllowed (v : Option JVal) (service : String) : Option Bool :=
  match v with
  | none => some false
  | some (.arr xs) => some (xs.contains (.str service))
  | some (.str s) => some (strContains s.data service.data)
  | some (.num _) => none

/-- Tail of `TokenProvider.validate` once the expiry window has passed: hop
limit, allowed services, presence of target and radius, in source order. -/
def validateObjChecks (objNoSig : TokObj) (task : Task) (hopCount : Int) :
    VResult :=
  match objNoSig.lookup "max_hops" with
  | some (.num mh) =>
    if hopCount > mh then some (false, "hop_limit")
    else
      match serviceAllowed (objNoSig.lookup "allowed_services") task.service with
      | none => none
      | some allowed =>
        if ¬ allowed then some (false, "service_not_allowed")
        else if objNoSig.lookup "target" = none
            ∨ objNoSig.lookup "radius" = none then
          some (false, "missing_target")
        else some (true, "ok")
  | _ => none

/-- Model of `TokenProvider.validate` after a successful decode (source lines
53–71): pop `"sig"`, re-serialise canonically, recompute the keyed hash, then
run the semantic checks in order.  Python's chained
`payload["valid_from"] <= now_step <= payload["valid_to"]` evaluates left to
right and short-circuits, so `valid_to` is only read when the first
comparison holds. -/
def validateObj (tp : TP) (obj : TokObj) (task : Task) (hopCount : Int)
    (nowStep : Int) : VResult :=
  let objNoSig := obj.filter (fun kv => kv.1 ≠ "sig")
  let raw := encObj objNoSig
  let expected := tp.hashS (tp.secret ++ raw)
  if obj.lookup "sig" ≠ some (.str expected) then some (false, "bad_signature")
  else
    match objNoSig.lookup "valid_from" with
    | some (.num vf) =>
      if ¬ vf ≤ nowStep then some (false, "expired")
      else
        match objNoSig.lookup "valid_to" with
        | some (.num vt) =>
          if ¬ nowStep ≤ vt then some (false, "expired")
          else validateObjChecks objNoSig task hopCount
        | _ => none
    | _ => none

/-- Model of `TokenProvider.validate` on token bytes: decode failure yields
`decode_failed`, otherwise the decoded object is checked by `validateObj`. -/
def validateBytes (tp : TP) (tokenBytes : List Char) (task : Task)
    (hopCount : Int) (nowStep : Int) : VResult :=
  match parseTok tokenBytes with
  | none => some (false, "decode_failed")
  | some obj => validateObj tp obj task hopCount nowStep

/-! ### Semantic token layer used by the `run_mode` model

Within `run_mode` every validated token was produced by
`token_provider.issue` in the same run, so the decode and signature steps of
`validate` always succeed and the remaining checks only consult the payload
fields (see `validateObj`; the agreement on well-formed issued objects is
exercised concretely in the theorems below).  The `run_mode` model therefore
stores the issued payload structurally and validates it with `validateSem`. -/

structure SemPayload where
  task_id : Nat
  valid_from : Nat
  valid_to : Nat
  max_hops : Nat
  radius : Option ℚ
  target : Option (ℚ × ℚ)
  allowed_services : List String
deriving DecidableEq, Repr

/-- The payload `TokenProvider.issue` builds from a task (source lines
33–41). -/
def issueSem (task : Task) (maxHops : Nat) (radius : ℚ) : SemPayload :=
  { task_id := task.task_id
    valid_from := task.created_step
    valid_to := task.deadline_step
    max_hops := maxHops
    radius := some radius
    target := some task.target
    allowed_services := [task.service] }

/-- Semantic checks of `TokenProvider.validate` (source lines 59–71) on an
issued payload: expiry window, hop limit, allowed services, presence of
target and radius, in that order. -/
def validateSem (p : SemPayload) (task : Task) (hopCount : Nat)
    (nowStep : Nat) : Bool × String :=
  if ¬ (p.valid_from ≤ nowStep ∧ nowStep ≤ p.valid_to) then (false, "expired")
  else if hopCount > p.max_hops then (false, "hop_limit")
  else if ¬ p.allowed_services.contains task.service then
    (false, "service_not_allowed")
  else if p.target = none ∨ p.radius = none then (false, "missing_target")
  else (true, "ok")

/-- Squared Euclidean distance between two rational points. -/
def distSq (a b : ℚ × ℚ) : ℚ :=
  (a.1 - b.1) * (a.1 - b.1) + (a.2 - b.2) * (a.2 - b.2)

/-- Spatial containment `_distance(target, sat_pos) <= radius`, stated
without square roots: for a nonnegative radius the distance is within the
radius iff the squared distance is within the squared radius, and for a
negative radius the comparison is always false.  The comparison is written on
numerators and denominators (cross-multiplied integer arithmetic) so that it
evaluates by kernel reduction; `withinRadius_iff` relates it to the
rational-level inequality `distSq a b ≤ radius * radius`. -/
def withinRadius (a b : ℚ × ℚ) (radius : ℚ) : Bool :=
  let n1 := a.1.num * (b.1.den : Int) - b.1.num * (a.1.den : Int)
  let d1 := (a.1.den : Int) * (b.1.den : Int)
  let n2 := a.2.num * (b.2.den : Int) - b.2.num * (a.2.den : Int)
  let d2 := (a.2.den : Int) * (b.2.den : Int)
  decide (0 ≤ radius.num) &&
    decide ((n1 * n1 * (d2 * d2) + n2 * n2 * (d1 * d1)) *
        ((radius.den : Int) * (radius.den : Int))
      ≤ radius.num * radius.num * (d1 * d1 * (d2 * d2)))

/-- The combined verdict computed in the ISL validation loop of `run_mode`
(source lines 234–237): `validate` runs first, then the spatial check
unconditionally replaces the verdict with `outside_area` whenever the holder
is outside the radius. -/
def combinedVerdict (v : Bool × String) (within : Bool) : Bool × String :=
  if ¬ within then (false, "outside_area") else v

/-! ### The `run_mode` simulation loop

`run_mode` (source lines 111–271) drives one mode ("ground" or "isl") for
`total_steps` steps.  All of its randomness and float arithmetic is consumed
through three deterministic views that the model takes as explicit inputs:

* `targets` — the task-target stream drawn by `_task_stream` from
  `random.Random(seed)`;
* `edges` — `hypatia.get_active_links()` at each step (the stub's
  `_active_edges` is a pure function of the step and the construction-time
  satellite sample);
* `positions` — `hypatia.get_node_positions()` at each step (trigonometric
  float arithmetic, external to the repository).

Python dicts are modelled as association lists in insertion order, with
update-in-place, `setdefault` appending at the end, and `pop` removing the
binding — mirroring dict iteration order exactly. -/

/-- Dict assignment `d[k] = v`: update in place if the key exists, else
append at the end (Python dicts preserve insertion order). -/
def alInsert {κ ν : Type} [BEq κ] (k : κ) (v : ν) :
    List (κ × ν) → List (κ × ν)
  | [] => [(k, v)]
  | (k', v') :: rest =>
    if k == k' then (k, v) :: rest else (k', v') :: alInsert k v rest

/-- Dict `d.setdefault(k, v)`: keep the dict unchanged when the key exists,
else append the new binding at the end. -/
def alSetdefault {κ ν : Type} [BEq κ] (k : κ) (v : ν)
    (l : List (κ × ν)) : List (κ × ν) :=
  if (l.lookup k).isSome then l else l ++ [(k, v)]

/-- Dict `d.pop(k, None)`: drop the binding for the key. -/
def alErase {κ ν : Type} [BEq κ] (k : κ) (l : List (κ × ν)) : List (κ × ν) :=
  l.filter (fun kv => !(kv.1 == k))

inductive Mode where
  | ground
  | isl
deriving DecidableEq, Repr

/-- The parameters of one `run_mode` invocation, with the three
seed-determined input streams described above. -/
structure MParams where
  mode : Mode
  totalSteps : Nat
  ttlSteps : Nat
  maxHops : Nat
  radius : ℚ
  edges : Nat → List (String × String)
  positions : Nat → String → Option (ℚ × ℚ)
  targets : Nat → ℚ × ℚ

/-- The task stream `_task_stream`: the task created at step `i` has
`task_id = i`, `created_step = i`, `deadline_step = i + ttl_steps` and a
target drawn from the seeded generator. -/
def taskAt (P : MParams) (i : Nat) : Task :=
  { task_id := i
    created_step := i
    deadline_step := i + P.ttlSteps
    target := P.targets i
    service := "imaging" }

/-- One event-log record, stamped with the step it was written at.  The
receipt bytes attached to `receipt_emitted` are a deterministic function of
the task id, satellite and step already carried by the record. -/
inductive Event where
  | taskCreated (t : Nat) (tid : Nat)
  | tokenIssued (t : Nat) (tid : Nat)
  | taskDispatched (t : Nat) (tid : Nat) (sat : String)
  | taskForwarded (t : Nat) (tid : Nat) (src dst : String)
  | tokenValidated (t : Nat) (tid : Nat) (sat : String) (ok : Bool) (reason : String)
  | taskReceived (t : Nat) (tid : Nat) (sat : String)
  | taskAccepted (t : Nat) (tid : Nat) (sat : String)
  | taskCompleted (t : Nat) (tid : Nat) (sat : String)
  | receiptEmitted (t : Nat) (tid : Nat) (sat : String)
  | deadlineMiss (t : Nat) (tid : Nat)
deriving DecidableEq, Repr

/-- The mutable state of the `run_mode` loop: the current step, the five
dicts (`pending`, `dispatched`, `in_flight`, `accepted`, `tokens`) and the
event log written so far. -/
structure MState where
  step : Nat
  pending : List (Nat × Task)
  dispatched : List (Nat × Nat)
  inFlight : List (Nat × List (String × Nat))
  accepted : List (Nat × Nat)
  tokens : List (Nat × SemPayload)
  events : List Event
deriving Repr

def initMState : MState :=
  { step := 0, pending := [], dispatched := [], inFlight := [],
    accepted := [], tokens := [], events := [] }

/-- Node names containing `"ground"` (the source tests `b"ground" in edge[i]`
by byte containment). -/
def isGroundNode (n : String) : Bool :=
  strContains n.data "ground".data

def touchesGround (e : String × String) : Bool :=
  isGroundNode e.1 || isGroundNode e.2

/-- Pick the satellite endpoint of a ground-contact edge
(`edge[0] if edge[0].startswith(b"sat-") else edge[1]`). -/
def contactSat (e : String × String) : String :=
  if "sat-".data.isPrefixOf e.1.data then e.1 else e.2

/-- The pending entry with the least task id, modelling
`sorted(pending.keys())[0]` followed by the dict lookup (keys are unique). -/
def minKeyPair : List (Nat × Task) → Option (Nat × Task)
  | [] => none
  | (k, v) :: rest =>
    match minKeyPair rest with
    | none => some (k, v)
    | some (k', v') => if k ≤ k' then some (k, v) else some (k', v')

/-- Ground-gated dispatch (source lines 160–183): hand the least pending task
to the satellite of the first ground contact and complete it immediately when
the satellite is within the task's radius. -/
def groundPhase (P : MParams) (contacts : List (String × String))
    (satPos : String → Option (ℚ × ℚ)) (s : MState) : MState :=
  match contacts with
  | [] => s
  | e :: _ =>
    let sat := contactSat e
    match minKeyPair s.pending with
    | none => s
    | some (tid, tsk) =>
      let dispatched' := alSetdefault tid s.step s.dispatched
      let ev1 := [Event.taskDispatched s.step tid sat,
                  Event.taskReceived s.step tid sat]
      let within := match satPos sat with
        | none => false
        | some p => withinRadius tsk.target p P.radius
      if within then
        { s with dispatched := dispatched'
                 accepted := alInsert tid s.step s.accepted
                 events := s.events ++ ev1 ++
                   [Event.taskAccepted s.step tid sat,
                    Event.taskCompleted s.step tid sat,
                    Event.receiptEmitted s.step tid sat]
                 pending := alErase tid s.pending }
      else
        { s with dispatched := dispatched', events := s.events ++ ev1 }

/-- One iteration of the ISL dispatch loop (source lines 190–194): a pending
task not yet dispatched is handed to the contact satellite, which is recorded
as its first holder with hop count 1. -/
def dispatchOne (sat : String) (st : MState) (kv : Nat × Task) : MState :=
  if (st.dispatched.lookup kv.1).isSome then st
  else
    { st with dispatched := alInsert kv.1 st.step st.dispatched
              inFlight := alInsert kv.1
                (alInsert sat 1 ((st.inFlight.lookup kv.1).getD []))
                st.inFlight
              events := st.events ++ [Event.taskDispatched st.step kv.1 sat] }

/-- ISL dispatch (source lines 187–194) over the pending snapshot. -/
def islDispatch (sat : String) (s : MState) : MState :=
  s.pending.foldl (dispatchOne sat) s

/-- Flood propagation across one edge (source lines 199–221): for a
non-ground edge, an endpoint held below the hop limit propagates to the other
endpoint with hop count one larger; `setdefault` keeps the first recorded hop
count.  Eligibility is read from the holder map as it was at the start of the
step (`holders`), while insertions go to the accumulated copy. -/
def propagateEdge (maxHops step tid : Nat) (holders : List (String × Nat))
    (acc : List (String × Nat) × List Event) (e : String × String) :
    List (String × Nat) × List Event :=
  if touchesGround e then acc
  else
    let acc1 :=
      match holders.lookup e.1 with
      | some ha =>
        if ha < maxHops then
          (alSetdefault e.2 (ha + 1) acc.1,
           acc.2 ++ [Event.taskForwarded step tid e.1 e.2])
        else acc
      | none => acc
    match holders.lookup e.2 with
    | some hb =>
      if hb < maxHops then
        (alSetdefault e.1 (hb + 1) acc1.1,
         acc1.2 ++ [Event.taskForwarded step tid e.2 e.1])
      else acc1
    | none => acc1

/-- Flood propagation over one task's holder map (source lines 198–221). -/
def propagateEdges (maxHops step tid : Nat)
    (edges : List (String × String)) (holders : List (String × Nat)) :
    List (String × Nat) × List Event :=
  edges.foldl (propagateEdge maxHops step tid holders) (holders, [])

/-- One iteration of the propagation loop: replace the task's holder map by
its propagated copy and append the forwarding events. -/
def propagateOne (P : MParams) (edges : List (String × String))
    (st : MState) (kv : Nat × List (String × Nat)) : MState :=
  { st with
      inFlight := alInsert kv.1
        (propagateEdges P.maxHops st.step kv.1 edges kv.2).1 st.inFlight
      events := st.events ++
        (propagateEdges P.maxHops st.step kv.1 edges kv.2).2 }

/-- ISL propagation across all in-flight tasks (source lines 197–222). -/
def islPropagate (P : MParams) (edges : List (String × String))
    (s : MState) : MState :=
  s.inFlight.foldl (propagateOne P edges) s

/-- Validation of one task against its holders in order (source lines
230–261): holders without a recorded position are skipped; otherwise the
token verdict is computed and overridden by the spatial check, and on the
first success the task completes, leaves `pending` and `in_flight`, and the
loop breaks. -/
def validateHolders (P : MParams) (satPos : String → Option (ℚ × ℚ))
    (tid : Nat) (tsk : Task) (tok : SemPayload) :
    List (String × Nat) → MState → MState
  | [], st => st
  | (sat, hop) :: rest, st =>
    match satPos sat with
    | none => validateHolders P satPos tid tsk tok rest st
    | some pos =>
      let within := withinRadius tsk.target pos P.radius
      let v := combinedVerdict (validateSem tok tsk hop st.step) within
      let st1 := { st with events := st.events ++
        [Event.tokenValidated st.step tid sat v.1 v.2] }
      if v.1 then
        { st1 with accepted := alInsert tid st1.step st1.accepted
                   events := st1.events ++
                     [Event.taskReceived st1.step tid sat,
                      Event.taskAccepted st1.step tid sat,
                      Event.taskCompleted st1.step tid sat,
                      Event.receiptEmitted st1.step tid sat]
                   pending := alErase tid st1.pending
                   inFlight := alErase tid st1.inFlight }
      else validateHolders P satPos tid tsk tok rest st1

/-- One iteration of the validation loop: validate one in-flight task against
its holder snapshot; tasks whose token is missing are skipped. -/
def validateOne (P : MParams) (satPos : String → Option (ℚ × ℚ))
    (st : MState) (kv : Nat × List (String × Nat)) : MState :=
  match st.tokens.lookup kv.1 with
  | none => st
  | some tok => validateHolders P satPos kv.1 (taskAt P kv.1) tok kv.2 st

/-- Validation across the in-flight snapshot (source lines 225–263). -/
def islValidate (P : MParams) (satPos : String → Option (ℚ × ℚ))
    (s : MState) : MState :=
  s.inFlight.foldl (validateOne P satPos) s

/-- End-of-step deadline sweep (source lines 266–269): every still-pending
task past its deadline is removed and a `deadline_miss` event is written. -/
def sweep (s : MState) : MState :=
  let missed := s.pending.filter (fun kv => s.step > kv.2.deadline_step)
  { s with events := s.events ++
             missed.map (fun kv => Event.deadlineMiss s.step kv.1)
           pending := s.pending.filter
             (fun kv => ¬ s.step > kv.2.deadline_step) }

/-- The body of `run_mode`'s per-step loop (source lines 144–271). -/
def stepFn (P : MParams) (s : MState) : MState :=
  let task := taskAt P s.step
  let s1 := { s with events := s.events ++ [Event.taskCreated s.step task.task_id]
                     pending := alInsert task.task_id task s.pending }
  let s2 :=
    if P.mode = .isl then
      { s1 with tokens := alInsert task.task_id
                  (issueSem task P.maxHops P.radius) s1.tokens
                events := s1.events ++ [Event.tokenIssued s1.step task.task_id] }
    else s1
  let edges := P.edges s.step
  let contacts := edges.filter touchesGround
  let satPos := P.positions s.step
  let groundAvailable := s.step % 6 == 0 && !contacts.isEmpty
  let s3 :=
    if P.mode = .ground && groundAvailable then groundPhase P contacts satPos s2
    else s2
  let s4 :=
    if P.mode = .isl then
      let s4a :=
        if groundAvailable then
          match contacts with
          | [] => s3
          | e :: _ => islDispatch (contactSat e) s3
        else s3
      islValidate P satPos (islPropagate P edges s4a)
    else s3
  let s5 := sweep s4
  { s5 with step := s5.step + 1 }

/-- The `run_mode` state after `n` steps. -/
def runModeState (P : MParams) : Nat → MState
  | 0 => initMState
  | n + 1 => stepFn P (runModeState P n)

/-- A full `run_mode` run: the state (and in particular the event log) after
`total_steps` steps. -/
def runMode (P : MParams) : MState :=
  runModeState P P.totalSteps

/-! ### The store-and-forward delivery queue (`HypatiaStub`)

`HypatiaStub._process_queue` (source lines 246–282) sweeps the queue once per
step: TTL expiry first, then BFS reachability over the step's edge set, then
an outage draw and a congestion draw from the run's generator, and otherwise
delivery.  Callbacks are modelled as emitted events (`_on_delivery` /
`_on_drop` subscribers only update metrics and job maps, which the sweep
itself never reads). -/

/-- A packet together with the metadata the experiments attach
(`HypatiaPacket` plus its `meta` dict).  `pid` models Python object identity;
`tInject` is `meta["t_inject"]` as stamped by `HypatiaTransport.send`. -/
structure Pkt where
  pid : Nat
  src : String
  dst : String
  payload : List Nat
  tInject : Nat
  jobId : Option Nat
  expected : Option (List Nat)
  ttlMeta : Option Nat
  tDeliver : Option Nat
deriving DecidableEq, Repr

/-- A queue entry (`_Queued`): the packet, the stub's own injection stamp and
the resolved TTL. -/
structure Queued where
  pkt : Pkt
  tInject : Nat
  ttl : Nat
deriving DecidableEq, Repr

inductive QEvent where
  | delivered (pkt : Pkt)
  | dropped (pkt : Pkt) (reason : String)
deriving DecidableEq, Repr

/-- One round of neighbour expansion over an undirected edge list. -/
def expandOnce (edges : List (String × String)) (seen : List String) :
    List String :=
  edges.foldl
    (fun acc e =>
      let acc1 :=
        if acc.contains e.1 && !acc.contains e.2 then acc ++ [e.2] else acc
      if acc1.contains e.2 && !acc1.contains e.1 then acc1 ++ [e.1] else acc1)
    seen

def reachableFrom (edges : List (String × String)) (src : String) :
    Nat → List String
  | 0 => [src]
  | n + 1 => expandOnce edges (reachableFrom edges src n)

/-- Existence of an undirected path, modelling `_has_path`'s BFS: true when
source equals destination or the destination lies in the connected component
of the source (the closure is reached after at most one expansion per edge
endpoint). -/
def hasPath (src dst : String) (edges : List (String × String)) : Bool :=
  src == dst || (reachableFrom edges src (2 * edges.length + 1)).contains dst

/-- Static configuration of a `HypatiaStub`: impairment probabilities, the
default TTL, and the active edge set per step (`_active_edges` is a pure
function of the step and the construction-time satellite sample, supplied
here as a stream). -/
structure StubCfg where
  outageP : ℚ
  congP : ℚ
  defaultTtl : Nat
  edges : Nat → List (String × String)

/-- The resolution of one queued packet (`_process_queue` loop body): TTL
drop, keep (no path, no draw consumed), outage drop (one draw), congestion
drop (two draws) or delivery (two draws). -/
def processPacket (cfg : StubCfg) (edgesNow : List (String × String))
    (t : Nat) (draws : Nat → ℚ) (q : Queued) (pos : Nat) :
    Option Queued × List QEvent × Nat :=
  if t - q.tInject > q.ttl then (none, [.dropped q.pkt "ttl"], pos)
  else if ¬ hasPath q.pkt.src q.pkt.dst edgesNow then (some q, [], pos)
  else if draws pos < cfg.outageP then (none, [.dropped q.pkt "outage"], pos + 1)
  else if draws (pos + 1) < cfg.congP then
    (none, [.dropped q.pkt "congestion"], pos + 2)
  else (none, [.delivered q.pkt], pos + 2)

/-- The full queue sweep: packets are popped and resolved in the order they
were enqueued; kept packets retain their relative order. -/
def processQueue (cfg : StubCfg) (edgesNow : List (String × String))
    (t : Nat) (draws : Nat → ℚ) (queue : List Queued) (pos : Nat) :
    List Queued × List QEvent × Nat :=
  queue.foldl
    (fun (acc : List Queued × List QEvent × Nat) q =>
      (acc.1 ++ (processPacket cfg edgesNow t draws q acc.2.2).1.toList,
       acc.2.1 ++ (processPacket cfg edgesNow t draws q acc.2.2).2.1,
       (processPacket cfg edgesNow t draws q acc.2.2).2.2))
    ([], [], pos)

structure StubState where
  t : Nat
  queue : List Queued
deriving DecidableEq, Repr

def initStub : StubState := { t := 0, queue := [] }

/-- `inject_packet`: enqueue with the current step as injection stamp and the
packet's `ttl_steps` metadata (default from construction). -/
def stubInject (cfg : StubCfg) (s : StubState) (pkt : Pkt) : StubState :=
  { s with queue := s.queue ++
      [{ pkt := pkt, tInject := s.t, ttl := pkt.ttlMeta.getD cfg.defaultTtl }] }

/-- One `step(1)`: advance time, then sweep the queue at the new step. -/
def stubStepOne (cfg : StubCfg) (draws : Nat → ℚ) (s : StubState)
    (pos : Nat) : StubState × List QEvent × Nat :=
  let t' := s.t + 1
  let r := processQueue cfg (cfg.edges t') t' draws s.queue pos
  ({ t := t', queue := r.1 }, r.2.1, r.2.2)

/-- Run the stub for `n` steps, collecting the emitted events stamped with
the step at which they fired. -/
def stubRun (cfg : StubCfg) (draws : Nat → ℚ) :
    StubState → Nat → Nat → StubState × List (Nat × QEvent) × Nat
  | s, pos, 0 => (s, [], pos)
  | s, pos, n + 1 =>
    let r := stubStepOne cfg draws s pos
    let rest := stubRun cfg draws r.1 r.2.2 n
    (rest.1, r.2.1.map (fun e => (r.1.t, e)) ++ rest.2.1, rest.2.2)

/-! ### The schedule-driven simulator (`HypatiaScheduleSim`)

`hypatia_real.py` replays a precomputed connectivity schedule: entry `t` of
the schedule holds the edge list for step `t`, and `_edges_at_time` clamps
the index to the final entry (`min(t, len(steps) - 1)`).  Its queue sweep has
only TTL and reachability outcomes (no impairment draws). -/

abbrev Schedule := List (List (String × String))

/-- Model of `_edges_at_time`: index the schedule at `min t (S - 1)`.  On an
empty schedule the source would raise `IndexError`; the model returns no
edges and the theorems restrict to non-empty schedules. -/
def edgesAtTime (schedule : Schedule) (t : Nat) : List (String × String) :=
  (schedule.get? (min t (schedule.length - 1))).getD []

structure SchedState where
  t : Nat
  queue : List (Nat × Pkt)
deriving DecidableEq, Repr

def initSched : SchedState := { t := 0, queue := [] }

/-- `get_active_links` of the schedule sim. -/
def schedActiveLinks (schedule : Schedule) (s : SchedState) :
    List (String × String) :=
  edgesAtTime schedule s.t

/-- `can_send` of the schedule sim. -/
def schedCanSend (schedule : Schedule) (s : SchedState) (src dst : String) :
    Bool :=
  hasPath src dst (edgesAtTime schedule s.t)

def schedInject (s : SchedState) (pkt : Pkt) : SchedState :=
  { s with queue := s.queue ++ [(s.t, pkt)] }

/-- `HypatiaScheduleSim._process_queue`: TTL expiry, then reachability, then
delivery; no impairment draws. -/
def schedProcessQueue (schedule : Schedule) (ttlDefault : Nat) (t : Nat)
    (queue : List (Nat × Pkt)) : List (Nat × Pkt) × List QEvent :=
  let edgesNow := edgesAtTime schedule t
  queue.foldl
    (fun (acc : List (Nat × Pkt) × List QEvent) q =>
      if t - q.1 > q.2.ttlMeta.getD ttlDefault then
        (acc.1, acc.2 ++ [.dropped q.2 "ttl"])
      else if ¬ hasPath q.2.src q.2.dst edgesNow then (acc.1 ++ [q], acc.2)
      else (acc.1, acc.2 ++ [.delivered q.2]))
    ([], [])

def schedStepOne (schedule : Schedule) (ttlDefault : Nat) (s : SchedState) :
    SchedState × List QEvent :=
  let t' := s.t + 1
  let r := schedProcessQueue schedule ttlDefault t' s.queue
  ({ t := t', queue := r.1 }, r.2)

/-! ### The `run_trial` experiment loop (`experiment_hypatia.py`)

`run_trial` injects `inject_per_step` jobs per step through
`HypatiaTransport`, advances the simulator, applies the delivery and drop
callbacks, and sweeps deadlines.  The simulator behind the transport is
abstracted as `SimIface` (the source accepts any object with the
`inject_packet`/`step`/`now`/callback surface); the stub and the schedule sim
above provide the two instances used in the repository.  The capability-token
service (`scrap_backend`) is external to the core — tokens, requests and
receipts are opaque byte strings used only for byte equality — so the model
takes the receipt produced for each job as an input stream `receiptOf`. -/

structure SimIface (σ : Type) where
  now : σ → Nat
  inject : σ → Pkt → σ
  stepOne : σ → (Nat → ℚ) → Nat → σ × List QEvent × Nat
  satNodes : List String
  groundNodes : List String

/-- The `SimIface` instance backed by `HypatiaStub`. -/
def stubIface (cfg : StubCfg) (satNodes groundNodes : List String) :
    SimIface StubState :=
  { now := StubState.t
    inject := stubInject cfg
    stepOne := fun s draws pos => stubStepOne cfg draws s pos
    satNodes := satNodes
    groundNodes := groundNodes }

/-- The `SimIface` instance backed by `HypatiaScheduleSim` (no impairment
draws; the stream and position pass through unchanged). -/
def schedIface (schedule : Schedule) (ttlDefault : Nat)
    (satNodes groundNodes : List String) : SimIface SchedState :=
  { now := SchedState.t
    inject := schedInject
    stepOne := fun s _ pos =>
      let r := schedStepOne schedule ttlDefault s
      (r.1, r.2, pos)
    satNodes := satNodes
    groundNodes := groundNodes }

/-- The counters of the `Metrics` dataclass (the derived float rates in the
returned dict are computed from these counters by external
formatting code). -/
structure Metrics where
  injected : Nat := 0
  delivered : Nat := 0
  droppedCount : Nat := 0
  tampered : Nat := 0
  verifiedOk : Nat := 0
  verifiedBad : Nat := 0
  completed : Nat := 0
  deadlineMissed : Nat := 0
  ttfsSteps : List Int := []
deriving DecidableEq, Repr

structure TrialCfg where
  steps : Nat
  injectPerStep : Nat
  attackP : ℚ
  ttlSteps : Nat
  deadlineSteps : Nat
  nSats : Nat

structure TrialState (σ : Type) where
  sim : σ
  rpos : Nat
  metrics : Metrics
  jobInjectT : List (Nat × Nat)
  jobExpected : List (Nat × List Nat)
  jobDeadline : List (Nat × Nat)
  jobId : Nat

/-- Model of one `rng.choice`/`rng.randrange` index draw: a single stream
value in `[0,1)` scaled to the range (every index is realisable and exactly
one generator call is consumed, as in the source).  The floor of `r * n` is
computed on the numerator and denominator so that it evaluates by kernel
reduction. -/
def drawIdx (r : ℚ) (n : Nat) : Nat :=
  min (Int.toNat ((r.num * n).fdiv (r.den : Int))) (n - 1)

/-- `tamper`: flip the low bit of the byte at the drawn index. -/
def tamperFlip (payload : List Nat) (idx : Nat) : List Nat :=
  payload.set idx ((payload.getD idx 0) ^^^ 1)

/-- One iteration of the inject loop (source lines 152–188): draw source and
destination, build the receipt payload, optionally tamper with it, record the
job maps, and hand the packet to the transport (which stamps `t_inject` and
counts the injection). -/
def injectOne {σ : Type} (iface : SimIface σ) (cfg : TrialCfg)
    (receiptOf : Nat → List Nat) (draws : Nat → ℚ)
    (st : TrialState σ) : TrialState σ :=
  let j := st.jobId
  let p0 := st.rpos
  let src :=
    if iface.satNodes ≠ [] then
      iface.satNodes.getD (drawIdx (draws p0) iface.satNodes.length) ""
    else "sat-" ++ toString (drawIdx (draws p0) cfg.nSats)
  let p1 := p0 + 1
  let dst := iface.groundNodes.getD
    (drawIdx (draws p1) iface.groundNodes.length) ""
  let p2 := p1 + 1
  let receipt := receiptOf j
  let tampering :=
    if 0 < cfg.attackP then
      if draws p2 < cfg.attackP then
        if receipt = [] then (receipt, true, p2 + 1)
        else
          (tamperFlip receipt (drawIdx (draws (p2 + 1)) receipt.length),
           true, p2 + 2)
      else (receipt, false, p2 + 1)
    else (receipt, false, p2)
  let payload := tampering.1
  let now := iface.now st.sim
  let pkt : Pkt :=
    { pid := j, src := src, dst := dst, payload := payload, tInject := now
      jobId := some j, expected := some receipt
      ttlMeta := some cfg.ttlSteps, tDeliver := none }
  { st with
      sim := iface.inject st.sim pkt
      rpos := tampering.2.2
      metrics :=
        { st.metrics with
            injected := st.metrics.injected + 1
            tampered := st.metrics.tampered +
              (if tampering.2.1 then 1 else 0) }
      jobInjectT := st.jobInjectT ++ [(j, now)]
      jobExpected := st.jobExpected ++ [(j, receipt)]
      jobDeadline := st.jobDeadline ++ [(j, now + cfg.deadlineSteps)]
      jobId := j + 1 }

/-- `on_rx` (source lines 122–143) applied on a verified delivery to a ground
node: count the verification, and on success count the completion, record the
TTFS sample and clear the job from the tracking maps. -/
def onRx {σ : Type} (st : TrialState σ) (pkt : Pkt) : TrialState σ :=
  let ok := match pkt.expected with
    | some e => e == pkt.payload
    | none => false
  let m1 :=
    if ok then { st.metrics with verifiedOk := st.metrics.verifiedOk + 1 }
    else { st.metrics with verifiedBad := st.metrics.verifiedBad + 1 }
  match ok, pkt.jobId, pkt.tDeliver with
  | true, some j, some td =>
    { st with
        metrics :=
          { m1 with
              completed := m1.completed + 1
              ttfsSteps := m1.ttfsSteps ++ [(td : Int) - (pkt.tInject : Int)] }
        jobInjectT := alErase j st.jobInjectT
        jobExpected := alErase j st.jobExpected
        jobDeadline := alErase j st.jobDeadline }
  | _, _, _ => { st with metrics := m1 }

/-- Apply one simulator callback: `HypatiaTransport._on_delivery` stamps
`t_deliver`, counts the delivery and invokes the receiver registered for the
destination (one per ground node); `_on_drop` counts the drop. -/
def handleQEvent {σ : Type} (groundNodes : List String) (now : Nat)
    (st : TrialState σ) : QEvent → TrialState σ
  | .delivered pkt =>
    let pkt' := { pkt with tDeliver := some now }
    let st1 := { st with metrics :=
      { st.metrics with delivered := st.metrics.delivered + 1 } }
    if groundNodes.contains pkt'.dst then onRx st1 pkt' else st1
  | .dropped _ _ =>
    { st with metrics :=
      { st.metrics with droppedCount := st.metrics.droppedCount + 1 } }

/-- End-of-step deadline sweep (source lines 194–199): every job whose
deadline has passed and which is still tracked is counted as missed and
cleared from the maps. -/
def trialSweep {σ : Type} (now : Nat) (st : TrialState σ) : TrialState σ :=
  let expired := (st.jobDeadline.filter (fun kv => now > kv.2)).map Prod.fst
  expired.foldl
    (fun acc j =>
      { acc with
          metrics := { acc.metrics with
            deadlineMissed := acc.metrics.deadlineMissed + 1 }
          jobInjectT := alErase j acc.jobInjectT
          jobExpected := alErase j acc.jobExpected
          jobDeadline := alErase j acc.jobDeadline })
    st

/-- One iteration of the main loop (source lines 150–199): inject
`inject_per_step` jobs, advance the simulator one step (applying its
callbacks in emission order), then sweep deadlines at the new time. -/
def iterApply {α : Type} (f : α → α) : Nat → α → α
  | 0, a => a
  | n + 1, a => iterApply f n (f a)

def trialStep {σ : Type} (iface : SimIface σ) (cfg : TrialCfg)
    (receiptOf : Nat → List Nat) (draws : Nat → ℚ)
    (st : TrialState σ) : TrialState σ :=
  let st1 := iterApply (injectOne iface cfg receiptOf draws)
    cfg.injectPerStep st
  let r := iface.stepOne st1.sim draws st1.rpos
  let now := iface.now r.1
  let st2 := { st1 with sim := r.1, rpos := r.2.2 }
  let st3 := r.2.1.foldl (handleQEvent iface.groundNodes now) st2
  trialSweep now st3

def initTrial {σ : Type} (sim0 : σ) : TrialState σ :=
  { sim := sim0, rpos := 0, metrics := {}, jobInjectT := []
    jobExpected := [], jobDeadline := [], jobId := 0 }

/-- A full `run_trial` run: the metrics counters together with `total_jobs`
(the final job counter). -/
def runTrial {σ : Type} (iface : SimIface σ) (cfg : TrialCfg)
    (receiptOf : Nat → List Nat) (draws : Nat → ℚ) (sim0 : σ) :
    Metrics × Nat :=
  let final := iterApply (trialStep iface cfg receiptOf draws) cfg.steps
    (initTrial sim0)
  (final.metrics, final.jobId)

/-! ### Specification-side definitions and concrete instances

`firstFailure`/`semChecks` formalise the specification's reading of
`Validate` as "return the first failing reason in a fixed order"; they are
written from the spec text and compared against the source-derived
definitions in the theorems. -/

/-- Return the first failing check's reason, or `ok` when every check
passes. -/
def firstFailure : List (Bool × String) → Bool × String
  | [] => (true, "ok")
  | c :: rest => if c.1 then firstFailure rest else (false, c.2)

/-- The ordered semantic checks of the spec's `Validate` contract (after
decode and signature): expiry window, hop limit, allowed services, missing
target/radius. -/
def semChecks (p : SemPayload) (task : Task) (hopCount nowStep : Nat) :
    List (Bool × String) :=
  [(decide (p.valid_from ≤ nowStep ∧ nowStep ≤ p.valid_to), "expired"),
   (decide (hopCount ≤ p.max_hops), "hop_limit"),
   (p.allowed_services.contains task.service, "service_not_allowed"),
   (decide (p.target ≠ none ∧ p.radius ≠ none), "missing_target")]

/-- The claim's version of the combined verdict: spatial containment is one
more check applied after all the others, never overriding an earlier
failure. -/
def claimVerdict (p : SemPayload) (task : Task) (hopCount nowStep : Nat)
    (within : Bool) : Bool × String :=
  firstFailure (semChecks p task hopCount nowStep ++ [(within, "outside_area")])

/-- Does the event log contain a `receipt_emitted` record for the task? -/
def hasReceiptB (tid : Nat) (evs : List Event) : Bool :=
  evs.any (fun e => match e with
    | .receiptEmitted _ tid' _ => tid' == tid
    | _ => false)

/-- Does the event log contain a `deadline_miss` record for the task? -/
def hasMissB (tid : Nat) (evs : List Event) : Bool :=
  evs.any (fun e => match e with
    | .deadlineMiss _ tid' => tid' == tid
    | _ => false)

/-- Hop count recorded for a satellite in a task's holder map. -/
def holderHop (s : MState) (tid : Nat) (sat : String) : Option Nat :=
  (s.inFlight.lookup tid).bind (fun holders => holders.lookup sat)

/-! #### Concrete instances used by counterexamples and witnesses -/

/-- A concrete keyed digest standing in for SHA-256 in evaluated instances
(the theorems about the provider quantify over the digest). -/
def hashC : List Char → String :=
  fun l => Nat.repr ((l.foldl (fun a c => a * 256 + c.toNat + 1) 7) % (10 ^ 12))

def tpC : TP := { secret := "experiment-001".data, hashS := hashC }

def taskC : Task :=
  { task_id := 0, created_step := 0, deadline_step := 9, target := (0, 0) }

/-- The payload dict `issue` builds for `taskC` with `max_hops = 4`,
`radius = 2`. -/
def objC : TokObj := payloadObjOf 0 0 9 4 2 0 0 "imaging"

def tokC : List Char := issueObj tpC objC

/-- `tokC` with the single byte at index 20 — the insignificant space after
`"allowed_services":` — replaced by a tab. -/
def tokCws : List Char := tokC.set 20 (Char.ofNat 9)

/-- `tokC` with its opening brace replaced, destroying the JSON framing. -/
def tokCbad : List Char := tokC.set 0 'X'

/-- A task already expired at step 10 (deadline 5), for the override
counterexample. -/
def taskC2 : Task :=
  { task_id := 0, created_step := 0, deadline_step := 5, target := (0, 0) }

def payC2 : SemPayload := issueSem taskC2 4 1

/-- A one-step ISL run in which the only edge is a ground contact and the
single satellite sits on the task target: the dispatched holder is recorded
with hop count 1 and, with `max_hops = 0`, is immediately rejected with
`hop_limit`. -/
def Pc3 : MParams :=
  { mode := .isl, totalSteps := 1, ttlSteps := 3, maxHops := 0, radius := 1,
    edges := fun _ => [("sat-0", "ground-0")],
    positions := fun _ n => if n = "sat-0" then some (0, 0) else none,
    targets := fun _ => (0, 0) }

/-- A two-step ISL run with `max_hops = 2`: step 0 dispatches to `sat-0`
(hop 1), step 1 propagates to `sat-1` (hop 2); no positions are known, so no
validation ever succeeds and the flood persists. -/
def Pc8 : MParams :=
  { mode := .isl, totalSteps := 2, ttlSteps := 3, maxHops := 2, radius := 1,
    edges := fun t => if t = 0 then [("sat-0", "ground-0")]
                      else [("sat-0", "sat-1")],
    positions := fun _ _ => none,
    targets := fun _ => (0, 0) }

/-- An isolated packet with `ttl_steps = 0` injected at step 0 into a stub
with no edges at all. -/
def pktC7 : Pkt :=
  { pid := 0, src := "sat-0", dst := "ground-0", payload := [], tInject := 0,
    jobId := none, expected := none, ttlMeta := some 0, tDeliver := none }

def cfgC7 : StubCfg :=
  { outageP := 0, congP := 0, defaultTtl := 30, edges := fun _ => [] }

/-- The schedule of the `run_trial` double-count run: no connectivity for two
steps, then a single ground contact. -/
def schedC5 : Schedule := [[], [], [("sat-0", "ground-0")]]

def ifaceC5 : SimIface SchedState := schedIface schedC5 30 ["sat-0"] ["ground-0"]

/-- `run_trial` parameters for the double-count run: two steps, one job per
step, no tampering, `ttl_steps = 5`, `deadline_steps = 0`. -/
def cfgC5 : TrialCfg :=
  { steps := 2, injectPerStep := 1, attackP := 0, ttlSteps := 5,
    deadlineSteps := 0, nSats := 1 }

def receiptsC5 : Nat → List Nat := fun j => [j + 1]

/-- Stub configuration and parameters of the small witness run for the
`run_trial` determinism theorem: one always-on ground contact, tampering
certain. -/
def scfgW : StubCfg :=
  { outageP := 0, congP := 0, defaultTtl := 3,
    edges := fun _ => [("sat-0", "ground-0")] }

def ifaceW : SimIface StubState := stubIface scfgW ["sat-0"] ["ground-0"]

def tcfgW : TrialCfg :=
  { steps := 2, injectPerStep := 1, attackP := 1, ttlSteps := 3,
    deadlineSteps := 5, nSats := 1 }

/-- An injective prefix-free encoding of a byte string into the plain
characters `a`/`x`: each character becomes its code point in unary followed
by a terminator. -/
def unaryEnc : List Char → List Char
  | [] => []
  | c :: rest => List.replicate c.toNat 'a' ++ 'x' :: unaryEnc rest

/-- A provider whose digest is the unary embedding of the message — trivially
collision-free and JSON-plain, used to instantiate collision-freeness
hypotheses in witnesses. -/
def tpU : TP := { secret := [], hashS := fun l => String.mk (unaryEnc l) }

/-- A crafted token whose embedded signature was computed over a different
payload (the empty object) than the one it carries (`task_id = 2`). -/
def payW : TokObj := []

def objBadW : TokObj :=
  [("task_id", .num 2), ("sig", .str (tpU.hashS (tpU.secret ++ encObj payW)))]

def tokBadW : List Char := encObj objBadW


/-- Bookkeeping invariant of the ISL flood: every in-flight task has a
dispatch record, and the in-flight task ids are unique. -/
abbrev floodWF (s : MState) : Prop :=
  (∀ p ∈ s.inFlight, (s.dispatched.lookup p.1).isSome = true)
  ∧ (s.inFlight.map Prod.fst).Nodup

/-- Every hop count recorded in any in-flight holder map is at most `m`. -/
abbrev hopsLe (m : Nat) (s : MState) : Prop :=
  ∀ p ∈ s.inFlight, ∀ q ∈ p.2, q.2 ≤ m


/-- Mid-step invariant of the `run_mode` bookkeeping, for every task id:
pending keys are unique; pending entries are the created tasks, with ids at
most the current step; stored tokens are exactly the issued payloads;
a receipt in the log means the task has left `pending` (having been created
no later than the current step); a deadline miss means the task has left
`pending` and its deadline lies strictly before the current step; and no task
has both terminal events. -/
structure MidInv (P : MParams) (s : MState) : Prop where
  nodup : (s.pending.map Prod.fst).Nodup
  pend : ∀ tid tsk, s.pending.lookup tid = some tsk →
    tsk = taskAt P tid ∧ tid ≤ s.step
  toks : ∀ tid tok, s.tokens.lookup tid = some tok →
    tok = issueSem (taskAt P tid) P.maxHops P.radius
  rcpt : ∀ tid, hasReceiptB tid s.events = true →
    s.pending.lookup tid = none ∧ tid ≤ s.step
  dmiss : ∀ tid, hasMissB tid s.events = true →
    s.pending.lookup tid = none ∧ tid + P.ttlSteps < s.step
  excl : ∀ tid, ¬(hasReceiptB tid s.events = true ∧
    hasMissB tid s.events = true)

/-- State-level invariant: the mid-step one, plus receipts written strictly
before the current step (event stamps precede the step counter between
steps). -/
structure ModeInv (P : MParams) (s : MState) : Prop where
  mid : MidInv P s
  strict : ∀ tid, hasReceiptB tid s.events = true → tid < s.step

/-- A one-step ground-mode run whose only satellite sits on the task target:
task 0 is dispatched and completed at step 0, emitting a receipt. -/
def Pc6 : MParams :=
  { mode := .ground, totalSteps := 1, ttlSteps := 0, maxHops := 1, radius := 1,
    edges := fun _ => [("sat-0", "ground-0")],
    positions := fun _ n => if n = "sat-0" then some (0, 0) else none,
    targets := fun _ => (0, 0) }


/-- The verification outcome `on_rx` computes for a packet: its payload
compared against the expected receipt bytes carried in the metadata. -/
def okBit (p : Pkt) : Bool :=
  match p.expected with
  | some e => e == p.payload
  | none => false

/-- Packets that agree on every field the simulation's control flow and
metrics read — everything except the raw receipt bytes — together with the
outcome of the payload-against-expectation comparison. -/
def RelP (p₁ p₂ : Pkt) : Prop :=
  p₁.pid = p₂.pid ∧ p₁.src = p₂.src ∧ p₁.dst = p₂.dst ∧
  p₁.tInject = p₂.tInject ∧ p₁.jobId = p₂.jobId ∧
  p₁.ttlMeta = p₂.ttlMeta ∧ p₁.tDeliver = p₂.tDeliver ∧
  okBit p₁ = okBit p₂

/-- Queue entries related packetwise with equal stamps. -/
def RelQd (q₁ q₂ : Queued) : Prop :=
  RelP q₁.pkt q₂.pkt ∧ q₁.tInject = q₂.tInject ∧ q₁.ttl = q₂.ttl

/-- Queue events of the same kind and reason over related packets. -/
def RelQE (e₁ e₂ : QEvent) : Prop :=
  match e₁, e₂ with
  | .delivered p₁, .delivered p₂ => RelP p₁ p₂
  | .dropped p₁ r₁, .dropped p₂ r₂ => RelP p₁ p₂ ∧ r₁ = r₂
  | _, _ => False

/-- Stub states at the same time with pointwise-related queues. -/
def RelS (s₁ s₂ : StubState) : Prop :=
  s₁.t = s₂.t ∧ List.Forall₂ RelQd s₁.queue s₂.queue

/-- Trial states that agree on everything except the receipt bytes stored in
the simulator queue and in `job_expected` (whose values are never read). -/
def RelT (st₁ st₂ : TrialState StubState) : Prop :=
  RelS st₁.sim st₂.sim ∧ st₁.rpos = st₂.rpos ∧ st₁.metrics = st₂.metrics ∧
  st₁.jobInjectT = st₂.jobInjectT ∧ st₁.jobDeadline = st₂.jobDeadline ∧
  st₁.jobId = st₂.jobId

/-! ### Shared helper lemmas -/

theorem unaryEnc_head (n m : Nat) (u v : List Char)
    (h : List.replicate n 'a' ++ 'x' :: u = List.replicate m 'a' ++ 'x' :: v) :
    n = m ∧ u = v := by
  induction n generalizing m with
  | zero =>
    cases m with
    | zero => simpa using h
    | succ m => simp [List.replicate_succ] at h
  | succ n ih =>
    cases m with
    | zero => simp [List.replicate_succ] at h
    | succ m =>
      simp only [List.replicate_succ, List.cons_append, List.cons.injEq,
        true_and] at h
      obtain ⟨hn, hu⟩ := ih m h
      exact ⟨by omega, hu⟩

theorem unaryEnc_injective : Function.Injective unaryEnc := by
  intro a b h
  induction a generalizing b with
  | nil =>
    cases b with
    | nil => rfl
    | cons c rest => simp [unaryEnc] at h
  | cons c rest ih =>
    cases b with
    | nil => simp [unaryEnc] at h
    | cons c' rest' =>
      simp only [unaryEnc] at h
      obtain ⟨hn, hu⟩ := unaryEnc_head _ _ _ _ h
      have hc : c = c' := by
        have h2 := Char.ofNat_toNat c
        have h3 := Char.ofNat_toNat c'
        rw [← h2, ← h3, hn]
      exact hc ▸ congrArg (c :: ·) (ih hu)

section AssocLemmas

variable {κ ν : Type} [BEq κ] [LawfulBEq κ]

omit [LawfulBEq κ] in
theorem lookup_append (k : κ) (l₁ l₂ : List (κ × ν)) :
    (l₁ ++ l₂).lookup k = ((l₁.lookup k).orElse (fun _ => l₂.lookup k)) := by
  induction l₁ with
  | nil => simp [List.lookup]
  | cons kv rest ih =>
    by_cases h : k == kv.1 <;> simp [List.lookup, h, ih]

theorem alInsert_lookup_self (k : κ) (v : ν) (l : List (κ × ν)) :
    (alInsert k v l).lookup k = some v := by
  induction l with
  | nil => simp [alInsert, List.lookup]
  | cons kv rest ih =>
    simp only [alInsert]
    by_cases hk : k == kv.1
    · rw [if_pos hk]
      simp [List.lookup]
    · rw [if_neg hk]
      simp [List.lookup, hk, ih]

theorem alInsert_lookup_ne (k k' : κ) (v : ν) (l : List (κ × ν))
    (h : ¬ k' == k) : (alInsert k v l).lookup k' = l.lookup k' := by
  induction l with
  | nil => simp [alInsert, List.lookup, h]
  | cons kv rest ih =>
    simp only [alInsert]
    by_cases hk : k == kv.1
    · rw [if_pos hk]
      have hkk : k = kv.1 := eq_of_beq hk
      have hv : ¬ (k' == kv.1) := by rw [← hkk]; exact h
      simp [List.lookup, hv, h]
    · rw [if_neg hk]
      by_cases hv : k' == kv.1 <;> simp [List.lookup, hv, ih]

omit [LawfulBEq κ] in
theorem alSetdefault_lookup_some (k : κ) (v w : ν) (l : List (κ × ν))
    (h : l.lookup k = some v) : (alSetdefault k w l).lookup k = some v := by
  simp [alSetdefault, h]

theorem alSetdefault_lookup_none (k : κ) (w : ν) (l : List (κ × ν))
    (h : l.lookup k = none) : (alSetdefault k w l).lookup k = some w := by
  simp [alSetdefault, h, lookup_append, List.lookup]

omit [LawfulBEq κ] in
theorem alSetdefault_lookup_ne (k k' : κ) (w : ν) (l : List (κ × ν))
    (h : ¬ k' == k) : (alSetdefault k w l).lookup k' = l.lookup k' := by
  simp only [alSetdefault]
  split
  · rfl
  · rw [lookup_append]
    cases hl : l.lookup k' <;> simp [hl, List.lookup, h]

theorem beq_false_symm (a b : κ) (h : (a == b) = false) :
    (b == a) = false := by
  by_contra hc
  have hb : (b == a) = true := by simpa using hc
  have := eq_of_beq hb
  subst this
  simp at h

theorem alErase_lookup_self (k : κ) (l : List (κ × ν)) :
    (alErase k l).lookup k = none := by
  induction l with
  | nil => simp [alErase]
  | cons kv rest ih =>
    by_cases hv : kv.1 == k
    · simpa [alErase, List.filter_cons, hv] using ih
    · have hv' : (k == kv.1) = false :=
        beq_false_symm kv.1 k (by simpa using hv)
      simpa [alErase, List.filter_cons, hv, List.lookup, hv'] using ih

theorem alErase_lookup_ne (k k' : κ) (l : List (κ × ν)) (h : ¬ k' == k) :
    (alErase k l).lookup k' = l.lookup k' := by
  induction l with
  | nil => simp [alErase]
  | cons kv rest ih =>
    by_cases hv : kv.1 == k
    · have hv' : (k' == kv.1) = false := by
        have hk : kv.1 = k := eq_of_beq hv
        rw [hk]
        simpa using h
      simpa [alErase, List.filter_cons, hv, List.lookup, hv'] using ih
    · by_cases hk : k' == kv.1
      · simp [alErase, List.filter_cons, hv, List.lookup, hk]
      · simpa [alErase, List.filter_cons, hv, List.lookup, hk] using ih

end AssocLemmas

theorem rat_num_eq_mul_den (q : ℚ) : (q.num : ℚ) = q * (q.den : ℚ) := by
  have hd : ((q.den : ℚ)) ≠ 0 := ne_of_gt (by exact_mod_cast q.pos)
  have h := Rat.num_div_den q
  rw [div_eq_iff hd] at h
  exact h

theorem sub_mul_den (q1 q2 : ℚ) :
    (q1 - q2) * ((q1.den : ℚ) * (q2.den : ℚ)) =
      (q1.num : ℚ) * (q2.den : ℚ) - (q2.num : ℚ) * (q1.den : ℚ) := by
  have h1 := rat_num_eq_mul_den q1
  have h2 := rat_num_eq_mul_den q2
  linear_combination (-(q2.den : ℚ)) * h1 + (q1.den : ℚ) * h2

/-- The integer cross-multiplied comparison in `withinRadius` is exactly the
rational-level statement `0 ≤ radius ∧ distSq a b ≤ radius * radius` — that
is, Euclidean distance at most the radius. -/
theorem withinRadius_iff (a b : ℚ × ℚ) (r : ℚ) :
    withinRadius a b r = true ↔ (0 ≤ r ∧ distSq a b ≤ r * r) := by
  simp only [withinRadius, Bool.and_eq_true, decide_eq_true_eq]
  apply and_congr Rat.num_nonneg
  set n1 : ℚ := ((a.1.num * (b.1.den : Int) - b.1.num * (a.1.den : Int) : Int) : ℚ) with hn1
  set d1 : ℚ := (a.1.den : ℚ) * (b.1.den : ℚ) with hd1
  set n2 : ℚ := ((a.2.num * (b.2.den : Int) - b.2.num * (a.2.den : Int) : Int) : ℚ) with hn2
  set d2 : ℚ := (a.2.den : ℚ) * (b.2.den : ℚ) with hd2
  have e1 : (a.1 - b.1) * d1 = n1 := by
    rw [hn1, hd1]
    push_cast
    exact sub_mul_den a.1 b.1
  have e2 : (a.2 - b.2) * d2 = n2 := by
    rw [hn2, hd2]
    push_cast
    exact sub_mul_den a.2 b.2
  have e3 : r * (r.den : ℚ) = (r.num : ℚ) := (rat_num_eq_mul_den r).symm
  have hd1p : (0:ℚ) < d1 := by
    rw [hd1]
    have ha := a.1.pos
    have hb := b.1.pos
    have ha' : (0:ℚ) < (a.1.den : ℚ) := by exact_mod_cast ha
    have hb' : (0:ℚ) < (b.1.den : ℚ) := by exact_mod_cast hb
    positivity
  have hd2p : (0:ℚ) < d2 := by
    rw [hd2]
    have ha := a.2.pos
    have hb := b.2.pos
    have ha' : (0:ℚ) < (a.2.den : ℚ) := by exact_mod_cast ha
    have hb' : (0:ℚ) < (b.2.den : ℚ) := by exact_mod_cast hb
    positivity
  have hrdp : (0:ℚ) < (r.den : ℚ) := by exact_mod_cast r.pos
  have hA : distSq a b * (d1 * d1 * (d2 * d2)) =
      n1 * n1 * (d2 * d2) + n2 * n2 * (d1 * d1) := by
    have s1 : ((a.1 - b.1) * d1) * ((a.1 - b.1) * d1) = n1 * n1 := by rw [e1]
    have s2 : ((a.2 - b.2) * d2) * ((a.2 - b.2) * d2) = n2 * n2 := by rw [e2]
    unfold distSq
    linear_combination (d2 * d2) * s1 + (d1 * d1) * s2
  have hR : (r * r) * ((r.den : ℚ) * (r.den : ℚ)) = (r.num : ℚ) * (r.num : ℚ) := by
    have s3 : (r * (r.den : ℚ)) * (r * (r.den : ℚ)) =
        (r.num : ℚ) * (r.num : ℚ) := by rw [e3]
    linear_combination s3
  have hDpos : (0:ℚ) < d1 * d1 * (d2 * d2) * ((r.den : ℚ) * (r.den : ℚ)) := by
    positivity
  constructor
  · intro h
    have hq : (n1 * n1 * (d2 * d2) + n2 * n2 * (d1 * d1)) *
        ((r.den : ℚ) * (r.den : ℚ)) ≤
        (r.num : ℚ) * (r.num : ℚ) * (d1 * d1 * (d2 * d2)) := by
      have hc : ((((a.1.num * (b.1.den : Int) - b.1.num * (a.1.den : Int)) *
          (a.1.num * (b.1.den : Int) - b.1.num * (a.1.den : Int)) *
          ((a.2.den : Int) * (b.2.den : Int) * ((a.2.den : Int) * (b.2.den : Int)))
          + (a.2.num * (b.2.den : Int) - b.2.num * (a.2.den : Int)) *
            (a.2.num * (b.2.den : Int) - b.2.num * (a.2.den : Int)) *
            ((a.1.den : Int) * (b.1.den : Int) * ((a.1.den : Int) * (b.1.den : Int)))) *
          ((r.den : Int) * (r.den : Int)) : Int) : ℚ)
          ≤ ((r.num * r.num *
            ((a.1.den : Int) * (b.1.den : Int) * ((a.1.den : Int) * (b.1.den : Int)) *
             ((a.2.den : Int) * (b.2.den : Int) *
              ((a.2.den : Int) * (b.2.den : Int)))) : Int) : ℚ) := by
        exact_mod_cast h
      calc (n1 * n1 * (d2 * d2) + n2 * n2 * (d1 * d1)) *
            ((r.den : ℚ) * (r.den : ℚ))
          = ((((a.1.num * (b.1.den : Int) - b.1.num * (a.1.den : Int)) *
              (a.1.num * (b.1.den : Int) - b.1.num * (a.1.den : Int)) *
              ((a.2.den : Int) * (b.2.den : Int) * ((a.2.den : Int) * (b.2.den : Int)))
              + (a.2.num * (b.2.den : Int) - b.2.num * (a.2.den : Int)) *
                (a.2.num * (b.2.den : Int) - b.2.num * (a.2.den : Int)) *
                ((a.1.den : Int) * (b.1.den : Int) *
                 ((a.1.den : Int) * (b.1.den : Int)))) *
              ((r.den : Int) * (r.den : Int)) : Int) : ℚ) := by
            rw [hn1, hn2, hd1, hd2]; push_cast; ring
        _ ≤ ((r.num * r.num *
              ((a.1.den : Int) * (b.1.den : Int) * ((a.1.den : Int) * (b.1.den : Int)) *
               ((a.2.den : Int) * (b.2.den : Int) *
                ((a.2.den : Int) * (b.2.den : Int)))) : Int) : ℚ) := hc
        _ = (r.num : ℚ) * (r.num : ℚ) * (d1 * d1 * (d2 * d2)) := by
            rw [hd1, hd2]; push_cast; ring
    have hfin : distSq a b * (d1 * d1 * (d2 * d2) * ((r.den : ℚ) * (r.den : ℚ)))
        ≤ (r * r) * (d1 * d1 * (d2 * d2) * ((r.den : ℚ) * (r.den : ℚ))) := by
      calc distSq a b * (d1 * d1 * (d2 * d2) * ((r.den : ℚ) * (r.den : ℚ)))
          = (distSq a b * (d1 * d1 * (d2 * d2))) *
            ((r.den : ℚ) * (r.den : ℚ)) := by ring
        _ = (n1 * n1 * (d2 * d2) + n2 * n2 * (d1 * d1)) *
            ((r.den : ℚ) * (r.den : ℚ)) := by rw [hA]
        _ ≤ (r.num : ℚ) * (r.num : ℚ) * (d1 * d1 * (d2 * d2)) := hq
        _ = ((r * r) * ((r.den : ℚ) * (r.den : ℚ))) * (d1 * d1 * (d2 * d2)) := by
            rw [hR]
        _ = (r * r) * (d1 * d1 * (d2 * d2) * ((r.den : ℚ) * (r.den : ℚ))) := by
            ring
    exact (mul_le_mul_right hDpos).mp hfin
  · intro h
    have hfin : distSq a b * (d1 * d1 * (d2 * d2) * ((r.den : ℚ) * (r.den : ℚ)))
        ≤ (r * r) * (d1 * d1 * (d2 * d2) * ((r.den : ℚ) * (r.den : ℚ))) :=
      (mul_le_mul_right hDpos).mpr h
    have hq : (n1 * n1 * (d2 * d2) + n2 * n2 * (d1 * d1)) *
        ((r.den : ℚ) * (r.den : ℚ)) ≤
        (r.num : ℚ) * (r.num : ℚ) * (d1 * d1 * (d2 * d2)) := by
      calc (n1 * n1 * (d2 * d2) + n2 * n2 * (d1 * d1)) *
            ((r.den : ℚ) * (r.den : ℚ))
          = (distSq a b * (d1 * d1 * (d2 * d2))) *
            ((r.den : ℚ) * (r.den : ℚ)) := by rw [hA]
        _ = distSq a b * (d1 * d1 * (d2 * d2) * ((r.den : ℚ) * (r.den : ℚ))) := by
            ring
        _ ≤ (r * r) * (d1 * d1 * (d2 * d2) * ((r.den : ℚ) * (r.den : ℚ))) := hfin
        _ = ((r * r) * ((r.den : ℚ) * (r.den : ℚ))) * (d1 * d1 * (d2 * d2)) := by
            ring
        _ = (r.num : ℚ) * (r.num : ℚ) * (d1 * d1 * (d2 * d2)) := by rw [hR]
    have : ((((a.1.num * (b.1.den : Int) - b.1.num * (a.1.den : Int)) *
        (a.1.num * (b.1.den : Int) - b.1.num * (a.1.den : Int)) *
        ((a.2.den : Int) * (b.2.den : Int) * ((a.2.den : Int) * (b.2.den : Int)))
        + (a.2.num * (b.2.den : Int) - b.2.num * (a.2.den : Int)) *
          (a.2.num * (b.2.den : Int) - b.2.num * (a.2.den : Int)) *
          ((a.1.den : Int) * (b.1.den : Int) * ((a.1.den : Int) * (b.1.den : Int)))) *
        ((r.den : Int) * (r.den : Int)) : Int) : ℚ)
        ≤ ((r.num * r.num *
          ((a.1.den : Int) * (b.1.den : Int) * ((a.1.den : Int) * (b.1.den : Int)) *
           ((a.2.den : Int) * (b.2.den : Int) *
            ((a.2.den : Int) * (b.2.den : Int)))) : Int) : ℚ) := by
      calc ((((a.1.num * (b.1.den : Int) - b.1.num * (a.1.den : Int)) *
          (a.1.num * (b.1.den : Int) - b.1.num * (a.1.den : Int)) *
          ((a.2.den : Int) * (b.2.den : Int) * ((a.2.den : Int) * (b.2.den : Int)))
          + (a.2.num * (b.2.den : Int) - b.2.num * (a.2.den : Int)) *
            (a.2.num * (b.2.den : Int) - b.2.num * (a.2.den : Int)) *
            ((a.1.den : Int) * (b.1.den : Int) * ((a.1.den : Int) * (b.1.den : Int)))) *
          ((r.den : Int) * (r.den : Int)) : Int) : ℚ)
          = (n1 * n1 * (d2 * d2) + n2 * n2 * (d1 * d1)) *
            ((r.den : ℚ) * (r.den : ℚ)) := by
            rw [hn1, hn2, hd1, hd2]; push_cast; ring
        _ ≤ (r.num : ℚ) * (r.num : ℚ) * (d1 * d1 * (d2 * d2)) := hq
        _ = ((r.num * r.num *
            ((a.1.den : Int) * (b.1.den : Int) * ((a.1.den : Int) * (b.1.den : Int)) *
             ((a.2.den : Int) * (b.2.den : Int) *
              ((a.2.den : Int) * (b.2.den : Int)))) : Int) : ℚ) := by
            rw [hd1, hd2]; push_cast; ring
    exact_mod_cast this

theorem processQueue_acc (cfg : StubCfg) (edgesNow : List (String × String))
    (t : Nat) (draws : Nat → ℚ) (queue : List Queued) (k : List Queued)
    (e : List QEvent) (pos : Nat) :
    queue.foldl
      (fun (acc : List Queued × List QEvent × Nat) q =>
        let r := processPacket cfg edgesNow t draws q acc.2.2
        (acc.1 ++ r.1.toList, acc.2.1 ++ r.2.1, r.2.2))
      (k, e, pos) =
    (k ++ (processQueue cfg edgesNow t draws queue pos).1,
     e ++ (processQueue cfg edgesNow t draws queue pos).2.1,
     (processQueue cfg edgesNow t draws queue pos).2.2) := by
  induction queue generalizing k e pos with
  | nil => simp [processQueue]
  | cons q rest ih =>
    simp only [processQueue, List.foldl_cons]
    rw [ih, ih]
    simp [List.append_assoc]

theorem processQueue_nil (cfg : StubCfg) (edgesNow : List (String × String))
    (t : Nat) (draws : Nat → ℚ) (pos : Nat) :
    processQueue cfg edgesNow t draws [] pos = ([], [], pos) := rfl

theorem processQueue_cons (cfg : StubCfg) (edgesNow : List (String × String))
    (t : Nat) (draws : Nat → ℚ) (q : Queued) (rest : List Queued)
    (pos : Nat) :
    processQueue cfg edgesNow t draws (q :: rest) pos =
      ((processPacket cfg edgesNow t draws q pos).1.toList ++
        (processQueue cfg edgesNow t draws rest
          (processPacket cfg edgesNow t draws q pos).2.2).1,
       (processPacket cfg edgesNow t draws q pos).2.1 ++
        (processQueue cfg edgesNow t draws rest
          (processPacket cfg edgesNow t draws q pos).2.2).2.1,
       (processQueue cfg edgesNow t draws rest
         (processPacket cfg edgesNow t draws q pos).2.2).2.2) := by
  have step1 : processQueue cfg edgesNow t draws (q :: rest) pos =
      List.foldl
        (fun (acc : List Queued × List QEvent × Nat) q =>
          (acc.1 ++ (processPacket cfg edgesNow t draws q acc.2.2).1.toList,
           acc.2.1 ++ (processPacket cfg edgesNow t draws q acc.2.2).2.1,
           (processPacket cfg edgesNow t draws q acc.2.2).2.2))
        ((processPacket cfg edgesNow t draws q pos).1.toList,
         (processPacket cfg edgesNow t draws q pos).2.1,
         (processPacket cfg edgesNow t draws q pos).2.2) rest := by
    simp [processQueue, List.foldl_cons]
  rw [step1, processQueue_acc]

theorem processQueue_append (cfg : StubCfg) (edgesNow : List (String × String))
    (t : Nat) (draws : Nat → ℚ) (q₁ q₂ : List Queued) (pos : Nat) :
    processQueue cfg edgesNow t draws (q₁ ++ q₂) pos =
      ((processQueue cfg edgesNow t draws q₁ pos).1 ++
        (processQueue cfg edgesNow t draws q₂
          (processQueue cfg edgesNow t draws q₁ pos).2.2).1,
       (processQueue cfg edgesNow t draws q₁ pos).2.1 ++
        (processQueue cfg edgesNow t draws q₂
          (processQueue cfg edgesNow t draws q₁ pos).2.2).2.1,
       (processQueue cfg edgesNow t draws q₂
         (processQueue cfg edgesNow t draws q₁ pos).2.2).2.2) := by
  show List.foldl _ _ (q₁ ++ q₂) = _
  rw [List.foldl_append]
  exact processQueue_acc cfg edgesNow t draws q₂
    (processQueue cfg edgesNow t draws q₁ pos).1
    (processQueue cfg edgesNow t draws q₁ pos).2.1
    (processQueue cfg edgesNow t draws q₁ pos).2.2

theorem processPacket_ttl (cfg : StubCfg) (edgesNow : List (String × String))
    (t : Nat) (draws : Nat → ℚ) (q : Queued) (pos : Nat)
    (h : t - q.tInject > q.ttl) :
    processPacket cfg edgesNow t draws q pos =
      (none, [.dropped q.pkt "ttl"], pos) := by
  simp [processPacket, h]

theorem processPacket_keep (cfg : StubCfg) (edgesNow : List (String × String))
    (t : Nat) (draws : Nat → ℚ) (q : Queued) (pos : Nat)
    (h : ¬ t - q.tInject > q.ttl)
    (hp : ¬ hasPath q.pkt.src q.pkt.dst edgesNow) :
    processPacket cfg edgesNow t draws q pos = (some q, [], pos) := by
  simp [processPacket, h, hp]

theorem processPacket_outage (cfg : StubCfg) (edgesNow : List (String × String))
    (t : Nat) (draws : Nat → ℚ) (q : Queued) (pos : Nat)
    (h : ¬ t - q.tInject > q.ttl)
    (hp : hasPath q.pkt.src q.pkt.dst edgesNow)
    (ho : draws pos < cfg.outageP) :
    processPacket cfg edgesNow t draws q pos =
      (none, [.dropped q.pkt "outage"], pos + 1) := by
  simp [processPacket, h, hp, ho]

theorem processPacket_congestion (cfg : StubCfg)
    (edgesNow : List (String × String)) (t : Nat) (draws : Nat → ℚ)
    (q : Queued) (pos : Nat) (h : ¬ t - q.tInject > q.ttl)
    (hp : hasPath q.pkt.src q.pkt.dst edgesNow)
    (ho : ¬ draws pos < cfg.outageP) (hc : draws (pos + 1) < cfg.congP) :
    processPacket cfg edgesNow t draws q pos =
      (none, [.dropped q.pkt "congestion"], pos + 2) := by
  simp [processPacket, h, hp, ho, hc]

theorem processPacket_deliver (cfg : StubCfg)
    (edgesNow : List (String × String)) (t : Nat) (draws : Nat → ℚ)
    (q : Queued) (pos : Nat) (h : ¬ t - q.tInject > q.ttl)
    (hp : hasPath q.pkt.src q.pkt.dst edgesNow)
    (ho : ¬ draws pos < cfg.outageP) (hc : ¬ draws (pos + 1) < cfg.congP) :
    processPacket cfg edgesNow t draws q pos =
      (none, [.delivered q.pkt], pos + 2) := by
  simp [processPacket, h, hp, ho, hc]

theorem stubStepOne_t (cfg : StubCfg) (draws : Nat → ℚ) (s : StubState)
    (pos : Nat) : (stubStepOne cfg draws s pos).1.t = s.t + 1 := rfl

theorem stubStepOne_queue (cfg : StubCfg) (draws : Nat → ℚ) (s : StubState)
    (pos : Nat) :
    (stubStepOne cfg draws s pos).1.queue =
      (processQueue cfg (cfg.edges (s.t + 1)) (s.t + 1) draws s.queue pos).1 :=
  rfl

theorem stubStepOne_events (cfg : StubCfg) (draws : Nat → ℚ) (s : StubState)
    (pos : Nat) :
    (stubStepOne cfg draws s pos).2.1 =
      (processQueue cfg (cfg.edges (s.t + 1)) (s.t + 1) draws s.queue
        pos).2.1 :=
  rfl

/-! ### C10 — totality of the schedule-driven topology -/

/-- C10: for a non-empty schedule of `S` entries, the active edge set is
total in `t`: entry `t` for `t < S`, the final entry for `t ≥ S` (so the last
topology stays fixed forever), and `get_active_links`, `can_send` and the
queue sweep all read their edges through this clamped view. -/
theorem schedule_topology_total (schedule : Schedule) (hne : schedule ≠ [])
    (t : Nat) :
    (t < schedule.length → edgesAtTime schedule t = (schedule.get? t).getD [])
    ∧ (schedule.length ≤ t →
        edgesAtTime schedule t =
          (schedule.get? (schedule.length - 1)).getD [])
    ∧ (∀ t₁ t₂, schedule.length ≤ t₁ → schedule.length ≤ t₂ →
        edgesAtTime schedule t₁ = edgesAtTime schedule t₂)
    ∧ (∀ s : SchedState, schedActiveLinks schedule s = edgesAtTime schedule s.t)
    ∧ (∀ (s : SchedState) src dst,
        schedCanSend schedule s src dst =
          hasPath src dst (edgesAtTime schedule s.t))
    ∧ (∀ ttlD t' queue,
        schedProcessQueue schedule ttlD t' queue =
          queue.foldl
            (fun (acc : List (Nat × Pkt) × List QEvent) q =>
              if t' - q.1 > q.2.ttlMeta.getD ttlD then
                (acc.1, acc.2 ++ [.dropped q.2 "ttl"])
              else if ¬ hasPath q.2.src q.2.dst (edgesAtTime schedule t') then
                (acc.1 ++ [q], acc.2)
              else (acc.1, acc.2 ++ [.delivered q.2]))
            ([], [])) := by
  have hlen : 0 < schedule.length := List.length_pos.mpr hne
  refine ⟨?_, ?_, ?_, fun _ => rfl, fun _ _ _ => rfl, fun _ _ _ => rfl⟩
  · intro ht
    unfold edgesAtTime
    rw [Nat.min_eq_left (by omega)]
  · intro ht
    unfold edgesAtTime
    rw [Nat.min_eq_right (by omega)]
  · intro t₁ t₂ h₁ h₂
    unfold edgesAtTime
    rw [Nat.min_eq_right (by omega), Nat.min_eq_right (by omega)]

/-- Witness for C10 at a concrete two-entry schedule: before the end the
entry of the step is used, after the end the final entry persists. -/
theorem schedule_topology_total_witness :
    edgesAtTime [[("sat-0", "ground-0")], []] 0 = [("sat-0", "ground-0")]
    ∧ edgesAtTime [[("sat-0", "ground-0")], []] 7 = [] := by
  constructor
  · exact ((schedule_topology_total [[("sat-0", "ground-0")], []]
      (by decide) 0).1 (by decide)).trans (by decide)
  · exact (((schedule_topology_total [[("sat-0", "ground-0")], []]
      (by decide) 7).2.1) (by decide)).trans (by decide)

/-! ### C4 — delivery-queue priority order -/

/-- C4: each queued packet is resolved by exactly this priority order — TTL
expiry (`(now - inject_step) > ttl_steps`, no draws consumed), then BFS
reachability (kept unchanged, no draws consumed), then one outage draw, then
one congestion draw, and only otherwise delivery; and the queue is processed
in enqueue order (the sweep is the in-order composition of per-packet
resolutions). -/
theorem delivery_queue_policy :
    (∀ cfg edgesNow t draws (q : Queued) pos, t - q.tInject > q.ttl →
      processPacket cfg edgesNow t draws q pos =
        (none, [.dropped q.pkt "ttl"], pos))
    ∧ (∀ cfg edgesNow t draws (q : Queued) pos, ¬ t - q.tInject > q.ttl →
        ¬ hasPath q.pkt.src q.pkt.dst edgesNow →
        processPacket cfg edgesNow t draws q pos = (some q, [], pos))
    ∧ (∀ cfg edgesNow t draws (q : Queued) pos, ¬ t - q.tInject > q.ttl →
        hasPath q.pkt.src q.pkt.dst edgesNow →
        draws pos < cfg.outageP →
        processPacket cfg edgesNow t draws q pos =
          (none, [.dropped q.pkt "outage"], pos + 1))
    ∧ (∀ cfg edgesNow t draws (q : Queued) pos, ¬ t - q.tInject > q.ttl →
        hasPath q.pkt.src q.pkt.dst edgesNow →
        ¬ draws pos < cfg.outageP →
        draws (pos + 1) < cfg.congP →
        processPacket cfg edgesNow t draws q pos =
          (none, [.dropped q.pkt "congestion"], pos + 2))
    ∧ (∀ cfg edgesNow t draws (q : Queued) pos, ¬ t - q.tInject > q.ttl →
        hasPath q.pkt.src q.pkt.dst edgesNow →
        ¬ draws pos < cfg.outageP →
        ¬ draws (pos + 1) < cfg.congP →
        processPacket cfg edgesNow t draws q pos =
          (none, [.delivered q.pkt], pos + 2))
    ∧ (∀ cfg edgesNow t draws (q : Queued) rest pos,
        processQueue cfg edgesNow t draws (q :: rest) pos =
          ((processPacket cfg edgesNow t draws q pos).1.toList ++
            (processQueue cfg edgesNow t draws rest
              (processPacket cfg edgesNow t draws q pos).2.2).1,
           (processPacket cfg edgesNow t draws q pos).2.1 ++
            (processQueue cfg edgesNow t draws rest
              (processPacket cfg edgesNow t draws q pos).2.2).2.1,
           (processQueue cfg edgesNow t draws rest
             (processPacket cfg edgesNow t draws q pos).2.2).2.2)) := by
  exact ⟨processPacket_ttl,
    fun cfg e t d q p h hp => processPacket_keep cfg e t d q p h
      (by simpa using hp),
    fun cfg e t d q p h hp => processPacket_outage cfg e t d q p h
      (by simpa using hp),
    fun cfg e t d q p h hp => processPacket_congestion cfg e t d q p h
      (by simpa using hp),
    fun cfg e t d q p h hp => processPacket_deliver cfg e t d q p h
      (by simpa using hp),
    processQueue_cons⟩

/-- Witness for C4 at concrete inputs: an expired packet is dropped with
reason `ttl` without consuming draws, and an unreachable fresh packet is kept
unchanged. -/
theorem delivery_queue_policy_witness :
    processPacket cfgC7 [] 2 (fun _ => 0) ⟨pktC7, 0, 0⟩ 5 =
      (none, [.dropped pktC7 "ttl"], 5)
    ∧ processPacket cfgC7 [] 1 (fun _ => 0) ⟨pktC7, 0, 3⟩ 5 =
      (some ⟨pktC7, 0, 3⟩, [], 5) := by
  constructor
  · exact delivery_queue_policy.1 cfgC7 [] 2 (fun _ => 0) ⟨pktC7, 0, 0⟩ 5
      (by decide)
  · exact delivery_queue_policy.2.1 cfgC7 [] 1 (fun _ => 0) ⟨pktC7, 0, 3⟩ 5
      (by decide) (by decide)

/-! ### Holder-map lemmas shared by the flood claims -/

theorem alSetdefault_lookup_cases {κ ν : Type} [BEq κ] [LawfulBEq κ]
    (k k' : κ) (v w : ν) (l : List (κ × ν))
    (h : (alSetdefault k v l).lookup k' = some w) :
    l.lookup k' = some w ∨ w = v := by
  by_cases hk : k' == k
  · have hk' : k' = k := eq_of_beq hk
    subst hk'
    cases hl : l.lookup k' with
    | some u =>
      rw [alSetdefault_lookup_some k' u v l hl] at h
      exact Or.inl h
    | none =>
      rw [alSetdefault_lookup_none k' v l hl] at h
      exact Or.inr (Option.some.inj h).symm
  · rw [alSetdefault_lookup_ne k k' v l hk] at h
    exact Or.inl h

theorem alSetdefault_pres {κ ν : Type} [BEq κ] [LawfulBEq κ]
    (k k' : κ) (v w : ν) (l : List (κ × ν)) (h : l.lookup k' = some w) :
    (alSetdefault k v l).lookup k' = some w := by
  by_cases hk : k' == k
  · have hk' : k' = k := eq_of_beq hk
    subst hk'
    exact alSetdefault_lookup_some k' w v l h
  · rw [alSetdefault_lookup_ne k k' v l hk]
    exact h

theorem propagateEdge_pres (maxHops step tid : Nat)
    (holders : List (String × Nat)) (acc : List (String × Nat) × List Event)
    (e : String × String) (sat : String) (h : Nat)
    (hl : acc.1.lookup sat = some h) :
    (propagateEdge maxHops step tid holders acc e).1.lookup sat = some h := by
  unfold propagateEdge
  split
  · exact hl
  · have step1 : ∀ (acc1 : List (String × Nat) × List Event),
        acc1.1.lookup sat = some h →
        (match holders.lookup e.2 with
         | some hb =>
           if hb < maxHops then
             (alSetdefault e.1 (hb + 1) acc1.1,
              acc1.2 ++ [Event.taskForwarded step tid e.2 e.1])
           else acc1
         | none => acc1).1.lookup sat = some h := by
      intro acc1 h1
      cases holders.lookup e.2 with
      | none => exact h1
      | some hb =>
        by_cases hb' : hb < maxHops
        · simp only [hb', if_true]
          exact alSetdefault_pres _ _ _ _ _ h1
        · simp only [hb', if_false]
          exact h1
    apply step1
    cases holders.lookup e.1 with
    | none => exact hl
    | some ha =>
      by_cases ha' : ha < maxHops
      · simp only [ha', if_true]
        exact alSetdefault_pres _ _ _ _ _ hl
      · simp only [ha', if_false]
        exact hl

theorem propagateEdges_go_pres (maxHops step tid : Nat)
    (holders : List (String × Nat)) (sat : String) (h : Nat) :
    ∀ (edges : List (String × String))
      (acc : List (String × Nat) × List Event),
      acc.1.lookup sat = some h →
      (edges.foldl (propagateEdge maxHops step tid holders) acc).1.lookup sat
        = some h := by
  intro edges
  induction edges with
  | nil => intro acc hl; exact hl
  | cons e rest ih =>
    intro acc hl
    rw [List.foldl_cons]
    exact ih _ (propagateEdge_pres maxHops step tid holders acc e sat h hl)

/-- First-arrival wins: an entry already recorded in a task's holder map is
never changed by propagation. -/
theorem propagateEdges_pres (maxHops step tid : Nat)
    (edges : List (String × String)) (holders : List (String × Nat))
    (sat : String) (h : Nat) (hl : holders.lookup sat = some h) :
    (propagateEdges maxHops step tid edges holders).1.lookup sat = some h :=
  propagateEdges_go_pres maxHops step tid holders sat h edges (holders, []) hl

theorem propagateEdge_bound (maxHops step tid : Nat)
    (holders : List (String × Nat)) (acc : List (String × Nat) × List Event)
    (e : String × String) (sat : String) (h : Nat)
    (hl : (propagateEdge maxHops step tid holders acc e).1.lookup sat = some h) :
    acc.1.lookup sat = some h ∨ h ≤ maxHops := by
  revert hl
  unfold propagateEdge
  split
  · exact Or.inl
  · intro hl
    have step2 : ∀ (acc1 : List (String × Nat) × List Event),
        (match holders.lookup e.2 with
         | some hb =>
           if hb < maxHops then
             (alSetdefault e.1 (hb + 1) acc1.1,
              acc1.2 ++ [Event.taskForwarded step tid e.2 e.1])
           else acc1
         | none => acc1).1.lookup sat = some h →
        acc1.1.lookup sat = some h ∨ h ≤ maxHops := by
      intro acc1 h1
      revert h1
      cases hb2 : holders.lookup e.2 with
      | none => exact Or.inl
      | some hb =>
        by_cases hb' : hb < maxHops
        · simp only [hb', if_true]
          intro h1
          rcases alSetdefault_lookup_cases _ _ _ _ _ h1 with h2 | h2
          · exact Or.inl h2
          · exact Or.inr (by omega)
        · simp only [hb', if_false]
          exact Or.inl
    have step1 : ∀ hres,
        (match holders.lookup e.1 with
         | some ha =>
           if ha < maxHops then
             (alSetdefault e.2 (ha + 1) acc.1,
              acc.2 ++ [Event.taskForwarded step tid e.1 e.2])
           else acc
         | none => acc).1.lookup sat = some hres →
        acc.1.lookup sat = some hres ∨ hres ≤ maxHops := by
      intro hres
      cases ha1 : holders.lookup e.1 with
      | none => exact Or.inl
      | some ha =>
        by_cases ha' : ha < maxHops
        · simp only [ha', if_true]
          intro h1
          rcases alSetdefault_lookup_cases _ _ _ _ _ h1 with h2 | h2
          · exact Or.inl h2
          · exact Or.inr (by omega)
        · simp only [ha', if_false]
          exact Or.inl
    rcases step2 _ hl with h1 | h1
    · exact step1 h h1
    · exact Or.inr h1

theorem propagateEdges_go_bound (maxHops step tid : Nat)
    (holders : List (String × Nat)) (sat : String) (h : Nat) :
    ∀ (edges : List (String × String))
      (acc : List (String × Nat) × List Event),
      (edges.foldl (propagateEdge maxHops step tid holders) acc).1.lookup sat
        = some h →
      acc.1.lookup sat = some h ∨ h ≤ maxHops := by
  intro edges
  induction edges with
  | nil => intro acc hl; exact Or.inl hl
  | cons e rest ih =>
    intro acc hl
    rw [List.foldl_cons] at hl
    rcases ih _ hl with h1 | h1
    · exact propagateEdge_bound maxHops step tid holders acc e sat h h1
    · exact Or.inr h1

/-- Every hop count added by propagation is at most `max_hops`. -/
theorem propagateEdges_bound (maxHops step tid : Nat)
    (edges : List (String × String)) (holders : List (String × Nat))
    (sat : String) (h : Nat)
    (hl : (propagateEdges maxHops step tid edges holders).1.lookup sat = some h) :
    holders.lookup sat = some h ∨ h ≤ maxHops :=
  propagateEdges_go_bound maxHops step tid holders sat h edges (holders, []) hl

theorem validateHolders_inFlight (P : MParams)
    (satPos : String → Option (ℚ × ℚ)) (tid : Nat) (tsk : Task)
    (tok : SemPayload) :
    ∀ (holders : List (String × Nat)) (st : MState),
      (validateHolders P satPos tid tsk tok holders st).inFlight = st.inFlight
      ∨ (validateHolders P satPos tid tsk tok holders st).inFlight =
          alErase tid st.inFlight := by
  intro holders
  induction holders with
  | nil => intro st; exact Or.inl rfl
  | cons kv rest ih =>
    intro st
    cases hpos : satPos kv.1 with
    | none => simpa [validateHolders, hpos] using ih st
    | some pos =>
      by_cases hv : (combinedVerdict (validateSem tok tsk kv.2 st.step)
          (withinRadius tsk.target pos P.radius)).1 = true
      · refine Or.inr ?_
        simp [validateHolders, hpos, hv]
      · have hrec := ih { st with events := st.events ++
          [Event.tokenValidated st.step tid kv.1
            (combinedVerdict (validateSem tok tsk kv.2 st.step)
              (withinRadius tsk.target pos P.radius)).1
            (combinedVerdict (validateSem tok tsk kv.2 st.step)
              (withinRadius tsk.target pos P.radius)).2] }
        simpa [validateHolders, hpos, hv] using hrec

theorem validateOne_inFlight (P : MParams)
    (satPos : String → Option (ℚ × ℚ)) (st : MState)
    (kv : Nat × List (String × Nat)) :
    (validateOne P satPos st kv).inFlight = st.inFlight
    ∨ (validateOne P satPos st kv).inFlight = alErase kv.1 st.inFlight := by
  unfold validateOne
  cases st.tokens.lookup kv.1 with
  | none => exact Or.inl rfl
  | some tok => exact validateHolders_inFlight P satPos kv.1 (taskAt P kv.1) tok kv.2 st

theorem islValidate_go_inFlight (P : MParams)
    (satPos : String → Option (ℚ × ℚ)) (tid' : Nat) :
    ∀ (l : List (Nat × List (String × Nat))) (st : MState),
      (l.foldl (validateOne P satPos) st).inFlight.lookup tid' =
        st.inFlight.lookup tid'
      ∨ (l.foldl (validateOne P satPos) st).inFlight.lookup tid' = none := by
  intro l
  induction l with
  | nil => intro st; exact Or.inl rfl
  | cons kv rest ih =>
    intro st
    rw [List.foldl_cons]
    rcases ih (validateOne P satPos st kv) with h | h
    · rcases validateOne_inFlight P satPos st kv with h2 | h2
      · rw [h, h2]
        exact Or.inl rfl
      · rw [h, h2]
        by_cases hk : tid' == kv.1
        · have heq : tid' = kv.1 := eq_of_beq hk
          rw [heq]
          exact Or.inr (alErase_lookup_self kv.1 st.inFlight)
        · exact Or.inl (alErase_lookup_ne kv.1 tid' st.inFlight hk)
    · exact Or.inr h

/-- Validation can only remove whole holder maps; surviving entries are
unchanged. -/
theorem islValidate_inFlight (P : MParams)
    (satPos : String → Option (ℚ × ℚ)) (s : MState) (tid' : Nat) :
    (islValidate P satPos s).inFlight.lookup tid' = s.inFlight.lookup tid'
    ∨ (islValidate P satPos s).inFlight.lookup tid' = none :=
  islValidate_go_inFlight P satPos tid' s.inFlight s

theorem alInsert_keys {κ ν : Type} [BEq κ] [LawfulBEq κ] (k : κ) (v : ν) :
    ∀ (l : List (κ × ν)), (alInsert k v l).map Prod.fst =
      if (l.map Prod.fst).contains k then l.map Prod.fst
      else l.map Prod.fst ++ [k] := by
  intro l
  induction l with
  | nil => simp [alInsert]
  | cons kv rest ih =>
    simp only [alInsert]
    by_cases hk : k == kv.1
    · have := eq_of_beq hk
      subst this
      simp [List.contains_cons]
    · have hbk : (k == kv.1) = false := by simpa using hk
      rw [if_neg (by simp [hbk])]
      simp only [List.map_cons, ih, List.contains_cons, hbk, Bool.false_or]
      split <;> rfl

theorem alInsert_keys_nodup {κ ν : Type} [BEq κ] [LawfulBEq κ] (k : κ) (v : ν)
    (l : List (κ × ν)) (h : (l.map Prod.fst).Nodup) :
    ((alInsert k v l).map Prod.fst).Nodup := by
  rw [alInsert_keys]
  split
  · exact h
  · case isFalse hc =>
    rw [List.nodup_append]
    refine ⟨h, List.nodup_singleton k, ?_⟩
    intro a ha hb
    rw [List.mem_singleton] at hb
    subst hb
    exact hc (by simpa using ha)

theorem alErase_keys_nodup {κ ν : Type} [BEq κ] [LawfulBEq κ] (k : κ)
    (l : List (κ × ν)) (h : (l.map Prod.fst).Nodup) :
    ((alErase k l).map Prod.fst).Nodup := by
  have hsub : List.Sublist ((alErase k l).map Prod.fst) (l.map Prod.fst) :=
    List.Sublist.map Prod.fst (List.filter_sublist l)
  exact hsub.nodup h

theorem alLookup_mem {κ ν : Type} [BEq κ] [LawfulBEq κ] {k : κ} {v : ν} :
    ∀ {l : List (κ × ν)}, l.lookup k = some v → (k, v) ∈ l := by
  intro l
  induction l with
  | nil => intro h; simp [List.lookup] at h
  | cons kv rest ih =>
    obtain ⟨k', v'⟩ := kv
    intro h
    by_cases hk : k == k'
    · have he : k = k' := eq_of_beq hk
      subst he
      simp [List.lookup] at h
      subst h
      exact List.mem_cons_self _ _
    · have hk' : (k == k') = false := by simpa using hk
      simp [List.lookup, hk'] at h
      exact List.mem_cons_of_mem _ (ih h)

theorem alLookup_of_mem_nodup {κ ν : Type} [BEq κ] [LawfulBEq κ] :
    ∀ {l : List (κ × ν)}, (l.map Prod.fst).Nodup → ∀ {p : κ × ν}, p ∈ l →
      l.lookup p.1 = some p.2 := by
  intro l
  induction l with
  | nil => intro _ p hp; simp at hp
  | cons kv rest ih =>
    intro hnd p hp
    obtain ⟨k', v'⟩ := kv
    rw [List.map_cons, List.nodup_cons] at hnd
    rcases List.mem_cons.mp hp with h | h
    · subst h
      simp [List.lookup]
    · have hmem : p.1 ∈ rest.map Prod.fst := List.mem_map_of_mem Prod.fst h
      have hne : (p.1 == k') = false := by
        have hne' : p.1 ≠ k' := by
          intro he
          exact hnd.1 (he ▸ hmem)
        simpa using hne'
      simp only [List.lookup, hne]
      exact ih hnd.2 h

theorem alInsert_mem {κ ν : Type} [BEq κ] (k : κ) (v : ν) :
    ∀ {l : List (κ × ν)} {p : κ × ν}, p ∈ alInsert k v l →
      p ∈ l ∨ p = (k, v) := by
  intro l
  induction l with
  | nil =>
    intro p hp
    simp [alInsert] at hp
    exact Or.inr hp
  | cons kv rest ih =>
    intro p hp
    obtain ⟨k', v'⟩ := kv
    by_cases hk : k == k'
    · rw [alInsert, if_pos hk] at hp
      rcases List.mem_cons.mp hp with h | h
      · exact Or.inr h
      · exact Or.inl (List.mem_cons_of_mem _ h)
    · rw [alInsert, if_neg hk] at hp
      rcases List.mem_cons.mp hp with h | h
      · subst h
        exact Or.inl (List.mem_cons_self _ _)
      · rcases ih h with h2 | h2
        · exact Or.inl (List.mem_cons_of_mem _ h2)
        · exact Or.inr h2

theorem alSetdefault_mem {κ ν : Type} [BEq κ] {k : κ} {v : ν}
    {l : List (κ × ν)} {p : κ × ν} (hp : p ∈ alSetdefault k v l) :
    p ∈ l ∨ p = (k, v) := by
  unfold alSetdefault at hp
  split at hp
  · exact Or.inl hp
  · rcases List.mem_append.mp hp with h | h
    · exact Or.inl h
    · exact Or.inr (by simpa using h)

theorem alErase_mem {κ ν : Type} [BEq κ] {k : κ} {l : List (κ × ν)}
    {p : κ × ν} (hp : p ∈ alErase k l) : p ∈ l := by
  unfold alErase at hp
  exact (List.filter_sublist l).subset hp

theorem alInsert_lookup_isSome {κ ν : Type} [BEq κ] [LawfulBEq κ] (k k' : κ)
    (v : ν) (l : List (κ × ν)) (h : (l.lookup k').isSome = true) :
    ((alInsert k v l).lookup k').isSome = true := by
  by_cases hk : k' == k
  · have he : k' = k := eq_of_beq hk
    subst he
    rw [alInsert_lookup_self]
    rfl
  · rw [alInsert_lookup_ne k k' v l hk]
    exact h

theorem alSetdefault_lookup_isSome {κ ν : Type} [BEq κ] [LawfulBEq κ]
    (k k' : κ) (v : ν) (l : List (κ × ν)) (h : (l.lookup k').isSome = true) :
    ((alSetdefault k v l).lookup k').isSome = true := by
  by_cases hk : k' == k
  · have he : k' = k := eq_of_beq hk
    subst he
    cases hl : l.lookup k' with
    | none => rw [alSetdefault_lookup_none k' v l hl]; rfl
    | some u => rw [alSetdefault_lookup_some k' u v l hl]; rfl
  · rw [alSetdefault_lookup_ne k k' v l hk]
    exact h

theorem propagateEdge_mem_bound (maxHops step tid : Nat)
    (holders : List (String × Nat)) (acc : List (String × Nat) × List Event)
    (e : String × String) (q : String × Nat)
    (hq : q ∈ (propagateEdge maxHops step tid holders acc e).1) :
    q ∈ acc.1 ∨ q.2 ≤ maxHops := by
  revert hq
  unfold propagateEdge
  split
  · exact Or.inl
  · intro hq
    have step2 : ∀ (acc1 : List (String × Nat) × List Event),
        q ∈ (match holders.lookup e.2 with
         | some hb =>
           if hb < maxHops then
             (alSetdefault e.1 (hb + 1) acc1.1,
              acc1.2 ++ [Event.taskForwarded step tid e.2 e.1])
           else acc1
         | none => acc1).1 →
        q ∈ acc1.1 ∨ q.2 ≤ maxHops := by
      intro acc1 h1
      revert h1
      cases hb2 : holders.lookup e.2 with
      | none => exact Or.inl
      | some hb =>
        by_cases hb' : hb < maxHops
        · simp only [hb', if_true]
          intro h1
          rcases alSetdefault_mem h1 with h2 | h2
          · exact Or.inl h2
          · subst h2
            exact Or.inr (Nat.succ_le_of_lt hb')
        · simp only [hb', if_false]
          exact Or.inl
    have step1 : q ∈ (match holders.lookup e.1 with
         | some ha =>
           if ha < maxHops then
             (alSetdefault e.2 (ha + 1) acc.1,
              acc.2 ++ [Event.taskForwarded step tid e.1 e.2])
           else acc
         | none => acc).1 →
        q ∈ acc.1 ∨ q.2 ≤ maxHops := by
      cases ha1 : holders.lookup e.1 with
      | none => exact Or.inl
      | some ha =>
        by_cases ha' : ha < maxHops
        · simp only [ha', if_true]
          intro h1
          rcases alSetdefault_mem h1 with h2 | h2
          · exact Or.inl h2
          · subst h2
            exact Or.inr (Nat.succ_le_of_lt ha')
        · simp only [ha', if_false]
          exact Or.inl
    rcases step2 _ hq with h1 | h1
    · exact step1 h1
    · exact Or.inr h1

theorem propagateEdges_go_mem_bound (maxHops step tid : Nat)
    (holders : List (String × Nat)) (q : String × Nat) :
    ∀ (edges : List (String × String))
      (acc : List (String × Nat) × List Event),
      q ∈ (edges.foldl (propagateEdge maxHops step tid holders) acc).1 →
      q ∈ acc.1 ∨ q.2 ≤ maxHops := by
  intro edges
  induction edges with
  | nil => intro acc h; exact Or.inl h
  | cons e rest ih =>
    intro acc h
    rw [List.foldl_cons] at h
    rcases ih _ h with h1 | h1
    · exact propagateEdge_mem_bound maxHops step tid holders acc e q h1
    · exact Or.inr h1

theorem propagateEdges_mem_bound (maxHops step tid : Nat)
    (edges : List (String × String)) (holders : List (String × Nat))
    (q : String × Nat)
    (h : q ∈ (propagateEdges maxHops step tid edges holders).1) :
    q ∈ holders ∨ q.2 ≤ maxHops :=
  propagateEdges_go_mem_bound maxHops step tid holders q edges (holders, []) h

theorem dispatchOne_hopsLe (m : Nat) (hm1 : 1 ≤ m) (sat : String)
    (st : MState) (kv : Nat × Task) (hb : hopsLe m st) :
    hopsLe m (dispatchOne sat st kv) := by
  unfold dispatchOne
  split
  · exact hb
  · intro p hp q hq
    rcases alInsert_mem _ _ hp with h1 | h1
    · exact hb p h1 q hq
    · subst h1
      rcases alInsert_mem _ _ hq with h2 | h2
      · cases hlk : st.inFlight.lookup kv.1 with
        | none =>
          rw [hlk] at h2
          simp at h2
        | some hmv =>
          rw [hlk] at h2
          exact hb _ (alLookup_mem hlk) q (by simpa using h2)
      · subst h2
        exact hm1

theorem dispatch_fold_hopsLe (m : Nat) (hm1 : 1 ≤ m) (sat : String) :
    ∀ (l : List (Nat × Task)) (st : MState), hopsLe m st →
      hopsLe m (l.foldl (dispatchOne sat) st) := by
  intro l
  induction l with
  | nil => intro st hb; exact hb
  | cons kv rest ih =>
    intro st hb
    rw [List.foldl_cons]
    exact ih _ (dispatchOne_hopsLe m hm1 sat st kv hb)

theorem islDispatch_hopsLe (m : Nat) (hm1 : 1 ≤ m) (sat : String)
    (s : MState) (hb : hopsLe m s) : hopsLe m (islDispatch sat s) :=
  dispatch_fold_hopsLe m hm1 sat s.pending s hb

theorem propagateOne_hopsLe (P : MParams) (edges : List (String × String))
    (st : MState) (kv : Nat × List (String × Nat)) (hb : hopsLe P.maxHops st)
    (hkv : ∀ q ∈ kv.2, q.2 ≤ P.maxHops) :
    hopsLe P.maxHops (propagateOne P edges st kv) := by
  intro p hp q hq
  rcases alInsert_mem _ _ hp with h1 | h1
  · exact hb p h1 q hq
  · subst h1
    rcases propagateEdges_mem_bound P.maxHops st.step kv.1 edges kv.2 q hq
      with h2 | h2
    · exact hkv q h2
    · exact h2

theorem propagate_fold_hopsLe (P : MParams) (edges : List (String × String)) :
    ∀ (l : List (Nat × List (String × Nat))) (st : MState),
      hopsLe P.maxHops st → (∀ kv ∈ l, ∀ q ∈ kv.2, q.2 ≤ P.maxHops) →
      hopsLe P.maxHops (l.foldl (propagateOne P edges) st) := by
  intro l
  induction l with
  | nil => intro st hb _; exact hb
  | cons kv rest ih =>
    intro st hb hl
    rw [List.foldl_cons]
    exact ih _
      (propagateOne_hopsLe P edges st kv hb (hl kv (List.mem_cons_self _ _)))
      (fun kv' h => hl kv' (List.mem_cons_of_mem _ h))

theorem islPropagate_hopsLe (P : MParams) (edges : List (String × String))
    (s : MState) (hb : hopsLe P.maxHops s) :
    hopsLe P.maxHops (islPropagate P edges s) :=
  propagate_fold_hopsLe P edges s.inFlight s hb (fun kv h => hb kv h)

theorem validateOne_hopsLe (m : Nat) (P : MParams)
    (satPos : String → Option (ℚ × ℚ)) (st : MState)
    (kv : Nat × List (String × Nat)) (hb : hopsLe m st) :
    hopsLe m (validateOne P satPos st kv) := by
  intro p hp q hq
  rcases validateOne_inFlight P satPos st kv with h | h
  · rw [h] at hp
    exact hb p hp q hq
  · rw [h] at hp
    exact hb p (alErase_mem hp) q hq

theorem validate_fold_hopsLe (m : Nat) (P : MParams)
    (satPos : String → Option (ℚ × ℚ)) :
    ∀ (l : List (Nat × List (String × Nat))) (st : MState), hopsLe m st →
      hopsLe m (l.foldl (validateOne P satPos) st) := by
  intro l
  induction l with
  | nil => intro st hb; exact hb
  | cons kv rest ih =>
    intro st hb
    rw [List.foldl_cons]
    exact ih _ (validateOne_hopsLe m P satPos st kv hb)

theorem islValidate_hopsLe (m : Nat) (P : MParams)
    (satPos : String → Option (ℚ × ℚ)) (s : MState) (hb : hopsLe m s) :
    hopsLe m (islValidate P satPos s) :=
  validate_fold_hopsLe m P satPos s.inFlight s hb

theorem groundPhase_inFlight (P : MParams) (contacts : List (String × String))
    (satPos : String → Option (ℚ × ℚ)) (s : MState) :
    (groundPhase P contacts satPos s).inFlight = s.inFlight := by
  unfold groundPhase
  cases contacts with
  | nil => rfl
  | cons e rest =>
    cases hm : minKeyPair s.pending with
    | none => rfl
    | some kv =>
      obtain ⟨tid, tsk⟩ := kv
      dsimp only
      repeat' split
      all_goals rfl

theorem groundPhase_hopsLe (m : Nat) (P : MParams)
    (contacts : List (String × String)) (satPos : String → Option (ℚ × ℚ))
    (s : MState) (hb : hopsLe m s) :
    hopsLe m (groundPhase P contacts satPos s) := by
  intro p hp q hq
  rw [groundPhase_inFlight] at hp
  exact hb p hp q hq

theorem stepFn_hopsLe (P : MParams) (s : MState) (hm1 : 1 ≤ P.maxHops)
    (hb : hopsLe P.maxHops s) : hopsLe P.maxHops (stepFn P s) := by
  simp only [stepFn]
  repeat' split
  all_goals
    first
    | exact hb
    | exact groundPhase_hopsLe _ _ _ _ _ hb
    | exact islValidate_hopsLe _ _ _ _
        (islPropagate_hopsLe _ _ _ (islDispatch_hopsLe _ hm1 _ _ hb))
    | exact islValidate_hopsLe _ _ _ _
        (islPropagate_hopsLe _ _ _
          (islDispatch_hopsLe _ hm1 _ _ (groundPhase_hopsLe _ _ _ _ _ hb)))
    | exact islValidate_hopsLe _ _ _ _ (islPropagate_hopsLe _ _ _ hb)
    | exact islValidate_hopsLe _ _ _ _
        (islPropagate_hopsLe _ _ _ (groundPhase_hopsLe _ _ _ _ _ hb))

theorem groundPhase_dispatched_isSome (P : MParams)
    (contacts : List (String × String)) (satPos : String → Option (ℚ × ℚ))
    (s : MState) (k : Nat) (h : (s.dispatched.lookup k).isSome = true) :
    ((groundPhase P contacts satPos s).dispatched.lookup k).isSome = true := by
  unfold groundPhase
  cases contacts with
  | nil => exact h
  | cons e rest =>
    cases hm : minKeyPair s.pending with
    | none => exact h
    | some kv =>
      obtain ⟨tid, tsk⟩ := kv
      dsimp only
      repeat' split
      all_goals exact alSetdefault_lookup_isSome tid k s.step s.dispatched h

theorem groundPhase_floodWF (P : MParams) (contacts : List (String × String))
    (satPos : String → Option (ℚ × ℚ)) (s : MState) (hw : floodWF s) :
    floodWF (groundPhase P contacts satPos s) := by
  obtain ⟨hK, hN⟩ := hw
  constructor
  · intro p hp
    rw [groundPhase_inFlight] at hp
    exact groundPhase_dispatched_isSome P contacts satPos s p.1 (hK p hp)
  · rw [groundPhase_inFlight]
    exact hN

theorem dispatchOne_floodWF (sat : String) (st : MState) (kv : Nat × Task)
    (hw : floodWF st) : floodWF (dispatchOne sat st kv) := by
  obtain ⟨hK, hN⟩ := hw
  unfold dispatchOne
  split
  · exact ⟨hK, hN⟩
  · constructor
    · intro p hp
      rcases alInsert_mem _ _ hp with h1 | h1
      · exact alInsert_lookup_isSome kv.1 p.1 st.step st.dispatched (hK p h1)
      · have hself : ((alInsert kv.1 st.step st.dispatched).lookup
            kv.1).isSome = true := by
          rw [alInsert_lookup_self]
          rfl
        rw [h1]
        exact hself
    · exact alInsert_keys_nodup _ _ _ hN

theorem dispatch_fold_floodWF (sat : String) :
    ∀ (l : List (Nat × Task)) (st : MState), floodWF st →
      floodWF (l.foldl (dispatchOne sat) st) := by
  intro l
  induction l with
  | nil => intro st hw; exact hw
  | cons kv rest ih =>
    intro st hw
    rw [List.foldl_cons]
    exact ih _ (dispatchOne_floodWF sat st kv hw)

theorem islDispatch_floodWF (sat : String) (s : MState) (hw : floodWF s) :
    floodWF (islDispatch sat s) :=
  dispatch_fold_floodWF sat s.pending s hw

theorem propagateOne_floodWF (P : MParams) (edges : List (String × String))
    (st : MState) (kv : Nat × List (String × Nat)) (hw : floodWF st)
    (hkv : (st.dispatched.lookup kv.1).isSome = true) :
    floodWF (propagateOne P edges st kv) := by
  obtain ⟨hK, hN⟩ := hw
  constructor
  · intro p hp
    rcases alInsert_mem _ _ hp with h1 | h1
    · exact hK p h1
    · rw [h1]
      exact hkv
  · exact alInsert_keys_nodup _ _ _ hN

theorem propagate_fold_floodWF (P : MParams) (edges : List (String × String)) :
    ∀ (l : List (Nat × List (String × Nat))) (st : MState), floodWF st →
      (∀ kv ∈ l, (st.dispatched.lookup kv.1).isSome = true) →
      floodWF (l.foldl (propagateOne P edges) st) ∧
        (l.foldl (propagateOne P edges) st).dispatched = st.dispatched := by
  intro l
  induction l with
  | nil => intro st hw _; exact ⟨hw, rfl⟩
  | cons kv rest ih =>
    intro st hw hl
    rw [List.foldl_cons]
    obtain ⟨hw1, hd1⟩ := ih (propagateOne P edges st kv)
      (propagateOne_floodWF P edges st kv hw (hl kv (List.mem_cons_self _ _)))
      (fun kv' h => hl kv' (List.mem_cons_of_mem _ h))
    exact ⟨hw1, hd1⟩

theorem islPropagate_floodWF (P : MParams) (edges : List (String × String))
    (s : MState) (hw : floodWF s) : floodWF (islPropagate P edges s) :=
  (propagate_fold_floodWF P edges s.inFlight s hw (fun kv h => hw.1 kv h)).1

theorem validateHolders_dispatched (P : MParams)
    (satPos : String → Option (ℚ × ℚ)) (tid : Nat) (tsk : Task)
    (tok : SemPayload) :
    ∀ (holders : List (String × Nat)) (st : MState),
      (validateHolders P satPos tid tsk tok holders st).dispatched =
        st.dispatched := by
  intro holders
  induction holders with
  | nil => intro st; rfl
  | cons kv rest ih =>
    intro st
    cases hpos : satPos kv.1 with
    | none => simpa [validateHolders, hpos] using ih st
    | some pos =>
      by_cases hv : (combinedVerdict (validateSem tok tsk kv.2 st.step)
          (withinRadius tsk.target pos P.radius)).1 = true
      · simp [validateHolders, hpos, hv]
      · have hrec := ih { st with events := st.events ++
          [Event.tokenValidated st.step tid kv.1
            (combinedVerdict (validateSem tok tsk kv.2 st.step)
              (withinRadius tsk.target pos P.radius)).1
            (combinedVerdict (validateSem tok tsk kv.2 st.step)
              (withinRadius tsk.target pos P.radius)).2] }
        simpa [validateHolders, hpos, hv] using hrec

theorem validateOne_dispatched (P : MParams)
    (satPos : String → Option (ℚ × ℚ)) (st : MState)
    (kv : Nat × List (String × Nat)) :
    (validateOne P satPos st kv).dispatched = st.dispatched := by
  unfold validateOne
  cases st.tokens.lookup kv.1 with
  | none => rfl
  | some tok =>
    exact validateHolders_dispatched P satPos kv.1 (taskAt P kv.1) tok kv.2 st

theorem validateOne_floodWF (P : MParams)
    (satPos : String → Option (ℚ × ℚ)) (st : MState)
    (kv : Nat × List (String × Nat)) (hw : floodWF st) :
    floodWF (validateOne P satPos st kv) := by
  obtain ⟨hK, hN⟩ := hw
  rcases validateOne_inFlight P satPos st kv with h | h
  · constructor
    · intro p hp
      rw [h] at hp
      rw [validateOne_dispatched]
      exact hK p hp
    · rw [h]
      exact hN
  · constructor
    · intro p hp
      rw [h] at hp
      rw [validateOne_dispatched]
      exact hK p (alErase_mem hp)
    · rw [h]
      exact alErase_keys_nodup kv.1 st.inFlight hN

theorem validate_fold_floodWF (P : MParams)
    (satPos : String → Option (ℚ × ℚ)) :
    ∀ (l : List (Nat × List (String × Nat))) (st : MState), floodWF st →
      floodWF (l.foldl (validateOne P satPos) st) := by
  intro l
  induction l with
  | nil => intro st hw; exact hw
  | cons kv rest ih =>
    intro st hw
    rw [List.foldl_cons]
    exact ih _ (validateOne_floodWF P satPos st kv hw)

theorem islValidate_floodWF (P : MParams)
    (satPos : String → Option (ℚ × ℚ)) (s : MState) (hw : floodWF s) :
    floodWF (islValidate P satPos s) :=
  validate_fold_floodWF P satPos s.inFlight s hw

theorem stepFn_floodWF (P : MParams) (s : MState) (hw : floodWF s) :
    floodWF (stepFn P s) := by
  simp only [stepFn]
  repeat' split
  all_goals
    first
    | exact hw
    | exact groundPhase_floodWF _ _ _ _ hw
    | exact islValidate_floodWF _ _ _
        (islPropagate_floodWF _ _ _ (islDispatch_floodWF _ _ hw))
    | exact islValidate_floodWF _ _ _
        (islPropagate_floodWF _ _ _
          (islDispatch_floodWF _ _ (groundPhase_floodWF _ _ _ _ hw)))
    | exact islValidate_floodWF _ _ _ (islPropagate_floodWF _ _ _ hw)
    | exact islValidate_floodWF _ _ _
        (islPropagate_floodWF _ _ _ (groundPhase_floodWF _ _ _ _ hw))

theorem dispatchOne_lookup_pres (sat : String) (st : MState) (kv : Nat × Task)
    (tid : Nat) (hd : (st.dispatched.lookup tid).isSome = true) :
    (dispatchOne sat st kv).inFlight.lookup tid = st.inFlight.lookup tid ∧
      ((dispatchOne sat st kv).dispatched.lookup tid).isSome = true := by
  unfold dispatchOne
  split
  · exact ⟨rfl, hd⟩
  · rename_i hskip
    have hne : ¬ tid == kv.1 := by
      intro hb
      have he : tid = kv.1 := eq_of_beq hb
      subst he
      exact hskip hd
    constructor
    · exact alInsert_lookup_ne kv.1 tid _ st.inFlight hne
    · exact alInsert_lookup_isSome kv.1 tid st.step st.dispatched hd

theorem dispatch_fold_lookup_pres (sat : String) (tid : Nat) :
    ∀ (l : List (Nat × Task)) (st : MState),
      (st.dispatched.lookup tid).isSome = true →
      (l.foldl (dispatchOne sat) st).inFlight.lookup tid =
          st.inFlight.lookup tid ∧
        ((l.foldl (dispatchOne sat) st).dispatched.lookup tid).isSome
          = true := by
  intro l
  induction l with
  | nil => intro st hd; exact ⟨rfl, hd⟩
  | cons kv rest ih =>
    intro st hd
    rw [List.foldl_cons]
    obtain ⟨h1, h2⟩ := dispatchOne_lookup_pres sat st kv tid hd
    obtain ⟨h3, h4⟩ := ih _ h2
    exact ⟨h3.trans h1, h4⟩

theorem propagate_fold_holder_pres (P : MParams)
    (edges : List (String × String)) (tid : Nat) (sat : String) (h : Nat) :
    ∀ (l : List (Nat × List (String × Nat))) (st : MState),
      (∀ kv ∈ l, kv.1 = tid → kv.2.lookup sat = some h) →
      (∃ m, st.inFlight.lookup tid = some m ∧ m.lookup sat = some h) →
      ∃ m, (l.foldl (propagateOne P edges) st).inFlight.lookup tid = some m ∧
        m.lookup sat = some h := by
  intro l
  induction l with
  | nil => intro st _ hex; exact hex
  | cons kv rest ih =>
    intro st hl hex
    rw [List.foldl_cons]
    refine ih _ (fun kv' h' he => hl kv' (List.mem_cons_of_mem _ h') he) ?_
    by_cases hk : kv.1 = tid
    · refine ⟨(propagateEdges P.maxHops st.step kv.1 edges kv.2).1, ?_, ?_⟩
      · show (alInsert kv.1 (propagateEdges P.maxHops st.step kv.1 edges
            kv.2).1 st.inFlight).lookup tid = _
        rw [← hk]
        exact alInsert_lookup_self _ _ _
      · exact propagateEdges_pres P.maxHops st.step kv.1 edges kv.2 sat h
          (hl kv (List.mem_cons_self _ _) hk)
    · obtain ⟨m, hm, hms⟩ := hex
      refine ⟨m, ?_, hms⟩
      have hne : ¬ tid == kv.1 := fun hb => hk ((eq_of_beq hb).symm)
      show (alInsert kv.1 (propagateEdges P.maxHops st.step kv.1 edges
          kv.2).1 st.inFlight).lookup tid = some m
      rw [alInsert_lookup_ne kv.1 tid _ st.inFlight hne]
      exact hm

theorem islPropagate_holder_pres (P : MParams)
    (edges : List (String × String)) (s : MState) (tid : Nat) (sat : String)
    (h : Nat) (hN : (s.inFlight.map Prod.fst).Nodup)
    (m0 : List (String × Nat)) (hm0 : s.inFlight.lookup tid = some m0)
    (hms : m0.lookup sat = some h) :
    ∃ m, (islPropagate P edges s).inFlight.lookup tid = some m ∧
      m.lookup sat = some h := by
  refine propagate_fold_holder_pres P edges tid sat h s.inFlight s ?_
    ⟨m0, hm0, hms⟩
  intro kv hkv heq
  have hlk := alLookup_of_mem_nodup hN hkv
  rw [heq, hm0] at hlk
  have hk2 : m0 = kv.2 := Option.some.inj hlk
  rw [← hk2]
  exact hms

theorem holderHop_eq_some (s : MState) (tid : Nat) (sat : String) (h : Nat)
    (hl : holderHop s tid sat = some h) :
    ∃ m0, s.inFlight.lookup tid = some m0 ∧ m0.lookup sat = some h := by
  unfold holderHop at hl
  cases hlk : s.inFlight.lookup tid with
  | none =>
    rw [hlk] at hl
    simp at hl
  | some m0 =>
    rw [hlk] at hl
    exact ⟨m0, rfl, hl⟩

theorem holderHop_pres_of_inFlight_eq (s s' : MState) (tid : Nat)
    (sat : String) (h : Nat) (he : s'.inFlight = s.inFlight)
    (hl : holderHop s tid sat = some h) :
    holderHop s' tid sat = some h ∨ s'.inFlight.lookup tid = none := by
  refine Or.inl ?_
  unfold holderHop at hl ⊢
  rw [he]
  exact hl

theorem isl_phases_holder_pres (P : MParams)
    (satPos : String → Option (ℚ × ℚ)) (edges : List (String × String))
    (s4a : MState) (tid : Nat) (sat : String) (h : Nat)
    (m0 : List (String × Nat)) (h4a : s4a.inFlight.lookup tid = some m0)
    (hms : m0.lookup sat = some h)
    (hN : (s4a.inFlight.map Prod.fst).Nodup) :
    holderHop (islValidate P satPos (islPropagate P edges s4a)) tid sat
        = some h
    ∨ (islValidate P satPos (islPropagate P edges s4a)).inFlight.lookup tid
        = none := by
  obtain ⟨m1, h1, h1s⟩ :=
    islPropagate_holder_pres P edges s4a tid sat h hN m0 h4a hms
  rcases islValidate_inFlight P satPos (islPropagate P edges s4a) tid
    with hu | hu
  · refine Or.inl ?_
    unfold holderHop
    rw [hu, h1]
    exact h1s
  · exact Or.inr hu

theorem isl_all_phases_holder_pres (P : MParams)
    (satPos : String → Option (ℚ × ℚ)) (edges : List (String × String))
    (dsat : String) (s2 : MState) (tid : Nat) (sat : String) (h : Nat)
    (m0 : List (String × Nat)) (h2 : s2.inFlight.lookup tid = some m0)
    (hms : m0.lookup sat = some h) (hw : floodWF s2) :
    holderHop (islValidate P satPos
        (islPropagate P edges (islDispatch dsat s2))) tid sat = some h
    ∨ (islValidate P satPos
        (islPropagate P edges (islDispatch dsat s2))).inFlight.lookup tid
        = none := by
  have hd0 : (s2.dispatched.lookup tid).isSome = true :=
    hw.1 (tid, m0) (alLookup_mem h2)
  obtain ⟨hP1, _⟩ := dispatch_fold_lookup_pres dsat tid s2.pending s2 hd0
  have hw4 : floodWF (islDispatch dsat s2) := islDispatch_floodWF dsat s2 hw
  exact isl_phases_holder_pres P satPos edges (islDispatch dsat s2) tid sat h
    m0 (hP1.trans h2) hms hw4.2

theorem stepFn_holder_pres (P : MParams) (s : MState) (hw : floodWF s)
    (tid : Nat) (sat : String) (h : Nat)
    (hl : holderHop s tid sat = some h) :
    holderHop (stepFn P s) tid sat = some h ∨
      (stepFn P s).inFlight.lookup tid = none := by
  obtain ⟨m0, hm0l, hm0s⟩ := holderHop_eq_some s tid sat h hl
  simp only [stepFn]
  repeat' split
  all_goals
    first
    | exact holderHop_pres_of_inFlight_eq s _ tid sat h rfl hl
    | exact holderHop_pres_of_inFlight_eq s _ tid sat h
        (groundPhase_inFlight _ _ _ _) hl
    | exact isl_all_phases_holder_pres P _ _ _ _ tid sat h m0 hm0l hm0s hw
    | exact isl_phases_holder_pres P _ _ _ tid sat h m0 hm0l hm0s hw.2
    | simp_all

theorem runModeState_floodWF (P : MParams) :
    ∀ n, floodWF (runModeState P n)
  | 0 => ⟨fun p hp => absurd hp (List.not_mem_nil p), List.nodup_nil⟩
  | n + 1 => stepFn_floodWF P _ (runModeState_floodWF P n)

theorem runModeState_hopsLe (P : MParams) (hm1 : 1 ≤ P.maxHops) :
    ∀ n, hopsLe P.maxHops (runModeState P n)
  | 0 => fun p hp => absurd hp (List.not_mem_nil p)
  | n + 1 => stepFn_hopsLe P _ hm1 (runModeState_hopsLe P hm1 n)

/-- C8: the hop count recorded in a task's holder map for a satellite is
written once and never overwritten — an entry present after step `n` is still
present with the same value after step `n + 1` unless the task's whole flood
has been removed by a successful validation (so, while the flood lives, the
recorded value is constant, hence non-decreasing) — and, provided
`max_hops ≥ 1`, every recorded hop count is at most `max_hops`.  The bound
needs the proviso: with `max_hops = 0` the dispatch itself records hop count
`1 > max_hops` (see the counterexample). -/
theorem hop_count_first_arrival (P : MParams) (n : Nat) (tid : Nat)
    (sat : String) (h : Nat)
    (hl : holderHop (runModeState P n) tid sat = some h) :
    (1 ≤ P.maxHops → h ≤ P.maxHops) ∧
    (holderHop (runModeState P (n + 1)) tid sat = some h ∨
      (runModeState P (n + 1)).inFlight.lookup tid = none) := by
  constructor
  · intro hm1
    obtain ⟨m0, hm0l, hm0s⟩ := holderHop_eq_some (runModeState P n) tid sat h hl
    exact runModeState_hopsLe P hm1 n (tid, m0) (alLookup_mem hm0l)
      (sat, h) (alLookup_mem hm0s)
  · exact stepFn_holder_pres P (runModeState P n) (runModeState_floodWF P n)
      tid sat h hl

set_option maxRecDepth 100000 in
/-- Counterexample to C8's unconditional hop bound: with `max_hops = 0` the
dispatch itself records hop count `1`, exceeding `max_hops`, for the starting
holder of the flood. -/
theorem hop_bound_counterexample :
    holderHop (runModeState Pc3 1) 0 "sat-0" = some 1 ∧ Pc3.maxHops = 0 :=
  ⟨by decide, rfl⟩

set_option maxRecDepth 100000 in
/-- Witness for C8 at `Pc8`: the dispatch entry `("sat-0", 1)` recorded by
step 1 respects the bound `max_hops = 2` and survives to step 2 unchanged. -/
theorem hop_count_first_arrival_witness :
    (1 ≤ Pc8.maxHops → 1 ≤ Pc8.maxHops) ∧
    (holderHop (runModeState Pc8 2) 0 "sat-0" = some 1 ∨
      (runModeState Pc8 2).inFlight.lookup 0 = none) :=
  hop_count_first_arrival Pc8 1 0 "sat-0" 1 (by decide)

theorem alErase_lookup_none {κ ν : Type} [BEq κ] [LawfulBEq κ] (k k' : κ)
    (l : List (κ × ν)) (h : l.lookup k' = none) :
    (alErase k l).lookup k' = none := by
  by_cases hk : k' == k
  · have he : k' = k := eq_of_beq hk
    subst he
    exact alErase_lookup_self k' l
  · rw [alErase_lookup_ne k k' l hk]
    exact h

theorem alErase_lookup_some {κ ν : Type} [BEq κ] [LawfulBEq κ] (k k' : κ)
    (v : ν) (l : List (κ × ν)) (h : (alErase k l).lookup k' = some v) :
    l.lookup k' = some v := by
  by_cases hk : k' == k
  · have he : k' = k := eq_of_beq hk
    subst he
    rw [alErase_lookup_self] at h
    exact absurd h (by simp)
  · rw [alErase_lookup_ne k k' l hk] at h
    exact h

theorem filter_lookup_none {κ ν : Type} [BEq κ] [LawfulBEq κ]
    (p : κ × ν → Bool) (k : κ) :
    ∀ (l : List (κ × ν)), l.lookup k = none → (l.filter p).lookup k = none := by
  intro l
  induction l with
  | nil => intro h; rfl
  | cons kv rest ih =>
    intro h
    obtain ⟨k', v'⟩ := kv
    by_cases hk : k == k'
    · rw [List.lookup, hk] at h
      exact absurd h (by simp)
    · have hk' : (k == k') = false := by simpa using hk
      rw [List.lookup, hk'] at h
      rw [List.filter_cons]
      split
      · rw [List.lookup, hk']
        exact ih h
      · exact ih h

theorem filter_keys_nodup {κ ν : Type} [BEq κ] (p : κ × ν → Bool)
    (l : List (κ × ν)) (h : (l.map Prod.fst).Nodup) :
    ((l.filter p).map Prod.fst).Nodup := by
  have hsub : List.Sublist ((l.filter p).map Prod.fst) (l.map Prod.fst) :=
    List.Sublist.map Prod.fst (List.filter_sublist l)
  exact hsub.nodup h

theorem filter_lookup_some {κ ν : Type} [BEq κ] [LawfulBEq κ]
    (p : κ × ν → Bool) (k : κ) (v : ν) (l : List (κ × ν))
    (hnd : (l.map Prod.fst).Nodup) (h : (l.filter p).lookup k = some v) :
    l.lookup k = some v := by
  have hm : (k, v) ∈ l.filter p := alLookup_mem h
  have hm' : (k, v) ∈ l := (List.filter_sublist l).subset hm
  exact alLookup_of_mem_nodup hnd hm'

theorem filter_lookup_none_of_mem {κ ν : Type} [BEq κ] [LawfulBEq κ]
    (p : κ × ν → Bool) (l : List (κ × ν)) (kv : κ × ν)
    (hnd : (l.map Prod.fst).Nodup) (hm : kv ∈ l) (hp : p kv = false) :
    (l.filter p).lookup kv.1 = none := by
  cases hlk : (l.filter p).lookup kv.1 with
  | none => rfl
  | some w =>
    exfalso
    have hw : (kv.1, w) ∈ l.filter p := alLookup_mem hlk
    have hw' : (kv.1, w) ∈ l := (List.filter_sublist l).subset hw
    have h1 : l.lookup kv.1 = some w := alLookup_of_mem_nodup hnd hw'
    have h2 : l.lookup kv.1 = some kv.2 := alLookup_of_mem_nodup hnd hm
    have hvw : w = kv.2 := by
      rw [h1] at h2
      exact Option.some.inj h2
    have hpw : p (kv.1, w) = true := (List.mem_filter.mp hw).2
    rw [hvw] at hpw
    rw [show (kv.1, kv.2) = kv from rfl] at hpw
    rw [hp] at hpw
    exact Bool.false_ne_true hpw

theorem minKeyPair_mem :
    ∀ (l : List (Nat × Task)) (kv : Nat × Task), minKeyPair l = some kv →
      kv ∈ l := by
  intro l
  induction l with
  | nil => intro kv h; exact absurd h (by simp [minKeyPair])
  | cons kv0 rest ih =>
    intro kv h
    obtain ⟨k0, v0⟩ := kv0
    simp only [minKeyPair] at h
    revert h
    cases hr : minKeyPair rest with
    | none =>
      intro h
      have he : kv = (k0, v0) := (Option.some.inj h).symm
      rw [he]
      exact List.mem_cons_self _ _
    | some kv' =>
      obtain ⟨k', v'⟩ := kv'
      intro h
      dsimp only at h
      by_cases hle : k0 ≤ k'
      · rw [if_pos hle] at h
        have he : kv = (k0, v0) := (Option.some.inj h).symm
        rw [he]
        exact List.mem_cons_self _ _
      · rw [if_neg hle] at h
        have he : kv = (k', v') := (Option.some.inj h).symm
        rw [he]
        exact List.mem_cons_of_mem _ (ih _ hr)

theorem alInsert_lookup_cases {κ ν : Type} [BEq κ] [LawfulBEq κ]
    (k k' : κ) (v w : ν) (l : List (κ × ν))
    (h : (alInsert k v l).lookup k' = some w) :
    (l.lookup k' = some w ∧ (k' == k) = false) ∨ (k' = k ∧ w = v) := by
  by_cases hk : k' == k
  · have he : k' = k := eq_of_beq hk
    subst he
    rw [alInsert_lookup_self] at h
    exact Or.inr ⟨rfl, (Option.some.inj h).symm⟩
  · rw [alInsert_lookup_ne k k' v l hk] at h
    exact Or.inl ⟨h, by simpa using hk⟩

theorem hasReceiptB_append (tid : Nat) (l₁ l₂ : List Event) :
    hasReceiptB tid (l₁ ++ l₂) =
      (hasReceiptB tid l₁ || hasReceiptB tid l₂) := by
  simp [hasReceiptB, List.any_append]

theorem hasMissB_append (tid : Nat) (l₁ l₂ : List Event) :
    hasMissB tid (l₁ ++ l₂) = (hasMissB tid l₁ || hasMissB tid l₂) := by
  simp [hasMissB, List.any_append]

theorem hasReceiptB_cons (tid : Nat) (e : Event) (l : List Event) :
    hasReceiptB tid (e :: l) =
      ((match e with
        | .receiptEmitted _ tid' _ => tid' == tid
        | _ => false) || hasReceiptB tid l) := rfl

theorem hasMissB_cons (tid : Nat) (e : Event) (l : List Event) :
    hasMissB tid (e :: l) =
      ((match e with
        | .deadlineMiss _ tid' => tid' == tid
        | _ => false) || hasMissB tid l) := rfl

theorem hasReceiptB_nil (tid : Nat) : hasReceiptB tid [] = false := rfl

theorem hasMissB_nil (tid : Nat) : hasMissB tid [] = false := rfl

theorem hasReceiptB_miss_map (tid σ : Nat) :
    ∀ (l : List (Nat × Task)),
      hasReceiptB tid (l.map (fun kv => Event.deadlineMiss σ kv.1)) = false := by
  intro l
  induction l with
  | nil => rfl
  | cons kv rest ih =>
    rw [List.map_cons, hasReceiptB_cons, ih]
    rfl

theorem hasMissB_miss_map (tid σ : Nat) :
    ∀ (l : List (Nat × Task)),
      hasMissB tid (l.map (fun kv => Event.deadlineMiss σ kv.1)) =
        l.any (fun kv => kv.1 == tid) := by
  intro l
  induction l with
  | nil => rfl
  | cons kv rest ih =>
    rw [List.map_cons, hasMissB_cons, ih, List.any_cons]

theorem combinedVerdict_fst (v : Bool × String) (within : Bool)
    (h : (combinedVerdict v within).1 = true) : v.1 = true := by
  unfold combinedVerdict at h
  split at h
  · exact absurd h (by simp)
  · exact h

theorem validateSem_ok_window (p : SemPayload) (task : Task) (hop now : Nat)
    (h : (validateSem p task hop now).1 = true) :
    p.valid_from ≤ now ∧ now ≤ p.valid_to := by
  unfold validateSem at h
  split_ifs at h with h1 h2 h3 h4
  all_goals
    first
    | exact h1
    | exact not_not.mp h1
    | exact absurd h (by simp)

theorem hasReceiptB_created (tid σ t : Nat) :
    hasReceiptB tid [Event.taskCreated σ t] = false := rfl

theorem hasMissB_created (tid σ t : Nat) :
    hasMissB tid [Event.taskCreated σ t] = false := rfl

theorem hasReceiptB_issued (tid σ t : Nat) :
    hasReceiptB tid [Event.tokenIssued σ t] = false := rfl

theorem hasMissB_issued (tid σ t : Nat) :
    hasMissB tid [Event.tokenIssued σ t] = false := rfl

theorem hasReceiptB_dispatchedEv (tid σ t : Nat) (sa : String) :
    hasReceiptB tid [Event.taskDispatched σ t sa] = false := rfl

theorem hasMissB_dispatchedEv (tid σ t : Nat) (sa : String) :
    hasMissB tid [Event.taskDispatched σ t sa] = false := rfl

theorem hasReceiptB_validatedEv (tid σ t : Nat) (sa : String) (ok : Bool)
    (r : String) :
    hasReceiptB tid [Event.tokenValidated σ t sa ok r] = false := rfl

theorem hasMissB_validatedEv (tid σ t : Nat) (sa : String) (ok : Bool)
    (r : String) :
    hasMissB tid [Event.tokenValidated σ t sa ok r] = false := rfl

theorem hasReceiptB_groundEvs (tid σ t : Nat) (sa : String) :
    hasReceiptB tid [Event.taskDispatched σ t sa,
      Event.taskReceived σ t sa] = false := rfl

theorem hasMissB_groundEvs (tid σ t : Nat) (sa : String) :
    hasMissB tid [Event.taskDispatched σ t sa,
      Event.taskReceived σ t sa] = false := rfl

theorem hasReceiptB_groundOkTail (tid σ t : Nat) (sa : String) :
    hasReceiptB tid [Event.taskAccepted σ t sa, Event.taskCompleted σ t sa,
      Event.receiptEmitted σ t sa] = (t == tid) := by
  simp [hasReceiptB]

theorem hasMissB_groundOkTail (tid σ t : Nat) (sa : String) :
    hasMissB tid [Event.taskAccepted σ t sa, Event.taskCompleted σ t sa,
      Event.receiptEmitted σ t sa] = false := rfl

theorem hasReceiptB_okEvs (tid σ t : Nat) (sa : String) :
    hasReceiptB tid [Event.taskReceived σ t sa, Event.taskAccepted σ t sa,
      Event.taskCompleted σ t sa, Event.receiptEmitted σ t sa] = (t == tid) := by
  simp [hasReceiptB]

theorem hasMissB_okEvs (tid σ t : Nat) (sa : String) :
    hasMissB tid [Event.taskReceived σ t sa, Event.taskAccepted σ t sa,
      Event.taskCompleted σ t sa, Event.receiptEmitted σ t sa] = false := rfl

theorem creation_midInv_ground (P : MParams) (s : MState) (hw : ModeInv P s) :
    MidInv P { s with
      events := s.events ++ [Event.taskCreated s.step (taskAt P s.step).task_id]
      pending := alInsert (taskAt P s.step).task_id (taskAt P s.step)
        s.pending } := by
  obtain ⟨hm, hstrict⟩ := hw
  refine ⟨?_, ?_, ?_, ?_, ?_, ?_⟩
  · exact alInsert_keys_nodup _ _ _ hm.nodup
  · intro tid tsk hlk
    rcases alInsert_lookup_cases _ _ _ _ _ hlk with ⟨h1, _⟩ | ⟨h1, h2⟩
    · exact hm.pend tid tsk h1
    · subst h1
      refine ⟨?_, Nat.le_refl _⟩
      rw [h2]
      rfl
  · intro tid tok hlk
    exact hm.toks tid tok hlk
  · intro tid hr
    rw [hasReceiptB_append, hasReceiptB_created, Bool.or_false] at hr
    obtain ⟨hp, hs⟩ := hm.rcpt tid hr
    have hne : ¬ tid == (taskAt P s.step).task_id := by
      intro hb
      have he : tid = (taskAt P s.step).task_id := eq_of_beq hb
      have hlt : tid < s.step := hstrict tid hr
      rw [he] at hlt
      exact absurd hlt (by simp [taskAt])
    rw [alInsert_lookup_ne _ _ _ _ hne]
    exact ⟨hp, hs⟩
  · intro tid hms
    rw [hasMissB_append, hasMissB_created, Bool.or_false] at hms
    obtain ⟨hp, hs⟩ := hm.dmiss tid hms
    have hne : ¬ tid == (taskAt P s.step).task_id := by
      intro hb
      have he : tid = (taskAt P s.step).task_id := eq_of_beq hb
      have hlt : tid + P.ttlSteps < s.step := hs
      rw [he] at hlt
      have : s.step ≤ (taskAt P s.step).task_id + P.ttlSteps := by
        simp [taskAt]
      omega
    rw [alInsert_lookup_ne _ _ _ _ hne]
    exact ⟨hp, hs⟩
  · intro tid hc
    obtain ⟨hr, hms⟩ := hc
    rw [hasReceiptB_append, hasReceiptB_created, Bool.or_false] at hr
    rw [hasMissB_append, hasMissB_created, Bool.or_false] at hms
    exact hm.excl tid ⟨hr, hms⟩

theorem creation_midInv_isl (P : MParams) (s : MState) (hw : ModeInv P s) :
    MidInv P { s with
      events := s.events ++ [Event.taskCreated s.step (taskAt P s.step).task_id]
        ++ [Event.tokenIssued s.step (taskAt P s.step).task_id]
      pending := alInsert (taskAt P s.step).task_id (taskAt P s.step) s.pending
      tokens := alInsert (taskAt P s.step).task_id
        (issueSem (taskAt P s.step) P.maxHops P.radius) s.tokens } := by
  have hg := creation_midInv_ground P s hw
  refine ⟨hg.nodup, hg.pend, ?_, ?_, ?_, ?_⟩
  · intro tid tok hlk
    rcases alInsert_lookup_cases _ _ _ _ _ hlk with ⟨h1, _⟩ | ⟨h1, h2⟩
    · exact hw.mid.toks tid tok h1
    · subst h1
      rw [h2]
      rfl
  · intro tid hr
    rw [hasReceiptB_append, hasReceiptB_issued, Bool.or_false] at hr
    exact hg.rcpt tid hr
  · intro tid hms
    rw [hasMissB_append, hasMissB_issued, Bool.or_false] at hms
    exact hg.dmiss tid hms
  · intro tid hc
    obtain ⟨hr, hms⟩ := hc
    rw [hasReceiptB_append, hasReceiptB_issued, Bool.or_false] at hr
    rw [hasMissB_append, hasMissB_issued, Bool.or_false] at hms
    exact hg.excl tid ⟨hr, hms⟩

theorem groundPhase_midInv (P : MParams) (contacts : List (String × String))
    (satPos : String → Option (ℚ × ℚ)) (s : MState) (hm : MidInv P s) :
    MidInv P (groundPhase P contacts satPos s) := by
  unfold groundPhase
  cases contacts with
  | nil => exact hm
  | cons e rest =>
    cases hmin : minKeyPair s.pending with
    | none => exact hm
    | some kv =>
      obtain ⟨tid0, tsk0⟩ := kv
      have hmem : (tid0, tsk0) ∈ s.pending := minKeyPair_mem _ _ hmin
      have hlk0 : s.pending.lookup tid0 = some tsk0 :=
        alLookup_of_mem_nodup hm.nodup hmem
      obtain ⟨htsk0, hle0⟩ := hm.pend tid0 tsk0 hlk0
      dsimp only
      split
      · refine ⟨?_, ?_, ?_, ?_, ?_, ?_⟩
        · exact alErase_keys_nodup _ _ hm.nodup
        · intro tid tsk hlk
          exact hm.pend tid tsk (alErase_lookup_some _ _ _ _ hlk)
        · exact hm.toks
        · intro tid hr
          rw [hasReceiptB_append, hasReceiptB_append, hasReceiptB_groundEvs,
            Bool.or_false, hasReceiptB_groundOkTail] at hr
          rcases Bool.or_eq_true_iff.mp hr with h | h
          · obtain ⟨hp, hs⟩ := hm.rcpt tid h
            exact ⟨alErase_lookup_none _ _ _ hp, hs⟩
          · have he : tid0 = tid := eq_of_beq h
            subst he
            exact ⟨alErase_lookup_self _ _, hle0⟩
        · intro tid hms
          rw [hasMissB_append, hasMissB_append, hasMissB_groundEvs,
            Bool.or_false, hasMissB_groundOkTail, Bool.or_false] at hms
          obtain ⟨hp, hs⟩ := hm.dmiss tid hms
          exact ⟨alErase_lookup_none _ _ _ hp, hs⟩
        · intro tid hc
          obtain ⟨hr, hms⟩ := hc
          rw [hasReceiptB_append, hasReceiptB_append, hasReceiptB_groundEvs,
            Bool.or_false, hasReceiptB_groundOkTail] at hr
          rw [hasMissB_append, hasMissB_append, hasMissB_groundEvs,
            Bool.or_false, hasMissB_groundOkTail, Bool.or_false] at hms
          rcases Bool.or_eq_true_iff.mp hr with h | h
          · exact hm.excl tid ⟨h, hms⟩
          · have he : tid0 = tid := eq_of_beq h
            subst he
            obtain ⟨hp, _⟩ := hm.dmiss tid0 hms
            rw [hp] at hlk0
            exact absurd hlk0 (by simp)
      · refine ⟨hm.nodup, hm.pend, hm.toks, ?_, ?_, ?_⟩
        · intro tid hr
          rw [hasReceiptB_append, hasReceiptB_groundEvs, Bool.or_false] at hr
          exact hm.rcpt tid hr
        · intro tid hms
          rw [hasMissB_append, hasMissB_groundEvs, Bool.or_false] at hms
          exact hm.dmiss tid hms
        · intro tid hc
          obtain ⟨hr, hms⟩ := hc
          rw [hasReceiptB_append, hasReceiptB_groundEvs, Bool.or_false] at hr
          rw [hasMissB_append, hasMissB_groundEvs, Bool.or_false] at hms
          exact hm.excl tid ⟨hr, hms⟩

theorem dispatchOne_midInv (P : MParams) (sat : String) (st : MState)
    (kv : Nat × Task) (hm : MidInv P st) :
    MidInv P (dispatchOne sat st kv) := by
  unfold dispatchOne
  split
  · exact hm
  · refine ⟨hm.nodup, hm.pend, hm.toks, ?_, ?_, ?_⟩
    · intro tid hr
      rw [hasReceiptB_append, hasReceiptB_dispatchedEv, Bool.or_false] at hr
      exact hm.rcpt tid hr
    · intro tid hms
      rw [hasMissB_append, hasMissB_dispatchedEv, Bool.or_false] at hms
      exact hm.dmiss tid hms
    · intro tid hc
      obtain ⟨hr, hms⟩ := hc
      rw [hasReceiptB_append, hasReceiptB_dispatchedEv, Bool.or_false] at hr
      rw [hasMissB_append, hasMissB_dispatchedEv, Bool.or_false] at hms
      exact hm.excl tid ⟨hr, hms⟩

theorem dispatch_fold_midInv (P : MParams) (sat : String) :
    ∀ (l : List (Nat × Task)) (st : MState), MidInv P st →
      MidInv P (l.foldl (dispatchOne sat) st) := by
  intro l
  induction l with
  | nil => intro st hm; exact hm
  | cons kv rest ih =>
    intro st hm
    rw [List.foldl_cons]
    exact ih _ (dispatchOne_midInv P sat st kv hm)

theorem islDispatch_midInv (P : MParams) (sat : String) (s : MState)
    (hm : MidInv P s) : MidInv P (islDispatch sat s) :=
  dispatch_fold_midInv P sat s.pending s hm

theorem propagateEdge_no_terminal (tid m σ t : Nat)
    (holders : List (String × Nat)) (acc : List (String × Nat) × List Event)
    (e : String × String) :
    hasReceiptB tid (propagateEdge m σ t holders acc e).2 =
      hasReceiptB tid acc.2 ∧
    hasMissB tid (propagateEdge m σ t holders acc e).2 =
      hasMissB tid acc.2 := by
  unfold propagateEdge
  split
  · exact ⟨rfl, rfl⟩
  · have step2 : ∀ (acc1 : List (String × Nat) × List Event),
        hasReceiptB tid (match holders.lookup e.2 with
         | some hb =>
           if hb < m then
             (alSetdefault e.1 (hb + 1) acc1.1,
              acc1.2 ++ [Event.taskForwarded σ t e.2 e.1])
           else acc1
         | none => acc1).2 = hasReceiptB tid acc1.2 ∧
        hasMissB tid (match holders.lookup e.2 with
         | some hb =>
           if hb < m then
             (alSetdefault e.1 (hb + 1) acc1.1,
              acc1.2 ++ [Event.taskForwarded σ t e.2 e.1])
           else acc1
         | none => acc1).2 = hasMissB tid acc1.2 := by
      intro acc1
      cases holders.lookup e.2 with
      | none => exact ⟨rfl, rfl⟩
      | some hb =>
        by_cases hb' : hb < m
        · simp only [hb', if_true]
          constructor
          · rw [hasReceiptB_append]
            simp [hasReceiptB]
          · rw [hasMissB_append]
            simp [hasMissB]
        · simp [hb']
    have step1 : hasReceiptB tid (match holders.lookup e.1 with
         | some ha =>
           if ha < m then
             (alSetdefault e.2 (ha + 1) acc.1,
              acc.2 ++ [Event.taskForwarded σ t e.1 e.2])
           else acc
         | none => acc).2 = hasReceiptB tid acc.2 ∧
        hasMissB tid (match holders.lookup e.1 with
         | some ha =>
           if ha < m then
             (alSetdefault e.2 (ha + 1) acc.1,
              acc.2 ++ [Event.taskForwarded σ t e.1 e.2])
           else acc
         | none => acc).2 = hasMissB tid acc.2 := by
      cases holders.lookup e.1 with
      | none => exact ⟨rfl, rfl⟩
      | some ha =>
        by_cases ha' : ha < m
        · simp only [ha', if_true]
          constructor
          · rw [hasReceiptB_append]
            simp [hasReceiptB]
          · rw [hasMissB_append]
            simp [hasMissB]
        · simp [ha']
    obtain ⟨hr2, hm2⟩ := step2 _
    obtain ⟨hr1, hm1⟩ := step1
    exact ⟨hr2.trans hr1, hm2.trans hm1⟩

theorem propagate_fold_no_terminal (tid m σ t : Nat)
    (holders : List (String × Nat)) :
    ∀ (edges : List (String × String))
      (acc : List (String × Nat) × List Event),
      hasReceiptB tid
        (edges.foldl (propagateEdge m σ t holders) acc).2 =
        hasReceiptB tid acc.2 ∧
      hasMissB tid (edges.foldl (propagateEdge m σ t holders) acc).2 =
        hasMissB tid acc.2 := by
  intro edges
  induction edges with
  | nil => intro acc; exact ⟨rfl, rfl⟩
  | cons e rest ih =>
    intro acc
    rw [List.foldl_cons]
    obtain ⟨hr1, hm1⟩ := propagateEdge_no_terminal tid m σ t holders acc e
    obtain ⟨hr2, hm2⟩ := ih (propagateEdge m σ t holders acc e)
    exact ⟨hr2.trans hr1, hm2.trans hm1⟩

theorem propagateEdges_no_terminal (tid m σ t : Nat)
    (edges : List (String × String)) (holders : List (String × Nat)) :
    hasReceiptB tid (propagateEdges m σ t edges holders).2 = false ∧
    hasMissB tid (propagateEdges m σ t edges holders).2 = false :=
  propagate_fold_no_terminal tid m σ t holders edges (holders, [])

theorem propagateOne_midInv (P : MParams) (edges : List (String × String))
    (st : MState) (kv : Nat × List (String × Nat)) (hm : MidInv P st) :
    MidInv P (propagateOne P edges st kv) := by
  unfold propagateOne
  refine ⟨hm.nodup, hm.pend, hm.toks, ?_, ?_, ?_⟩
  · intro tid hr
    rw [hasReceiptB_append,
      (propagateEdges_no_terminal tid P.maxHops st.step kv.1 edges kv.2).1,
      Bool.or_false] at hr
    exact hm.rcpt tid hr
  · intro tid hms
    rw [hasMissB_append,
      (propagateEdges_no_terminal tid P.maxHops st.step kv.1 edges kv.2).2,
      Bool.or_false] at hms
    exact hm.dmiss tid hms
  · intro tid hc
    obtain ⟨hr, hms⟩ := hc
    rw [hasReceiptB_append,
      (propagateEdges_no_terminal tid P.maxHops st.step kv.1 edges kv.2).1,
      Bool.or_false] at hr
    rw [hasMissB_append,
      (propagateEdges_no_terminal tid P.maxHops st.step kv.1 edges kv.2).2,
      Bool.or_false] at hms
    exact hm.excl tid ⟨hr, hms⟩

theorem propagate_fold_midInv (P : MParams) (edges : List (String × String)) :
    ∀ (l : List (Nat × List (String × Nat))) (st : MState), MidInv P st →
      MidInv P (l.foldl (propagateOne P edges) st) := by
  intro l
  induction l with
  | nil => intro st hm; exact hm
  | cons kv rest ih =>
    intro st hm
    rw [List.foldl_cons]
    exact ih _ (propagateOne_midInv P edges st kv hm)

theorem islPropagate_midInv (P : MParams) (edges : List (String × String))
    (s : MState) (hm : MidInv P s) : MidInv P (islPropagate P edges s) :=
  propagate_fold_midInv P edges s.inFlight s hm

theorem validateHolders_midInv (P : MParams)
    (satPos : String → Option (ℚ × ℚ)) (tid : Nat) (tok : SemPayload)
    (htok : tok = issueSem (taskAt P tid) P.maxHops P.radius) :
    ∀ (holders : List (String × Nat)) (st : MState), MidInv P st →
      MidInv P (validateHolders P satPos tid (taskAt P tid) tok holders st) := by
  intro holders
  induction holders with
  | nil => intro st hm; exact hm
  | cons kv rest ih =>
    intro st hm
    cases hpos : satPos kv.1 with
    | none => simpa [validateHolders, hpos] using ih st hm
    | some pos =>
      have hm1 : MidInv P { st with events := st.events ++
          [Event.tokenValidated st.step tid kv.1
            (combinedVerdict (validateSem tok (taskAt P tid) kv.2 st.step)
              (withinRadius (taskAt P tid).target pos P.radius)).1
            (combinedVerdict (validateSem tok (taskAt P tid) kv.2 st.step)
              (withinRadius (taskAt P tid).target pos P.radius)).2] } := by
        refine ⟨hm.nodup, hm.pend, hm.toks, ?_, ?_, ?_⟩
        · intro tid' hr
          rw [hasReceiptB_append, hasReceiptB_validatedEv, Bool.or_false] at hr
          exact hm.rcpt tid' hr
        · intro tid' hms
          rw [hasMissB_append, hasMissB_validatedEv, Bool.or_false] at hms
          exact hm.dmiss tid' hms
        · intro tid' hc
          obtain ⟨hr, hms⟩ := hc
          rw [hasReceiptB_append, hasReceiptB_validatedEv, Bool.or_false] at hr
          rw [hasMissB_append, hasMissB_validatedEv, Bool.or_false] at hms
          exact hm.excl tid' ⟨hr, hms⟩
      by_cases hv : (combinedVerdict (validateSem tok (taskAt P tid) kv.2 st.step)
          (withinRadius (taskAt P tid).target pos P.radius)).1 = true
      · have hok := combinedVerdict_fst _ _ hv
        have hwin := validateSem_ok_window tok (taskAt P tid) kv.2 st.step hok
        rw [htok] at hwin
        have hlo : tid ≤ st.step := hwin.1
        have hhi : st.step ≤ tid + P.ttlSteps := hwin.2
        have hgoal : MidInv P { st with
            pending := alErase tid st.pending
            inFlight := alErase tid st.inFlight
            accepted := alInsert tid st.step st.accepted
            events := st.events ++
              [Event.tokenValidated st.step tid kv.1
                (combinedVerdict (validateSem tok (taskAt P tid) kv.2 st.step)
                  (withinRadius (taskAt P tid).target pos P.radius)).1
                (combinedVerdict (validateSem tok (taskAt P tid) kv.2 st.step)
                  (withinRadius (taskAt P tid).target pos P.radius)).2] ++
              [Event.taskReceived st.step tid kv.1,
               Event.taskAccepted st.step tid kv.1,
               Event.taskCompleted st.step tid kv.1,
               Event.receiptEmitted st.step tid kv.1] } := by
          refine ⟨?_, ?_, ?_, ?_, ?_, ?_⟩
          · exact alErase_keys_nodup _ _ hm.nodup
          · intro tid' tsk hlk
            exact hm.pend tid' tsk (alErase_lookup_some _ _ _ _ hlk)
          · exact hm.toks
          · intro tid' hr
            rw [hasReceiptB_append, hasReceiptB_append,
              hasReceiptB_validatedEv, Bool.or_false, hasReceiptB_okEvs] at hr
            rcases Bool.or_eq_true_iff.mp hr with h | h
            · obtain ⟨hp, hs⟩ := hm.rcpt tid' h
              exact ⟨alErase_lookup_none _ _ _ hp, hs⟩
            · have he : tid = tid' := eq_of_beq h
              subst he
              exact ⟨alErase_lookup_self _ _, hlo⟩
          · intro tid' hms
            rw [hasMissB_append, hasMissB_append, hasMissB_validatedEv,
              Bool.or_false, hasMissB_okEvs, Bool.or_false] at hms
            obtain ⟨hp, hs⟩ := hm.dmiss tid' hms
            exact ⟨alErase_lookup_none _ _ _ hp, hs⟩
          · intro tid' hc
            obtain ⟨hr, hms⟩ := hc
            rw [hasReceiptB_append, hasReceiptB_append,
              hasReceiptB_validatedEv, Bool.or_false, hasReceiptB_okEvs] at hr
            rw [hasMissB_append, hasMissB_append, hasMissB_validatedEv,
              Bool.or_false, hasMissB_okEvs, Bool.or_false] at hms
            rcases Bool.or_eq_true_iff.mp hr with h | h
            · exact hm.excl tid' ⟨h, hms⟩
            · have he : tid = tid' := eq_of_beq h
              subst he
              obtain ⟨_, hb⟩ := hm.dmiss tid hms
              omega
        simpa [validateHolders, hpos, hv] using hgoal
      · have hrec := ih { st with events := st.events ++
          [Event.tokenValidated st.step tid kv.1
            (combinedVerdict (validateSem tok (taskAt P tid) kv.2 st.step)
              (withinRadius (taskAt P tid).target pos P.radius)).1
            (combinedVerdict (validateSem tok (taskAt P tid) kv.2 st.step)
              (withinRadius (taskAt P tid).target pos P.radius)).2] } hm1
        simpa [validateHolders, hpos, hv] using hrec

theorem validateOne_midInv (P : MParams)
    (satPos : String → Option (ℚ × ℚ)) (st : MState)
    (kv : Nat × List (String × Nat)) (hm : MidInv P st) :
    MidInv P (validateOne P satPos st kv) := by
  unfold validateOne
  cases hlt : st.tokens.lookup kv.1 with
  | none => exact hm
  | some tok =>
    exact validateHolders_midInv P satPos kv.1 tok (hm.toks kv.1 tok hlt)
      kv.2 st hm

theorem validate_fold_midInv (P : MParams)
    (satPos : String → Option (ℚ × ℚ)) :
    ∀ (l : List (Nat × List (String × Nat))) (st : MState), MidInv P st →
      MidInv P (l.foldl (validateOne P satPos) st) := by
  intro l
  induction l with
  | nil => intro st hm; exact hm
  | cons kv rest ih =>
    intro st hm
    rw [List.foldl_cons]
    exact ih _ (validateOne_midInv P satPos st kv hm)

theorem islValidate_midInv (P : MParams)
    (satPos : String → Option (ℚ × ℚ)) (s : MState) (hm : MidInv P s) :
    MidInv P (islValidate P satPos s) :=
  validate_fold_midInv P satPos s.inFlight s hm

theorem sweep_midInv (P : MParams) (s : MState) (hm : MidInv P s) :
    MidInv P (sweep s) := by
  unfold sweep
  refine ⟨?_, ?_, ?_, ?_, ?_, ?_⟩
  · exact filter_keys_nodup _ _ hm.nodup
  · intro tid tsk hlk
    exact hm.pend tid tsk (filter_lookup_some _ _ _ _ hm.nodup hlk)
  · exact hm.toks
  · intro tid hr
    rw [hasReceiptB_append, hasReceiptB_miss_map, Bool.or_false] at hr
    obtain ⟨hp, hs⟩ := hm.rcpt tid hr
    exact ⟨filter_lookup_none _ _ _ hp, hs⟩
  · intro tid hms
    rw [hasMissB_append, hasMissB_miss_map] at hms
    rcases Bool.or_eq_true_iff.mp hms with h | h
    · obtain ⟨hp, hs⟩ := hm.dmiss tid h
      exact ⟨filter_lookup_none _ _ _ hp, hs⟩
    · obtain ⟨kv, hkvmem, hkvtid⟩ := List.any_eq_true.mp h
      have htid : kv.1 = tid := eq_of_beq hkvtid
      have hmem0 : kv ∈ s.pending := (List.mem_filter.mp hkvmem).1
      have hdl : kv.2.deadline_step < s.step :=
        of_decide_eq_true (List.mem_filter.mp hkvmem).2
      have hlk : s.pending.lookup kv.1 = some kv.2 :=
        alLookup_of_mem_nodup hm.nodup hmem0
      obtain ⟨htk, hle⟩ := hm.pend kv.1 kv.2 hlk
      constructor
      · rw [← htid]
        refine filter_lookup_none_of_mem _ _ kv hm.nodup hmem0 ?_
        simp [hdl]
      · rw [← htid]
        rw [htk] at hdl
        exact hdl
  · intro tid hc
    obtain ⟨hr, hms⟩ := hc
    rw [hasReceiptB_append, hasReceiptB_miss_map, Bool.or_false] at hr
    rw [hasMissB_append, hasMissB_miss_map] at hms
    rcases Bool.or_eq_true_iff.mp hms with h | h
    · exact hm.excl tid ⟨hr, h⟩
    · obtain ⟨kv, hkvmem, hkvtid⟩ := List.any_eq_true.mp h
      have htid : kv.1 = tid := eq_of_beq hkvtid
      have hmem0 : kv ∈ s.pending := (List.mem_filter.mp hkvmem).1
      have hlk : s.pending.lookup kv.1 = some kv.2 :=
        alLookup_of_mem_nodup hm.nodup hmem0
      obtain ⟨hp, _⟩ := hm.rcpt tid hr
      rw [htid, hp] at hlk
      exact absurd hlk (by simp)

theorem midInv_succ (P : MParams) (s : MState) (hm : MidInv P s) :
    ModeInv P { s with step := s.step + 1 } := by
  refine ⟨⟨hm.nodup, ?_, hm.toks, ?_, ?_, hm.excl⟩, ?_⟩
  · intro tid tsk h
    obtain ⟨h1, h2⟩ := hm.pend tid tsk h
    exact ⟨h1, Nat.le_succ_of_le h2⟩
  · intro tid h
    obtain ⟨h1, h2⟩ := hm.rcpt tid h
    exact ⟨h1, Nat.le_succ_of_le h2⟩
  · intro tid h
    obtain ⟨h1, h2⟩ := hm.dmiss tid h
    exact ⟨h1, Nat.lt_succ_of_lt h2⟩
  · intro tid h
    exact Nat.lt_succ_of_le (hm.rcpt tid h).2

theorem stepFn_modeInv (P : MParams) (s : MState) (hw : ModeInv P s) :
    ModeInv P (stepFn P s) := by
  simp only [stepFn]
  repeat' split
  all_goals
    first
    | exact midInv_succ P _ (sweep_midInv P _ (creation_midInv_ground P s hw))
    | exact midInv_succ P _ (sweep_midInv P _
        (groundPhase_midInv P _ _ _ (creation_midInv_ground P s hw)))
    | exact midInv_succ P _ (sweep_midInv P _
        (islValidate_midInv P _ _ (islPropagate_midInv P _ _
          (islDispatch_midInv P _ _ (creation_midInv_isl P s hw)))))
    | exact midInv_succ P _ (sweep_midInv P _
        (islValidate_midInv P _ _ (islPropagate_midInv P _ _
          (creation_midInv_isl P s hw))))
    | simp_all

theorem events_grow_trans {a b c : MState}
    (h1 : ∃ t, b.events = a.events ++ t)
    (h2 : ∃ t, c.events = b.events ++ t) :
    ∃ t, c.events = a.events ++ t := by
  obtain ⟨t1, ht1⟩ := h1
  obtain ⟨t2, ht2⟩ := h2
  exact ⟨t1 ++ t2, by rw [ht2, ht1, List.append_assoc]⟩

theorem groundPhase_events (P : MParams) (contacts : List (String × String))
    (satPos : String → Option (ℚ × ℚ)) (s : MState) :
    ∃ t, (groundPhase P contacts satPos s).events = s.events ++ t := by
  unfold groundPhase
  cases contacts with
  | nil => exact ⟨[], by simp⟩
  | cons e rest =>
    cases hmin : minKeyPair s.pending with
    | none => exact ⟨[], by simp⟩
    | some kv =>
      obtain ⟨tid0, tsk0⟩ := kv
      dsimp only
      split
      · exact ⟨_, List.append_assoc _ _ _⟩
      · exact ⟨_, rfl⟩

theorem dispatchOne_events (sat : String) (st : MState) (kv : Nat × Task) :
    ∃ t, (dispatchOne sat st kv).events = st.events ++ t := by
  unfold dispatchOne
  split
  · exact ⟨[], by simp⟩
  · exact ⟨_, rfl⟩

theorem dispatch_fold_events (sat : String) :
    ∀ (l : List (Nat × Task)) (st : MState),
      ∃ t, (l.foldl (dispatchOne sat) st).events = st.events ++ t := by
  intro l
  induction l with
  | nil => intro st; exact ⟨[], by simp⟩
  | cons kv rest ih =>
    intro st
    rw [List.foldl_cons]
    exact events_grow_trans (dispatchOne_events sat st kv) (ih _)

theorem islDispatch_events (sat : String) (s : MState) :
    ∃ t, (islDispatch sat s).events = s.events ++ t :=
  dispatch_fold_events sat s.pending s

theorem propagateOne_events (P : MParams) (edges : List (String × String))
    (st : MState) (kv : Nat × List (String × Nat)) :
    ∃ t, (propagateOne P edges st kv).events = st.events ++ t :=
  ⟨_, rfl⟩

theorem propagate_fold_events (P : MParams) (edges : List (String × String)) :
    ∀ (l : List (Nat × List (String × Nat))) (st : MState),
      ∃ t, (l.foldl (propagateOne P edges) st).events = st.events ++ t := by
  intro l
  induction l with
  | nil => intro st; exact ⟨[], by simp⟩
  | cons kv rest ih =>
    intro st
    rw [List.foldl_cons]
    exact events_grow_trans (propagateOne_events P edges st kv) (ih _)

theorem islPropagate_events (P : MParams) (edges : List (String × String))
    (s : MState) : ∃ t, (islPropagate P edges s).events = s.events ++ t :=
  propagate_fold_events P edges s.inFlight s

theorem validateHolders_events (P : MParams)
    (satPos : String → Option (ℚ × ℚ)) (tid : Nat) (tsk : Task)
    (tok : SemPayload) :
    ∀ (holders : List (String × Nat)) (st : MState),
      ∃ t, (validateHolders P satPos tid tsk tok holders st).events =
        st.events ++ t := by
  intro holders
  induction holders with
  | nil => intro st; exact ⟨[], by simp [validateHolders]⟩
  | cons kv rest ih =>
    intro st
    cases hpos : satPos kv.1 with
    | none => simpa [validateHolders, hpos] using ih st
    | some pos =>
      by_cases hv : (combinedVerdict (validateSem tok tsk kv.2 st.step)
          (withinRadius tsk.target pos P.radius)).1 = true
      · have hg : ∃ t, ({ st with
            pending := alErase tid st.pending
            inFlight := alErase tid st.inFlight
            accepted := alInsert tid st.step st.accepted
            events := st.events ++
              [Event.tokenValidated st.step tid kv.1
                (combinedVerdict (validateSem tok tsk kv.2 st.step)
                  (withinRadius tsk.target pos P.radius)).1
                (combinedVerdict (validateSem tok tsk kv.2 st.step)
                  (withinRadius tsk.target pos P.radius)).2] ++
              [Event.taskReceived st.step tid kv.1,
               Event.taskAccepted st.step tid kv.1,
               Event.taskCompleted st.step tid kv.1,
               Event.receiptEmitted st.step tid kv.1] } : MState).events =
            st.events ++ t := ⟨_, List.append_assoc _ _ _⟩
        simpa [validateHolders, hpos, hv] using hg
      · have hrec := ih { st with events := st.events ++
          [Event.tokenValidated st.step tid kv.1
            (combinedVerdict (validateSem tok tsk kv.2 st.step)
              (withinRadius tsk.target pos P.radius)).1
            (combinedVerdict (validateSem tok tsk kv.2 st.step)
              (withinRadius tsk.target pos P.radius)).2] }
        have hcomp := events_grow_trans (⟨_, rfl⟩ : ∃ t, ({ st with
            events := st.events ++
              [Event.tokenValidated st.step tid kv.1
                (combinedVerdict (validateSem tok tsk kv.2 st.step)
                  (withinRadius tsk.target pos P.radius)).1
                (combinedVerdict (validateSem tok tsk kv.2 st.step)
                  (withinRadius tsk.target pos P.radius)).2] } : MState).events =
            st.events ++ t) hrec
        simpa [validateHolders, hpos, hv] using hcomp

theorem validateOne_events (P : MParams)
    (satPos : String → Option (ℚ × ℚ)) (st : MState)
    (kv : Nat × List (String × Nat)) :
    ∃ t, (validateOne P satPos st kv).events = st.events ++ t := by
  unfold validateOne
  cases st.tokens.lookup kv.1 with
  | none => exact ⟨[], by simp⟩
  | some tok =>
    exact validateHolders_events P satPos kv.1 (taskAt P kv.1) tok kv.2 st

theorem validate_fold_events (P : MParams)
    (satPos : String → Option (ℚ × ℚ)) :
    ∀ (l : List (Nat × List (String × Nat))) (st : MState),
      ∃ t, (l.foldl (validateOne P satPos) st).events = st.events ++ t := by
  intro l
  induction l with
  | nil => intro st; exact ⟨[], by simp⟩
  | cons kv rest ih =>
    intro st
    rw [List.foldl_cons]
    exact events_grow_trans (validateOne_events P satPos st kv) (ih _)

theorem islValidate_events (P : MParams)
    (satPos : String → Option (ℚ × ℚ)) (s : MState) :
    ∃ t, (islValidate P satPos s).events = s.events ++ t :=
  validate_fold_events P satPos s.inFlight s

theorem sweep_events (s : MState) :
    ∃ t, (sweep s).events = s.events ++ t :=
  ⟨_, rfl⟩

theorem stepFn_events_grow (P : MParams) (s : MState) :
    ∃ t, (stepFn P s).events = s.events ++ t := by
  simp only [stepFn]
  repeat' split
  all_goals
    first
    | exact events_grow_trans (⟨_, rfl⟩) (sweep_events _)
    | exact events_grow_trans (⟨_, List.append_assoc _ _ _⟩) (sweep_events _)
    | exact events_grow_trans (events_grow_trans (⟨_, rfl⟩)
        (groundPhase_events _ _ _ _)) (sweep_events _)
    | exact events_grow_trans (events_grow_trans (events_grow_trans
        (events_grow_trans (⟨_, List.append_assoc _ _ _⟩)
          (islDispatch_events _ _)) (islPropagate_events _ _ _))
        (islValidate_events _ _ _)) (sweep_events _)
    | exact events_grow_trans (events_grow_trans (events_grow_trans
        (⟨_, List.append_assoc _ _ _⟩) (islPropagate_events _ _ _))
        (islValidate_events _ _ _)) (sweep_events _)
    | simp_all

theorem runModeState_modeInv (P : MParams) :
    ∀ n, ModeInv P (runModeState P n)
  | 0 => by
    show ModeInv P initMState
    refine ⟨⟨?_, ?_, ?_, ?_, ?_, ?_⟩, ?_⟩
    · exact List.nodup_nil
    · intro tid tsk h
      exact absurd h (by simp [initMState])
    · intro tid tok h
      exact absurd h (by simp [initMState])
    · intro tid h
      exact absurd h (by simp [hasReceiptB, initMState])
    · intro tid h
      exact absurd h (by simp [hasMissB, initMState])
    · intro tid hc
      exact absurd hc.1 (by simp [hasReceiptB, initMState])
    · intro tid h
      exact absurd h (by simp [hasReceiptB, initMState])
  | n + 1 => stepFn_modeInv P _ (runModeState_modeInv P n)

theorem runModeState_events_grow (P : MParams) (n : Nat) :
    ∀ m, n ≤ m →
      ∃ t, (runModeState P m).events = (runModeState P n).events ++ t := by
  intro m
  induction m with
  | zero =>
    intro hm
    have h0 : n = 0 := Nat.le_zero.mp hm
    subst h0
    exact ⟨[], by simp⟩
  | succ k ih =>
    intro hm
    rcases Nat.lt_or_ge n (k + 1) with h | h
    · exact events_grow_trans (ih (Nat.lt_succ_iff.mp h))
        (stepFn_events_grow P _)
    · have he : n = k + 1 := Nat.le_antisymm hm h
      subst he
      exact ⟨[], by simp⟩

theorem hasReceiptB_runMode_mono (P : MParams) (tid n m : Nat) (h : n ≤ m)
    (hr : hasReceiptB tid (runModeState P n).events = true) :
    hasReceiptB tid (runModeState P m).events = true := by
  obtain ⟨t, ht⟩ := runModeState_events_grow P n m h
  rw [ht, hasReceiptB_append, hr, Bool.true_or]

theorem hasMissB_runMode_mono (P : MParams) (tid n m : Nat) (h : n ≤ m)
    (hr : hasMissB tid (runModeState P n).events = true) :
    hasMissB tid (runModeState P m).events = true := by
  obtain ⟨t, ht⟩ := runModeState_events_grow P n m h
  rw [ht, hasMissB_append, hr, Bool.true_or]

/-- C6: in every `run_mode` run the terminal states are mutually exclusive —
no task id ever has both a `receipt_emitted` and a `deadline_miss` record in
the event log — and terminal: once a task has either terminal event, it is
absent from `pending` at every later step (it never re-enters `pending`). -/
theorem terminal_states_exclusive (P : MParams) (n : Nat) (tid : Nat) :
    ¬(hasReceiptB tid (runModeState P n).events = true ∧
      hasMissB tid (runModeState P n).events = true) ∧
    (∀ m, n ≤ m →
      (hasReceiptB tid (runModeState P n).events = true ∨
        hasMissB tid (runModeState P n).events = true) →
      (runModeState P m).pending.lookup tid = none) := by
  constructor
  · exact (runModeState_modeInv P n).mid.excl tid
  · intro m hnm hterm
    rcases hterm with h | h
    · exact ((runModeState_modeInv P m).mid.rcpt tid
        (hasReceiptB_runMode_mono P tid n m hnm h)).1
    · exact ((runModeState_modeInv P m).mid.dmiss tid
        (hasMissB_runMode_mono P tid n m hnm h)).1

set_option maxRecDepth 100000 in
/-- Witness for C6 at the ground-mode run `Pc6`: task 0 completes at step 0
(a receipt is in the log after one step), no deadline miss coexists with it,
and the task is absent from `pending` afterwards. -/
theorem terminal_states_exclusive_witness :
    ¬(hasReceiptB 0 (runModeState Pc6 1).events = true ∧
      hasMissB 0 (runModeState Pc6 1).events = true) ∧
    (runModeState Pc6 1).pending.lookup 0 = none :=
  ⟨(terminal_states_exclusive Pc6 1 0).1,
   (terminal_states_exclusive Pc6 1 0).2 1 (Nat.le_refl 1)
     (Or.inl (by decide))⟩

theorem xor_one_ne (v : Nat) : v ^^^ 1 ≠ v := by
  intro h
  have h2 : (v ^^^ 1) ^^^ v = v ^^^ v := congrArg (· ^^^ v) h
  rw [Nat.xor_comm v 1, Nat.xor_assoc, Nat.xor_self, Nat.xor_zero] at h2
  exact absurd h2 (by decide)

theorem getD_set_self (l : List Nat) (i w : Nat) (h : i < l.length) :
    (l.set i w).getD i 0 = w := by
  rw [List.getD_eq_getElem?_getD, List.getElem?_set_self, Option.getD_some]
  exact h

theorem drawIdx_lt (r : ℚ) (n : Nat) (hn : 0 < n) : drawIdx r n < n := by
  unfold drawIdx
  have h1 : min (Int.toNat ((r.num * n).fdiv (r.den : Int))) (n - 1) ≤ n - 1 :=
    Nat.min_le_right _ _
  omega

theorem tamperFlip_ne (l : List Nat) (hl : l ≠ []) (r : ℚ) :
    (l == tamperFlip l (drawIdx r l.length)) = false := by
  have hn : 0 < l.length := List.length_pos.mpr hl
  have hidx : drawIdx r l.length < l.length := drawIdx_lt r l.length hn
  rw [beq_eq_false_iff_ne]
  intro he
  have hgd : l.getD (drawIdx r l.length) 0 =
      (tamperFlip l (drawIdx r l.length)).getD (drawIdx r l.length) 0 := by
    rw [← he]
  unfold tamperFlip at hgd
  rw [getD_set_self l _ _ hidx] at hgd
  exact absurd hgd.symm (xor_one_ne _)

theorem tampering_snd_eq (A : ℚ) (draws : Nat → ℚ) (p2 : Nat)
    (re₁ re₂ : List Nat) (hne₁ : re₁ ≠ []) (hne₂ : re₂ ≠ []) :
    (if 0 < A then
        if draws p2 < A then
          if re₁ = [] then (re₁, true, p2 + 1)
          else (tamperFlip re₁ (drawIdx (draws (p2 + 1)) re₁.length),
            true, p2 + 2)
        else (re₁, false, p2 + 1)
      else (re₁, false, p2)).2 =
    (if 0 < A then
        if draws p2 < A then
          if re₂ = [] then (re₂, true, p2 + 1)
          else (tamperFlip re₂ (drawIdx (draws (p2 + 1)) re₂.length),
            true, p2 + 2)
        else (re₂, false, p2 + 1)
      else (re₂, false, p2)).2 := by
  by_cases ha : 0 < A
  · by_cases hd : draws p2 < A
    · rw [if_pos ha, if_pos ha, if_pos hd, if_pos hd, if_neg hne₁,
        if_neg hne₂]
    · rw [if_pos ha, if_pos ha, if_neg hd, if_neg hd]
  · rw [if_neg ha, if_neg ha]

theorem tampering_ok_eq (A : ℚ) (draws : Nat → ℚ) (p2 : Nat)
    (re₁ re₂ : List Nat) (hne₁ : re₁ ≠ []) (hne₂ : re₂ ≠ []) :
    (re₁ == (if 0 < A then
        if draws p2 < A then
          if re₁ = [] then (re₁, true, p2 + 1)
          else (tamperFlip re₁ (drawIdx (draws (p2 + 1)) re₁.length),
            true, p2 + 2)
        else (re₁, false, p2 + 1)
      else (re₁, false, p2)).1) =
    (re₂ == (if 0 < A then
        if draws p2 < A then
          if re₂ = [] then (re₂, true, p2 + 1)
          else (tamperFlip re₂ (drawIdx (draws (p2 + 1)) re₂.length),
            true, p2 + 2)
        else (re₂, false, p2 + 1)
      else (re₂, false, p2)).1) := by
  by_cases ha : 0 < A
  · by_cases hd : draws p2 < A
    · rw [if_pos ha, if_pos ha, if_pos hd, if_pos hd, if_neg hne₁,
        if_neg hne₂]
      rw [show ((tamperFlip re₁ (drawIdx (draws (p2 + 1)) re₁.length),
          true, p2 + 2) : List Nat × Bool × Nat).1 =
        tamperFlip re₁ (drawIdx (draws (p2 + 1)) re₁.length) from rfl]
      rw [show ((tamperFlip re₂ (drawIdx (draws (p2 + 1)) re₂.length),
          true, p2 + 2) : List Nat × Bool × Nat).1 =
        tamperFlip re₂ (drawIdx (draws (p2 + 1)) re₂.length) from rfl]
      rw [tamperFlip_ne re₁ hne₁, tamperFlip_ne re₂ hne₂]
    · rw [if_pos ha, if_pos ha, if_neg hd, if_neg hd]
      simp
  · rw [if_neg ha, if_neg ha]
    simp

theorem stubInject_rel (cfg : StubCfg) (s₁ s₂ : StubState) (p₁ p₂ : Pkt)
    (hs : RelS s₁ s₂) (hp : RelP p₁ p₂) :
    RelS (stubInject cfg s₁ p₁) (stubInject cfg s₂ p₂) := by
  obtain ⟨ht, hq⟩ := hs
  refine ⟨ht, ?_⟩
  refine List.rel_append hq ?_
  refine List.Forall₂.cons ⟨hp, ht, ?_⟩ List.Forall₂.nil
  rw [hp.2.2.2.2.2.1]

theorem processPacket_rel (cfg : StubCfg) (edgesNow : List (String × String))
    (t : Nat) (draws : Nat → ℚ) (q₁ q₂ : Queued) (pos : Nat)
    (hq : RelQd q₁ q₂) :
    List.Forall₂ RelQd (processPacket cfg edgesNow t draws q₁ pos).1.toList
      (processPacket cfg edgesNow t draws q₂ pos).1.toList ∧
    List.Forall₂ RelQE (processPacket cfg edgesNow t draws q₁ pos).2.1
      (processPacket cfg edgesNow t draws q₂ pos).2.1 ∧
    (processPacket cfg edgesNow t draws q₁ pos).2.2 =
      (processPacket cfg edgesNow t draws q₂ pos).2.2 := by
  have hti : q₁.tInject = q₂.tInject := hq.2.1
  have httl : q₁.ttl = q₂.ttl := hq.2.2
  have hsrc : q₁.pkt.src = q₂.pkt.src := hq.1.2.1
  have hdst : q₁.pkt.dst = q₂.pkt.dst := hq.1.2.2.1
  unfold processPacket
  rw [← hti, ← httl, ← hsrc, ← hdst]
  split_ifs with h1 h2 h3 h4
  · exact ⟨List.Forall₂.nil,
      List.Forall₂.cons ⟨hq.1, rfl⟩ List.Forall₂.nil, rfl⟩
  · exact ⟨List.Forall₂.nil,
      List.Forall₂.cons ⟨hq.1, rfl⟩ List.Forall₂.nil, rfl⟩
  · exact ⟨List.Forall₂.nil,
      List.Forall₂.cons ⟨hq.1, rfl⟩ List.Forall₂.nil, rfl⟩
  · exact ⟨List.Forall₂.nil,
      List.Forall₂.cons hq.1 List.Forall₂.nil, rfl⟩
  · exact ⟨List.Forall₂.cons hq List.Forall₂.nil, List.Forall₂.nil, rfl⟩

theorem processQueue_rel (cfg : StubCfg) (edgesNow : List (String × String))
    (t : Nat) (draws : Nat → ℚ) :
    ∀ (qs₁ qs₂ : List Queued), List.Forall₂ RelQd qs₁ qs₂ →
    ∀ (acc₁ acc₂ : List Queued × List QEvent × Nat),
      List.Forall₂ RelQd acc₁.1 acc₂.1 →
      List.Forall₂ RelQE acc₁.2.1 acc₂.2.1 → acc₁.2.2 = acc₂.2.2 →
      List.Forall₂ RelQd
        (qs₁.foldl (fun acc q =>
          (acc.1 ++ (processPacket cfg edgesNow t draws q acc.2.2).1.toList,
           acc.2.1 ++ (processPacket cfg edgesNow t draws q acc.2.2).2.1,
           (processPacket cfg edgesNow t draws q acc.2.2).2.2)) acc₁).1
        (qs₂.foldl (fun acc q =>
          (acc.1 ++ (processPacket cfg edgesNow t draws q acc.2.2).1.toList,
           acc.2.1 ++ (processPacket cfg edgesNow t draws q acc.2.2).2.1,
           (processPacket cfg edgesNow t draws q acc.2.2).2.2)) acc₂).1 ∧
      List.Forall₂ RelQE
        (qs₁.foldl (fun acc q =>
          (acc.1 ++ (processPacket cfg edgesNow t draws q acc.2.2).1.toList,
           acc.2.1 ++ (processPacket cfg edgesNow t draws q acc.2.2).2.1,
           (processPacket cfg edgesNow t draws q acc.2.2).2.2)) acc₁).2.1
        (qs₂.foldl (fun acc q =>
          (acc.1 ++ (processPacket cfg edgesNow t draws q acc.2.2).1.toList,
           acc.2.1 ++ (processPacket cfg edgesNow t draws q acc.2.2).2.1,
           (processPacket cfg edgesNow t draws q acc.2.2).2.2)) acc₂).2.1 ∧
      (qs₁.foldl (fun acc q =>
          (acc.1 ++ (processPacket cfg edgesNow t draws q acc.2.2).1.toList,
           acc.2.1 ++ (processPacket cfg edgesNow t draws q acc.2.2).2.1,
           (processPacket cfg edgesNow t draws q acc.2.2).2.2)) acc₁).2.2 =
      (qs₂.foldl (fun acc q =>
          (acc.1 ++ (processPacket cfg edgesNow t draws q acc.2.2).1.toList,
           acc.2.1 ++ (processPacket cfg edgesNow t draws q acc.2.2).2.1,
           (processPacket cfg edgesNow t draws q acc.2.2).2.2)) acc₂).2.2 := by
  intro qs₁ qs₂ hqs
  induction hqs with
  | nil => intro acc₁ acc₂ h1 h2 h3; exact ⟨h1, h2, h3⟩
  | cons hq hrest ih =>
    intro acc₁ acc₂ h1 h2 h3
    rw [List.foldl_cons, List.foldl_cons]
    rename_i q₁ q₂ qs₁' qs₂'
    obtain ⟨hpk1, hpk2, hpk3⟩ :=
      processPacket_rel cfg edgesNow t draws q₁ q₂ acc₁.2.2 hq
    rw [h3] at hpk1 hpk2 hpk3
    refine ih _ _ ?_ ?_ ?_
    · exact List.rel_append h1 (by rw [← h3] at hpk1 ⊢; exact hpk1)
    · exact List.rel_append h2 (by rw [← h3] at hpk2 ⊢; exact hpk2)
    · rw [← h3] at hpk3 ⊢
      exact hpk3

theorem stubStepOne_rel (cfg : StubCfg) (draws : Nat → ℚ)
    (s₁ s₂ : StubState) (pos : Nat) (hs : RelS s₁ s₂) :
    RelS (stubStepOne cfg draws s₁ pos).1 (stubStepOne cfg draws s₂ pos).1 ∧
    List.Forall₂ RelQE (stubStepOne cfg draws s₁ pos).2.1
      (stubStepOne cfg draws s₂ pos).2.1 ∧
    (stubStepOne cfg draws s₁ pos).2.2 = (stubStepOne cfg draws s₂ pos).2.2 := by
  obtain ⟨ht, hq⟩ := hs
  unfold stubStepOne
  rw [← ht]
  obtain ⟨h1, h2, h3⟩ := processQueue_rel cfg (cfg.edges (s₁.t + 1))
    (s₁.t + 1) draws s₁.queue s₂.queue hq ([], [], pos) ([], [], pos)
    List.Forall₂.nil List.Forall₂.nil rfl
  exact ⟨⟨rfl, h1⟩, h2, h3⟩

theorem foldl_rel_forall₂ {α₁ α₂ β₁ β₂ : Type} (R : α₁ → α₂ → Prop)
    (S : β₁ → β₂ → Prop) (f₁ : α₁ → β₁ → α₁) (f₂ : α₂ → β₂ → α₂)
    (hstep : ∀ a₁ a₂ b₁ b₂, R a₁ a₂ → S b₁ b₂ → R (f₁ a₁ b₁) (f₂ a₂ b₂)) :
    ∀ {l₁ : List β₁} {l₂ : List β₂}, List.Forall₂ S l₁ l₂ →
      ∀ (a₁ : α₁) (a₂ : α₂), R a₁ a₂ →
        R (l₁.foldl f₁ a₁) (l₂.foldl f₂ a₂) := by
  intro l₁ l₂ hl
  induction hl with
  | nil => intro a₁ a₂ h; exact h
  | cons hb hrest ih =>
    intro a₁ a₂ h
    rw [List.foldl_cons, List.foldl_cons]
    exact ih _ _ (hstep _ _ _ _ h hb)

theorem foldl_rel_same {α₁ α₂ β : Type} (R : α₁ → α₂ → Prop)
    (f₁ : α₁ → β → α₁) (f₂ : α₂ → β → α₂)
    (hstep : ∀ a₁ a₂ b, R a₁ a₂ → R (f₁ a₁ b) (f₂ a₂ b)) :
    ∀ (l : List β) (a₁ : α₁) (a₂ : α₂), R a₁ a₂ →
      R (l.foldl f₁ a₁) (l.foldl f₂ a₂) := by
  intro l
  induction l with
  | nil => intro a₁ a₂ h; exact h
  | cons b rest ih =>
    intro a₁ a₂ h
    rw [List.foldl_cons, List.foldl_cons]
    exact ih _ _ (hstep _ _ _ h)

theorem iterApply_rel {α₁ α₂ : Type} (R : α₁ → α₂ → Prop)
    (f₁ : α₁ → α₁) (f₂ : α₂ → α₂)
    (hstep : ∀ a₁ a₂, R a₁ a₂ → R (f₁ a₁) (f₂ a₂)) :
    ∀ (n : Nat) (a₁ : α₁) (a₂ : α₂), R a₁ a₂ →
      R (iterApply f₁ n a₁) (iterApply f₂ n a₂) := by
  intro n
  induction n with
  | zero => intro a₁ a₂ h; exact h
  | succ k ih => intro a₁ a₂ h; exact ih _ _ (hstep _ _ h)

theorem onRx_rel (st₁ st₂ : TrialState StubState) (p₁ p₂ : Pkt)
    (hrel : RelT st₁ st₂) (hp : RelP p₁ p₂) :
    RelT (onRx st₁ p₁) (onRx st₂ p₂) := by
  obtain ⟨hsim, hrpos, hmet, hjit, hjdl, hjid⟩ := hrel
  have hok : (match p₂.expected with
      | some e => e == p₂.payload
      | none => false) = (match p₁.expected with
      | some e => e == p₁.payload
      | none => false) := hp.2.2.2.2.2.2.2.symm
  unfold onRx
  rw [hok, ← hp.2.2.2.2.1, ← hp.2.2.2.2.2.2.1, ← hp.2.2.2.1, ← hmet,
    ← hjit, ← hjdl]
  cases hoc : (match p₁.expected with
      | some e => e == p₁.payload
      | none => false) with
  | true =>
    cases p₁.jobId <;> cases p₁.tDeliver <;>
      exact ⟨hsim, hrpos, rfl, rfl, rfl, hjid⟩
  | false =>
    cases p₁.jobId <;> cases p₁.tDeliver <;>
      exact ⟨hsim, hrpos, rfl, rfl, rfl, hjid⟩

theorem handleQEvent_rel (groundN : List String) (now : Nat)
    (st₁ st₂ : TrialState StubState) (e₁ e₂ : QEvent)
    (hrel : RelT st₁ st₂) (he : RelQE e₁ e₂) :
    RelT (handleQEvent groundN now st₁ e₁) (handleQEvent groundN now st₂ e₂) := by
  obtain ⟨hsim, hrpos, hmet, hjit, hjdl, hjid⟩ := hrel
  cases e₁ with
  | delivered p₁ =>
    cases e₂ with
    | dropped p₂ r₂ => exact he.elim
    | delivered p₂ =>
      have hp : RelP p₁ p₂ := he
      have hp' : RelP { p₁ with tDeliver := some now }
          { p₂ with tDeliver := some now } :=
        ⟨hp.1, hp.2.1, hp.2.2.1, hp.2.2.2.1, hp.2.2.2.2.1, hp.2.2.2.2.2.1,
         rfl, hp.2.2.2.2.2.2.2⟩
      unfold handleQEvent
      dsimp only
      by_cases hg : groundN.contains p₁.dst
      · have hg₂ : groundN.contains p₂.dst = true := by
          rw [← hp.2.2.1]
          exact hg
        rw [if_pos hg, if_pos hg₂]
        refine onRx_rel _ _ _ _ ⟨hsim, hrpos, ?_, hjit, hjdl, hjid⟩ hp'
        rw [hmet]
      · have hg₂ : ¬ groundN.contains p₂.dst = true := by
          rw [← hp.2.2.1]
          exact hg
        rw [if_neg hg, if_neg hg₂]
        exact ⟨hsim, hrpos, by rw [hmet], hjit, hjdl, hjid⟩
  | dropped p₁ r₁ =>
    cases e₂ with
    | delivered p₂ => exact he.elim
    | dropped p₂ r₂ =>
      unfold handleQEvent
      exact ⟨hsim, hrpos, by rw [hmet], hjit, hjdl, hjid⟩

theorem trialSweep_rel (now : Nat) (st₁ st₂ : TrialState StubState)
    (hrel : RelT st₁ st₂) : RelT (trialSweep now st₁) (trialSweep now st₂) := by
  have hjdl := hrel.2.2.2.2.1
  unfold trialSweep
  rw [← hjdl]
  refine foldl_rel_same RelT _ _ ?_ _ st₁ st₂ hrel
  intro a₁ a₂ j ha
  obtain ⟨hs, hr, hm, hji, hjd, hjj⟩ := ha
  exact ⟨hs, hr, by rw [hm], by rw [hji], by rw [hjd], hjj⟩

theorem injectOne_rel (scfg : StubCfg) (satN groundN : List String)
    (cfg : TrialCfg) (r₁ r₂ : Nat → List Nat)
    (h₁ : ∀ j, r₁ j ≠ []) (h₂ : ∀ j, r₂ j ≠ [])
    (draws : Nat → ℚ) (st₁ st₂ : TrialState StubState)
    (hrel : RelT st₁ st₂) :
    RelT (injectOne (stubIface scfg satN groundN) cfg r₁ draws st₁)
      (injectOne (stubIface scfg satN groundN) cfg r₂ draws st₂) := by
  obtain ⟨hsim, hrpos, hmet, hjit, hjdl, hjid⟩ := hrel
  unfold injectOne
  dsimp only [stubIface]
  rw [← hrpos, ← hmet, ← hjit, ← hjdl, ← hjid]
  have hnow : st₂.sim.t = st₁.sim.t := hsim.1.symm
  rw [hnow]
  have hT := tampering_snd_eq cfg.attackP draws (st₁.rpos + 1 + 1)
    (r₁ st₁.jobId) (r₂ st₁.jobId) (h₁ _) (h₂ _)
  have hOk := tampering_ok_eq cfg.attackP draws (st₁.rpos + 1 + 1)
    (r₁ st₁.jobId) (r₂ st₁.jobId) (h₁ _) (h₂ _)
  refine ⟨?_, ?_, ?_, rfl, rfl, rfl⟩
  · refine stubInject_rel scfg _ _ _ _ hsim
      ⟨rfl, rfl, rfl, rfl, rfl, rfl, rfl, ?_⟩
    exact hOk
  · exact congrArg Prod.snd hT
  · have hflag := congrArg Prod.fst hT
    rw [hflag]

theorem trialStep_rel (scfg : StubCfg) (satN groundN : List String)
    (cfg : TrialCfg) (r₁ r₂ : Nat → List Nat)
    (h₁ : ∀ j, r₁ j ≠ []) (h₂ : ∀ j, r₂ j ≠ [])
    (draws : Nat → ℚ) (st₁ st₂ : TrialState StubState)
    (hrel : RelT st₁ st₂) :
    RelT (trialStep (stubIface scfg satN groundN) cfg r₁ draws st₁)
      (trialStep (stubIface scfg satN groundN) cfg r₂ draws st₂) := by
  have hst1 : RelT
      (iterApply (injectOne (stubIface scfg satN groundN) cfg r₁ draws)
        cfg.injectPerStep st₁)
      (iterApply (injectOne (stubIface scfg satN groundN) cfg r₂ draws)
        cfg.injectPerStep st₂) :=
    iterApply_rel RelT _ _
      (fun a₁ a₂ h =>
        injectOne_rel scfg satN groundN cfg r₁ r₂ h₁ h₂ draws a₁ a₂ h)
      cfg.injectPerStep st₁ st₂ hrel
  unfold trialStep
  set u₁ := iterApply (injectOne (stubIface scfg satN groundN) cfg r₁ draws)
    cfg.injectPerStep st₁ with hu₁
  set u₂ := iterApply (injectOne (stubIface scfg satN groundN) cfg r₂ draws)
    cfg.injectPerStep st₂ with hu₂
  dsimp only [stubIface]
  obtain ⟨hsim1, hrpos1, hmet1, hjit1, hjdl1, hjid1⟩ := hst1
  rw [← hrpos1]
  obtain ⟨hA, hB, hC⟩ := stubStepOne_rel scfg draws u₁.sim u₂.sim
    u₁.rpos hsim1
  rw [← hC, ← hA.1]
  refine trialSweep_rel _ _ _ ?_
  refine foldl_rel_forall₂ RelT RelQE _ _ ?_ hB _ _
    ⟨hA, rfl, hmet1, hjit1, hjdl1, hjid1⟩
  intro a₁ a₂ b₁ b₂ ha hb
  exact handleQEvent_rel groundN _ a₁ a₂ b₁ b₂ ha hb

/-- C1: runs with identical parameters and seed coincide — `run_mode` is a
pure function of its parameter record (which carries the seed-derived edge,
position and draw streams), and `run_trial` over the stub simulator is
determined by its parameters and draw stream alone: its outcome does not
depend on the receipt bytes produced by the external backend (the only
input not derived from parameters and seed), as long as receipts are
non-empty, matching the backend's non-empty receipt frames. -/
theorem run_determinism (P₁ P₂ : MParams) (hP : P₁ = P₂)
    (scfg : StubCfg) (satN groundN : List String) (cfg : TrialCfg)
    (draws : Nat → ℚ) (r₁ r₂ : Nat → List Nat)
    (h₁ : ∀ j, r₁ j ≠ []) (h₂ : ∀ j, r₂ j ≠ []) :
    (runMode P₁).events = (runMode P₂).events ∧
    runTrial (stubIface scfg satN groundN) cfg r₁ draws initStub =
      runTrial (stubIface scfg satN groundN) cfg r₂ draws initStub := by
  constructor
  · rw [hP]
  · have hfinal := iterApply_rel RelT _ _
      (fun a₁ a₂ h =>
        trialStep_rel scfg satN groundN cfg r₁ r₂ h₁ h₂ draws a₁ a₂ h)
      cfg.steps (initTrial initStub) (initTrial initStub)
      ⟨⟨rfl, List.Forall₂.nil⟩, rfl, rfl, rfl, rfl, rfl⟩
    obtain ⟨_, _, hmet, _, _, hjid⟩ := hfinal
    unfold runTrial
    dsimp only
    rw [hmet, hjid]

/-- Witness for C1 at concrete inputs: equal parameters give equal `run_mode`
logs, and two stub-backed trials that differ only in the receipt bytes
(`[1]` versus `[2]` for every job, tampering certain) produce identical
metrics. -/
theorem run_determinism_witness :
    (runMode Pc6).events = (runMode Pc6).events ∧
    runTrial (stubIface scfgW ["sat-0"] ["ground-0"]) tcfgW
        (fun _ => [1]) (fun _ => 0) initStub =
      runTrial (stubIface scfgW ["sat-0"] ["ground-0"]) tcfgW
        (fun _ => [2]) (fun _ => 0) initStub :=
  run_determinism Pc6 Pc6 rfl scfgW ["sat-0"] ["ground-0"] tcfgW
    (fun _ => 0) (fun _ => [1]) (fun _ => [2])
    (fun _ => List.cons_ne_nil _ _) (fun _ => List.cons_ne_nil _ _)

/-! ### C7 — when the TTL drop fires -/

/-- Counterexample to C7: a packet injected at step 0 with `ttl_steps = 0`
into a stub with no edges is neither delivered nor impairment-dropped, yet no
event at all fires at or before step `t0 + k = 0` — the `ttl` drop fires at
step `t0 + k + 1 = 1`, because the expiry test is the strict
`(now - inject_step) > ttl_steps` and the queue is only processed after the
step advances. -/
theorem ttl_drop_counterexample :
    (stubRun cfgC7 (fun _ => 0) (stubInject cfgC7 initStub pktC7) 0 2).2.1 =
      [(1, .dropped pktC7 "ttl")]
    ∧ ((stubRun cfgC7 (fun _ => 0) (stubInject cfgC7 initStub pktC7)
        0 2).2.1.all (fun p => decide (1 ≤ p.1))) = true := by
  decide

/-- C7 amended: a packet injected at step `t0` with `ttl_steps = k` that
remains queued is dropped with reason `ttl` exactly at step `t0 + k + 1` (not
at or before `t0 + k`), provided stepping continues through that step; any
earlier removal is a delivery or an impairment drop, which happens at or
before `t0 + k + 1`. -/
theorem ttl_drop_bound :
    ∀ (cfg : StubCfg) (draws : Nat → ℚ) (n : Nat) (s : StubState) (pos : Nat)
      (q : Queued),
      q ∈ s.queue → s.t ≤ q.tInject + q.ttl →
      q.tInject + q.ttl + 1 ≤ s.t + n →
      (∃ st, st ≤ q.tInject + q.ttl + 1 ∧
        ((st, QEvent.delivered q.pkt) ∈ (stubRun cfg draws s pos n).2.1
         ∨ (st, QEvent.dropped q.pkt "outage") ∈ (stubRun cfg draws s pos n).2.1
         ∨ (st, QEvent.dropped q.pkt "congestion") ∈
            (stubRun cfg draws s pos n).2.1))
      ∨ (q.tInject + q.ttl + 1, QEvent.dropped q.pkt "ttl") ∈
          (stubRun cfg draws s pos n).2.1 := by
  intro cfg draws n
  induction n with
  | zero =>
    intro s pos q _ hle hub
    omega
  | succ n ih =>
    intro s pos q hq hle hub
    obtain ⟨l₁, l₂, hsplit⟩ := List.append_of_mem hq
    have hstep : (stubStepOne cfg draws s pos).2.1 =
        (processQueue cfg (cfg.edges (s.t + 1)) (s.t + 1) draws l₁ pos).2.1 ++
        ((processPacket cfg (cfg.edges (s.t + 1)) (s.t + 1) draws q
          (processQueue cfg (cfg.edges (s.t + 1)) (s.t + 1) draws l₁
            pos).2.2).2.1 ++
         (processQueue cfg (cfg.edges (s.t + 1)) (s.t + 1) draws l₂
           (processPacket cfg (cfg.edges (s.t + 1)) (s.t + 1) draws q
             (processQueue cfg (cfg.edges (s.t + 1)) (s.t + 1) draws l₁
               pos).2.2).2.2).2.1) := by
      rw [stubStepOne_events, hsplit, processQueue_append, processQueue_cons]
    have hkeptq : (stubStepOne cfg draws s pos).1.queue =
        (processQueue cfg (cfg.edges (s.t + 1)) (s.t + 1) draws l₁ pos).1 ++
        ((processPacket cfg (cfg.edges (s.t + 1)) (s.t + 1) draws q
          (processQueue cfg (cfg.edges (s.t + 1)) (s.t + 1) draws l₁
            pos).2.2).1.toList ++
         (processQueue cfg (cfg.edges (s.t + 1)) (s.t + 1) draws l₂
           (processPacket cfg (cfg.edges (s.t + 1)) (s.t + 1) draws q
             (processQueue cfg (cfg.edges (s.t + 1)) (s.t + 1) draws l₁
               pos).2.2).2.2).1) := by
      rw [stubStepOne_queue, hsplit, processQueue_append, processQueue_cons]
    have hruntot : (stubRun cfg draws s pos (n + 1)).2.1 =
        (stubStepOne cfg draws s pos).2.1.map
          (fun e => ((stubStepOne cfg draws s pos).1.t, e)) ++
        (stubRun cfg draws (stubStepOne cfg draws s pos).1
          (stubStepOne cfg draws s pos).2.2 n).2.1 := rfl
    set p1 : Nat := (processQueue cfg (cfg.edges (s.t + 1)) (s.t + 1) draws l₁
      pos).2.2 with hp1
    by_cases httl : (s.t + 1) - q.tInject > q.ttl
    · -- ttl drop fires this step, which must be exactly t0 + k + 1
      have ht' : s.t + 1 = q.tInject + q.ttl + 1 := by omega
      right
      rw [hruntot]
      apply List.mem_append_left
      rw [stubStepOne_t, ht']
      apply List.mem_map_of_mem (fun e => (q.tInject + q.ttl + 1, e))
      rw [hstep, processPacket_ttl cfg _ _ draws q p1 httl]
      exact List.mem_append_right _ (List.mem_append_left _
        (List.mem_singleton.mpr rfl))
    · by_cases hpath : hasPath q.pkt.src q.pkt.dst (cfg.edges (s.t + 1))
      · -- delivery or impairment at this step, at or before t0 + k + 1
        left
        refine ⟨s.t + 1, by omega, ?_⟩
        rw [hruntot]
        by_cases ho : draws p1 < cfg.outageP
        · refine Or.inr (Or.inl ?_)
          apply List.mem_append_left
          rw [stubStepOne_t]
          apply List.mem_map_of_mem (fun e => (s.t + 1, e))
          rw [hstep, processPacket_outage cfg _ _ draws q p1 httl hpath ho]
          exact List.mem_append_right _ (List.mem_append_left _
            (List.mem_singleton.mpr rfl))
        · by_cases hc : draws (p1 + 1) < cfg.congP
          · refine Or.inr (Or.inr ?_)
            apply List.mem_append_left
            rw [stubStepOne_t]
            apply List.mem_map_of_mem (fun e => (s.t + 1, e))
            rw [hstep,
              processPacket_congestion cfg _ _ draws q p1 httl hpath ho hc]
            exact List.mem_append_right _ (List.mem_append_left _
              (List.mem_singleton.mpr rfl))
          · refine Or.inl ?_
            apply List.mem_append_left
            rw [stubStepOne_t]
            apply List.mem_map_of_mem (fun e => (s.t + 1, e))
            rw [hstep,
              processPacket_deliver cfg _ _ draws q p1 httl hpath ho hc]
            exact List.mem_append_right _ (List.mem_append_left _
              (List.mem_singleton.mpr rfl))
      · -- kept: recurse into the remaining steps
        have hkeep := processPacket_keep cfg _ _ draws q p1 httl hpath
        have hq' : q ∈ (stubStepOne cfg draws s pos).1.queue := by
          rw [hkeptq, hkeep]
          exact List.mem_append_right _ (List.mem_append_left _
            (List.mem_singleton.mpr rfl))
        have hle' : (stubStepOne cfg draws s pos).1.t ≤ q.tInject + q.ttl := by
          rw [stubStepOne_t]
          omega
        have hub' : q.tInject + q.ttl + 1 ≤
            (stubStepOne cfg draws s pos).1.t + n := by
          rw [stubStepOne_t]
          omega
        rcases ih (stubStepOne cfg draws s pos).1
            (stubStepOne cfg draws s pos).2.2 q hq' hle' hub' with
          ⟨st, hst, hmem⟩ | hmem
        · exact Or.inl ⟨st, hst, by
            rw [hruntot]
            rcases hmem with h | h | h
            · exact Or.inl (List.mem_append_right _ h)
            · exact Or.inr (Or.inl (List.mem_append_right _ h))
            · exact Or.inr (Or.inr (List.mem_append_right _ h))⟩
        · exact Or.inr (by
            rw [hruntot]
            exact List.mem_append_right _ hmem)

/-- Witness for C7 amended: the counterexample packet, run for two steps, is
`ttl`-dropped exactly at step `t0 + k + 1 = 1`. -/
theorem ttl_drop_bound_witness :
    (∃ st, st ≤ 1 ∧
      ((st, QEvent.delivered pktC7) ∈
          (stubRun cfgC7 (fun _ => 0)
            (stubInject cfgC7 initStub pktC7) 0 2).2.1
       ∨ (st, QEvent.dropped pktC7 "outage") ∈
          (stubRun cfgC7 (fun _ => 0)
            (stubInject cfgC7 initStub pktC7) 0 2).2.1
       ∨ (st, QEvent.dropped pktC7 "congestion") ∈
          (stubRun cfgC7 (fun _ => 0)
            (stubInject cfgC7 initStub pktC7) 0 2).2.1))
    ∨ (1, QEvent.dropped pktC7 "ttl") ∈
        (stubRun cfgC7 (fun _ => 0)
          (stubInject cfgC7 initStub pktC7) 0 2).2.1 := by
  have h := ttl_drop_bound cfgC7 (fun _ => 0) 2
    (stubInject cfgC7 initStub pktC7) 0
    { pkt := pktC7, tInject := 0, ttl := 0 }
    (by decide) (by decide) (by decide)
  simpa using h

/-! ### C5 — deadline accounting can double-count a late delivery -/

set_option maxRecDepth 40000 in
/-- C5 is violated by the code: in the two-step `run_trial` run over the
schedule `[[], [], [("sat-0","ground-0")]]` with `deadline_steps = 0` and
`ttl_steps = 5`, job 0 misses its deadline at step 1 (counted
`deadline_missed`) while its packet stays queued, and is then delivered and
verified at step 2 (counted `completed`): the run ends with `completed = 2`,
`deadline_missed = 1`, `total_jobs = 2`, so
`completed + deadline_missed = 3 > total_jobs` and job 0 is counted in both
outcomes — `on_rx` increments `completed` without checking that the job is
still tracked. -/
theorem deadline_double_count :
    (runTrial ifaceC5 cfgC5 receiptsC5 (fun _ => 0) initSched).1.completed = 2
    ∧ (runTrial ifaceC5 cfgC5 receiptsC5 (fun _ => 0)
        initSched).1.deadlineMissed = 1
    ∧ (runTrial ifaceC5 cfgC5 receiptsC5 (fun _ => 0) initSched).2 = 2
    ∧ ¬ ((runTrial ifaceC5 cfgC5 receiptsC5 (fun _ => 0) initSched).1.completed
          + (runTrial ifaceC5 cfgC5 receiptsC5 (fun _ => 0)
              initSched).1.deadlineMissed
        ≤ (runTrial ifaceC5 cfgC5 receiptsC5 (fun _ => 0) initSched).2) := by
  decide

/-! ### C2 — validation order and the `outside_area` override -/

/-- Counterexample to C2: at step 10 the token `payC2` is expired
(`valid_to = 5`), so the claimed first-failure order with spatial containment
last would report `expired`; the code's combined verdict instead overrides
the earlier failure and reports `outside_area` for a holder outside the
radius. -/
theorem validate_override_counterexample :
    validateSem payC2 taskC2 0 10 = (false, "expired")
    ∧ combinedVerdict (validateSem payC2 taskC2 0 10) false =
        (false, "outside_area")
    ∧ claimVerdict payC2 taskC2 0 10 false = (false, "expired")
    ∧ combinedVerdict (validateSem payC2 taskC2 0 10) false ≠
        claimVerdict payC2 taskC2 0 10 false := by
  decide

/-- C2 amended: `TokenProvider.validate` itself returns the first failing
reason in the order `decode_failed`, `bad_signature`, `expired`, `hop_limit`,
`service_not_allowed`, `missing_target` and performs no spatial check; the
ISL loop in `run_mode` applies the spatial check afterwards and
unconditionally replaces the verdict with `(False, outside_area)` whenever
the holder is outside the radius — overriding any earlier failure reason —
so `ok` is returned exactly when the token verdict is `ok` and the holder is
within the radius. -/
theorem validate_check_order_and_override :
    (∀ p task hopCount nowStep,
      validateSem p task hopCount nowStep =
        firstFailure (semChecks p task hopCount nowStep))
    ∧ (∀ tp tok task hopCount nowStep, parseTok tok = none →
        validateBytes tp tok task hopCount nowStep =
          some (false, "decode_failed"))
    ∧ (∀ tp tok obj task hopCount nowStep, parseTok tok = some obj →
        obj.lookup "sig" ≠ some (.str (tp.hashS (tp.secret ++
          encObj (obj.filter (fun kv => kv.1 ≠ "sig"))))) →
        validateBytes tp tok task hopCount nowStep =
          some (false, "bad_signature"))
    ∧ (∀ (v : Bool × String) (within : Bool),
        combinedVerdict v within =
          if within then v else (false, "outside_area"))
    ∧ (∀ p task hopCount nowStep (within : Bool),
        combinedVerdict (validateSem p task hopCount nowStep) within =
            (true, "ok")
          ↔ within = true
            ∧ validateSem p task hopCount nowStep = (true, "ok")) := by
  refine ⟨?_, ?_, ?_, ?_, ?_⟩
  · intro p task hopCount nowStep
    by_cases h1 : p.valid_from ≤ nowStep ∧ nowStep ≤ p.valid_to
    case neg => simp [validateSem, semChecks, firstFailure, h1]
    case pos =>
      by_cases h2 : hopCount ≤ p.max_hops
      case neg =>
        have h2' : p.max_hops < hopCount := Nat.not_le.mp h2
        simp [validateSem, semChecks, firstFailure, h1, h2, h2']
      case pos =>
        have h2' : ¬ p.max_hops < hopCount := Nat.not_lt.mpr h2
        by_cases h3 : task.service ∈ p.allowed_services
        case neg =>
          simp [validateSem, semChecks, firstFailure, h1, h2, h2', h3]
        case pos =>
          by_cases h4 : p.target = none ∨ p.radius = none
          · have h4' : ¬ (¬ p.target = none ∧ ¬ p.radius = none) := by tauto
            simp [validateSem, semChecks, firstFailure, h1, h2, h2', h3, h4, h4']
          · have h4' : p.target ≠ none ∧ p.radius ≠ none := not_or.mp h4
            simp [validateSem, semChecks, firstFailure, h1, h2, h2', h3, h4,
              h4'.1, h4'.2]
  · intro tp tok task hopCount nowStep hparse
    simp [validateBytes, hparse]
  · intro tp tok obj task hopCount nowStep hparse hsig
    simp only [validateBytes, hparse, validateObj]
    rw [if_pos hsig]
  · intro v within
    cases within <;> simp [combinedVerdict]
  · intro p task hopCount nowStep within
    cases within <;> simp [combinedVerdict]

/-- Witness for C2 amended at concrete inputs: the semantic chain agrees with
the first-failure reading, and a token with destroyed framing decodes to
nothing and is rejected as `decode_failed`. -/
theorem validate_check_order_witness :
    validateSem payC2 taskC2 0 3 = firstFailure (semChecks payC2 taskC2 0 3)
    ∧ validateBytes tpC tokCbad taskC 0 0 = some (false, "decode_failed")
    ∧ combinedVerdict (validateSem payC2 taskC2 0 3) false =
        if false then validateSem payC2 taskC2 0 3
        else (false, "outside_area") := by
  refine ⟨validate_check_order_and_override.1 payC2 taskC2 0 3, ?_, ?_⟩
  · exact validate_check_order_and_override.2.1 tpC tokCbad taskC 0 0
      (by decide)
  · exact validate_check_order_and_override.2.2.2.1
      (validateSem payC2 taskC2 0 3) false

/-! ### C9 — single-byte modifications of the encoded token -/

set_option maxRecDepth 100000 in
/-- Counterexample to C9: the issued token `tokC` validates `ok`; replacing
exactly one byte — the insignificant separator space at index 20 — by a tab
leaves the decoded payload and hence the canonical re-encoding and signature
check unchanged, and the modified token still validates `(True, "ok")`, not
`(False, "bad_signature")`; moreover a flip that destroys the JSON framing
yields `decode_failed`, also not `bad_signature`. -/
theorem token_flip_counterexample :
    validateBytes tpC tokC taskC 0 0 = some (true, "ok")
    ∧ tokCws.length = tokC.length
    ∧ tokC.get? 20 = some ' '
    ∧ tokCws.get? 20 = some (Char.ofNat 9)
    ∧ (∀ i : Fin tokC.length, i.val ≠ 20 → tokCws.get? i.val = tokC.get? i.val)
    ∧ validateBytes tpC tokCws taskC 0 0 = some (true, "ok")
    ∧ validateBytes tpC tokCbad taskC 0 0 = some (false, "decode_failed")
    ∧ validateBytes tpC tokCws taskC 0 0 ≠ some (false, "bad_signature") := by
  decide

/-- C9 amended: validation of a modified token is determined entirely by its
decoded payload — a modification that breaks decoding yields `decode_failed`;
one that leaves the decoded object unchanged (an insignificant whitespace
byte) leaves the verdict unchanged, so it can still be `ok`; an `ok` verdict
certifies that the embedded signature equals the keyed hash of the canonical
re-encoding; and, for a collision-free digest, a modification whose decoded
payload differs from the one the signature was computed over yields
`bad_signature`. -/
theorem token_flip_amended :
    (∀ tp tok tok' task hopCount nowStep, parseTok tok = parseTok tok' →
      validateBytes tp tok task hopCount nowStep =
        validateBytes tp tok' task hopCount nowStep)
    ∧ (∀ tp tok obj task hopCount nowStep, parseTok tok = some obj →
        validateBytes tp tok task hopCount nowStep = some (true, "ok") →
        obj.lookup "sig" = some (.str (tp.hashS (tp.secret ++
          encObj (obj.filter (fun kv => kv.1 ≠ "sig"))))))
    ∧ (∀ tp : TP, Function.Injective tp.hashS →
        ∀ tok obj payload task hopCount nowStep, parseTok tok = some obj →
        obj.lookup "sig" = some (.str (tp.hashS (tp.secret ++ encObj payload))) →
        encObj (obj.filter (fun kv => kv.1 ≠ "sig")) ≠ encObj payload →
        validateBytes tp tok task hopCount nowStep =
          some (false, "bad_signature")) := by
  refine ⟨?_, ?_, ?_⟩
  · intro tp tok tok' task hopCount nowStep hpp
    simp only [validateBytes, hpp]
  · intro tp tok obj task hopCount nowStep hparse hok
    simp only [validateBytes, hparse] at hok
    by_cases hsig : obj.lookup "sig" = some (.str (tp.hashS (tp.secret ++
        encObj (obj.filter (fun kv => kv.1 ≠ "sig")))))
    · exact hsig
    · exfalso
      simp only [validateObj] at hok
      rw [if_pos hsig] at hok
      exact absurd (Option.some.inj hok) (by simp)
  · intro tp hInj tok obj payload task hopCount nowStep hparse hsig hne
    have hcond : obj.lookup "sig" ≠ some (.str (tp.hashS (tp.secret ++
        encObj (obj.filter (fun kv => kv.1 ≠ "sig"))))) := by
      intro heq
      rw [hsig] at heq
      have h1 : tp.hashS (tp.secret ++ encObj payload) =
          tp.hashS (tp.secret ++
            encObj (obj.filter (fun kv => kv.1 ≠ "sig"))) :=
        JVal.str.inj (Option.some.inj heq)
      exact hne (List.append_cancel_left (hInj h1)).symm
    simp only [validateBytes, hparse, validateObj]
    rw [if_pos hcond]

/-! ### C3 — the hop count of the starting holder -/

theorem dispatchOne_inFlight_ne (sat : String) (st : MState)
    (kv : Nat × Task) (tid : Nat) (h : kv.1 ≠ tid) :
    (dispatchOne sat st kv).inFlight.lookup tid = st.inFlight.lookup tid := by
  unfold dispatchOne
  split
  · rfl
  · exact alInsert_lookup_ne kv.1 tid _ _ (by simpa using Ne.symm h)

theorem dispatchOne_dispatched_none (sat : String) (st : MState)
    (kv : Nat × Task) (tid : Nat) (h : kv.1 ≠ tid)
    (hd : st.dispatched.lookup tid = none) :
    (dispatchOne sat st kv).dispatched.lookup tid = none := by
  unfold dispatchOne
  split
  · exact hd
  · exact (alInsert_lookup_ne kv.1 tid _ _ (by simpa using Ne.symm h)).trans hd

theorem foldl_dispatch_preserve (sat : String) (tid : Nat) :
    ∀ (l : List (Nat × Task)) (st : MState), (∀ p ∈ l, p.1 ≠ tid) →
    (l.foldl (dispatchOne sat) st).inFlight.lookup tid =
      st.inFlight.lookup tid := by
  intro l
  induction l with
  | nil => intro st _; rfl
  | cons kv rest ih =>
    intro st hall
    rw [List.foldl_cons, ih _ (fun p hp => hall p (List.mem_cons_of_mem kv hp))]
    exact dispatchOne_inFlight_ne sat st kv tid (hall kv (List.mem_cons_self kv rest))

theorem foldl_dispatch_records_one (sat : String) (tid : Nat) (tsk : Task) :
    ∀ (l : List (Nat × Task)) (st : MState), (tid, tsk) ∈ l →
    (l.map Prod.fst).Nodup →
    st.dispatched.lookup tid = none →
    (((l.foldl (dispatchOne sat) st).inFlight.lookup tid).getD []).lookup sat
      = some 1 := by
  intro l
  induction l with
  | nil => intro st hmem; exact absurd hmem (List.not_mem_nil _)
  | cons kv rest ih =>
    intro st hmem hnodup hd
    rw [List.foldl_cons]
    rcases List.mem_cons.mp hmem with heq | hmem'
    · have hkey : kv.1 = tid := by rw [← heq]
      have hrest : ∀ p ∈ rest, p.1 ≠ tid := by
        intro p hp hcontra
        have : kv.1 ∈ rest.map Prod.fst := by
          rw [hkey, ← hcontra]
          exact List.mem_map_of_mem Prod.fst hp
        exact (List.nodup_cons.mp (by simpa using hnodup)).1 this
      rw [foldl_dispatch_preserve sat tid rest _ hrest]
      unfold dispatchOne
      rw [hkey, hd]
      simp only [Option.isSome_none, Bool.false_eq_true, if_false]
      rw [alInsert_lookup_self]
      simp [alInsert_lookup_self]
    · have hkey : kv.1 ≠ tid := by
        intro hcontra
        have : kv.1 ∈ rest.map Prod.fst := by
          rw [hcontra]
          exact List.mem_map_of_mem Prod.fst hmem'
        exact (List.nodup_cons.mp (by simpa using hnodup)).1 this
      exact ih _ hmem' (List.nodup_cons.mp (by simpa using hnodup)).2
        (dispatchOne_dispatched_none sat st kv tid hkey hd)

theorem propagateEdge_zero (step tid : Nat) (holders : List (String × Nat))
    (acc : List (String × Nat) × List Event) (e : String × String) :
    propagateEdge 0 step tid holders acc e = acc := by
  unfold propagateEdge
  split
  · rfl
  · cases h1 : holders.lookup e.1 <;> cases h2 : holders.lookup e.2 <;>
      simp [h1, h2]

set_option maxRecDepth 40000 in
/-- Counterexample to C3: in the one-step ISL run `Pc3` with `max_hops = 0`,
the starting holder is recorded with hop count 1 (not 0), and the very first
holder is rejected with `hop_limit` — while no propagated copy ever exists,
because propagation requires a recorded hop count strictly below
`max_hops`. -/
theorem hop_zero_counterexample :
    holderHop (runMode Pc3) 0 "sat-0" = some 1
    ∧ holderHop (runMode Pc3) 0 "sat-0" ≠ some 0
    ∧ Event.taskDispatched 0 0 "sat-0" ∈ (runMode Pc3).events
    ∧ Event.tokenValidated 0 0 "sat-0" false "hop_limit" ∈ (runMode Pc3).events
    ∧ (runMode Pc3).events.all
        (fun e => match e with
          | .taskForwarded _ _ _ _ => false
          | _ => true) = true := by
  decide

/-- C3 amended: in the ISL flood the starting holder recorded at dispatch
time has hop count 1, not 0; consequently, for a token issued with
`max_hops = 0`, propagation never fires (so no propagated copy exists) and
even the first holder fails validation with `hop_limit` whenever the current
step lies inside the token's validity window. -/
theorem hop_one_at_dispatch :
    (∀ (s : MState) (sat : String) (tid : Nat) (tsk : Task),
      (tid, tsk) ∈ s.pending →
      (s.pending.map Prod.fst).Nodup →
      s.dispatched.lookup tid = none →
      ((((islDispatch sat s).inFlight.lookup tid).getD []).lookup sat)
        = some 1)
    ∧ (∀ (step tid : Nat) (edges : List (String × String))
        (holders : List (String × Nat)),
        propagateEdges 0 step tid edges holders = (holders, []))
    ∧ (∀ (task : Task) (radius : ℚ) (hopCount nowStep : Nat),
        task.created_step ≤ nowStep → nowStep ≤ task.deadline_step →
        1 ≤ hopCount →
        validateSem (issueSem task 0 radius) task hopCount nowStep =
          (false, "hop_limit")) := by
  refine ⟨?_, ?_, ?_⟩
  · intro s sat tid tsk hmem hnodup hd
    exact foldl_dispatch_records_one sat tid tsk s.pending s hmem hnodup hd
  · intro step tid edges holders
    unfold propagateEdges
    induction edges with
    | nil => rfl
    | cons e rest ih =>
      rw [List.foldl_cons, propagateEdge_zero]
      exact ih
  · intro task radius hopCount nowStep h1 h2 h3
    simp [validateSem, issueSem, h1, h2]
    omega

/-- Witness for C3 amended at concrete inputs: dispatching the single pending
task records its holder at hop count 1; propagation with `max_hops = 0` is a
no-op; and an issued `max_hops = 0` token at hop count 1 fails with
`hop_limit` inside its validity window. -/
theorem hop_one_at_dispatch_witness :
    ((((islDispatch "sat-0"
        { initMState with pending := [(0, taskC)] }).inFlight.lookup 0).getD
          []).lookup "sat-0") = some 1
    ∧ propagateEdges 0 0 0 [("sat-0", "sat-1")] [("sat-0", 1)] =
        ([("sat-0", 1)], [])
    ∧ validateSem (issueSem taskC 0 1) taskC 1 0 = (false, "hop_limit") := by
  refine ⟨?_, ?_, ?_⟩
  · exact hop_one_at_dispatch.1 { initMState with pending := [(0, taskC)] }
      "sat-0" 0 taskC (List.mem_singleton.mpr rfl) (by simp) rfl
  · exact hop_one_at_dispatch.2.1 0 0 [("sat-0", "sat-1")] [("sat-0", 1)]
  · exact hop_one_at_dispatch.2.2 taskC 1 1 0 (by decide) (by decide)
      (by decide)

set_option maxRecDepth 100000 in
/-- Witness for C9 amended at concrete tokens: the whitespace-modified token
decodes to the same object and validates identically, and a crafted token
whose signature was computed over a different payload is rejected as
`bad_signature` under the injective identity digest. -/
theorem token_flip_amended_witness :
    validateBytes tpC tokC taskC 0 0 = validateBytes tpC tokCws taskC 0 0
    ∧ validateBytes tpU tokBadW taskC 0 0 = some (false, "bad_signature") := by
  constructor
  · exact token_flip_amended.1 tpC tokC tokCws taskC 0 0 (by decide)
  · exact token_flip_amended.2.2 tpU
      (fun a b h => unaryEnc_injective (by simpa using congrArg String.data h))
      tokBadW (sortByKey objBadW) payW taskC 0 0 (by decide) (by decide)
      (by decide)

end ScrapHypatia
